import Mathlib

/-! # bf2asm: the compiler pipeline of `src/bf2asm.go`

A shallow embedding of the parser loop of `main`, of `ListNode.Optimize1`,
`ListNode.Optimize2` and of the `Visit` code generator, together with a
reference interpreter for the node variants, and the properties proved about
them.

The passes are described twice.

* The definitions of the namespace `Bf2asm` describe the pipeline on the trees
  the program builds.  `newListNode` is called only for the program root
  (line 315), for a loop body (line 342) and for the output of a pass
  (lines 186, 246), so in these trees no list is an element of `Nodes`; and
  the `int` fields `Num` and `Offset` are sums of `+1`/`-1` contributions of
  single source bytes, and a byte slice has fewer than `2^63` bytes, so the
  sums stay in the 64-bit range and the fields are taken as mathematical
  integers.  The parser, and the properties of parsed programs and of the two
  passes on such trees, are stated on these definitions.
* The definitions of the namespace `Bf2asm.Go` describe the same methods on
  every value of the Go types: `Nodes` may hold a `*ListNode` element, which
  `ListNode.Visit` dispatches on at lines 153-154 and which the two passes
  hand on untouched, and every operation on an `int` (`+=`, `++`, `*-1`)
  wraps around at 64 bits (`wrap64`; `int` is 64 bits wide on the platforms
  the emitted x86-64 code runs on).  The code generator and the properties
  that are stated for every tree and every counter value are on these
  definitions.  On trees without list elements on which no sum leaves the
  64-bit range the two descriptions agree (`go_exec_ofNodes`,
  `go_Optimize2_ofNodes`), and so they do on the tree parsed from every
  well-bracketed source that a Go byte slice can hold (`go_passes_ofNodes`).

Modelling conventions.

* A `ListNode` is the Lean list of its `Nodes`; a `LoopNode` carries the node
  list of its `Children`.
* A source is the list of its bytes, each byte modelled by the `Char` with
  that code; the scanner loop distinguishes only the eight command characters.
* Emitted assembly is a list of `Line` values, one per printed line;
  `Line.render` gives the text that `Printf`/`Println` print.
* The reference semantics of the node variants follows section 3 of the
  specification.  Tape cells are bytes: every cell update is reduced `% 256`
  explicitly.  Termination is "some step budget suffices" for the interpreter
  `exec`.
* The passes update the tree in place; every node is an object that occurs
  once in the tree, as the parser builds it, so the in-place updates are
  modelled by functions returning the new node list.
-/

namespace Bf2asm

/-! ## AST model (lines 11-35, 49-56, 65-73, 91-97, 107-113, 123-135, 161-168) -/

/-- The `NodeType` tags are Go integer constants. -/
abbrev NodeType := Int

/-- `NodeMoveCell NodeType = iota`. -/
def NodeMoveCell : NodeType := 0
/-- Second constant of the `iota` block. -/
def NodeAdd : NodeType := 1
/-- Third constant of the `iota` block. -/
def NodePrint : NodeType := 2
/-- Fourth constant of the `iota` block. -/
def NodeGet : NodeType := 3
/-- Fifth constant of the `iota` block. -/
def NodeLoop : NodeType := 4
/-- Sixth constant of the `iota` block. -/
def NodeList : NodeType := 5
/-- Seventh constant of the `iota` block. -/
def NodeClear : NodeType := 6

/-- The element type of `ListNode.Nodes`: `MoveCellNode`, `AddNode`,
`PrintNode`, `GetNode`, `LoopNode` (with the nodes of its `Children` list) and
`ClearNode`. -/
inductive Node where
  | moveCell (num : Int)
  | add (num : Int) (offset : Int)
  | print
  | get
  | loop (children : List Node)
  | clear (offset : Int)
  deriving Repr, Inhabited

mutual
/-- Decidable equality of nodes. -/
def Node.decEq : (a b : Node) → Decidable (a = b)
  | .moveCell x, b =>
    match b with
    | .moveCell y =>
      if h : x = y then isTrue (by rw [h]) else isFalse (by intro e; cases e; exact h rfl)
    | .add _ _ | .print | .get | .loop _ | .clear _ => isFalse (by intro e; cases e)
  | .add x o, b =>
    match b with
    | .add y p =>
      if h : x = y ∧ o = p then isTrue (by rw [h.1, h.2])
      else isFalse (by intro e; cases e; exact h ⟨rfl, rfl⟩)
    | .moveCell _ | .print | .get | .loop _ | .clear _ => isFalse (by intro e; cases e)
  | .print, b =>
    match b with
    | .print => isTrue rfl
    | .moveCell _ | .add _ _ | .get | .loop _ | .clear _ => isFalse (by intro e; cases e)
  | .get, b =>
    match b with
    | .get => isTrue rfl
    | .moveCell _ | .add _ _ | .print | .loop _ | .clear _ => isFalse (by intro e; cases e)
  | .clear o, b =>
    match b with
    | .clear p =>
      if h : o = p then isTrue (by rw [h]) else isFalse (by intro e; cases e; exact h rfl)
    | .moveCell _ | .add _ _ | .print | .get | .loop _ => isFalse (by intro e; cases e)
  | .loop xs, b =>
    match b with
    | .loop ys =>
      match Node.decEqList xs ys with
      | isTrue h => isTrue (by rw [h])
      | isFalse h => isFalse (by intro e; cases e; exact h rfl)
    | .moveCell _ | .add _ _ | .print | .get | .clear _ => isFalse (by intro e; cases e)
/-- Decidable equality of node lists. -/
def Node.decEqList : (a b : List Node) → Decidable (a = b)
  | [], [] => isTrue rfl
  | [], _ :: _ => isFalse (by intro e; cases e)
  | _ :: _, [] => isFalse (by intro e; cases e)
  | x :: xs, y :: ys =>
    match Node.decEq x y, Node.decEqList xs ys with
    | isTrue h1, isTrue h2 => isTrue (by rw [h1, h2])
    | isFalse h1, _ => isFalse (by intro e; cases e; exact h1 rfl)
    | _, isFalse h2 => isFalse (by intro e; cases e; exact h2 rfl)
end

instance : DecidableEq Node := Node.decEq

/-- The `Type()` method of a node. -/
def Node.type : Node → NodeType
  | .moveCell _ => NodeMoveCell
  | .add _ _ => NodeAdd
  | .print => NodePrint
  | .get => NodeGet
  | .loop _ => NodeLoop
  | .clear _ => NodeClear

/-- `newClearNode()`: the `Offset` field is left at its zero value. -/
def newClearNode : Node := .clear 0

/-- `newMoveCellNode(x)`. -/
def newMoveCellNode (x : Int) : Node := .moveCell x

/-- `newAddNode(x)`: `Offset: 0`. -/
def newAddNode (x : Int) : Node := .add x 0

/-- `newPrintNode()`. -/
def newPrintNode : Node := .print

/-- `newGetNode()`. -/
def newGetNode : Node := .get

/-- `newLoopNode(l)`. -/
def newLoopNode (l : List Node) : Node := .loop l

/-! ## Pass A: `ListNode.Optimize1` (lines 185-242) -/

/-- The test of line 206 on the children of a loop after they were optimized:
`len(Nodes) == 1 && Nodes[0].Type() == NodeAdd && Nodes[0].(*AddNode).Num == -1`.
The `Offset` field is not read. -/
def isDecrementBody : List Node → Bool
  | [.add num _] => num == -1
  | _ => false

/-- Lines 199-202 and 236-238: append the pending node, if there is one. -/
def flushLast (newList : List Node) (lastNode : Option Node) : List Node :=
  match lastNode with
  | some ln => newList ++ [ln]
  | none => newList

mutual
/-- The call `n.(*LoopNode).Children.Optimize1(st)` of line 203: the nodes of
the children list after the call. -/
def Node.optimize1Children : Node → List Node
  | .loop children => optimize1Loop children [] none
  | _ => []
/-- The `for _, n := range l.Nodes` loop of `Optimize1` (lines 195-234)
followed by the final flush (lines 236-238), started on the remaining input
with the current `newList.Nodes` and `lastNode`.

`lastType` is not a separate component: wherever `lastNode` is assigned a
node, `lastType` is assigned that node's type (lines 207-208, 213-214,
230-231), and `lastType` is read only at line 215, where `lastNode != nil`;
so `curType == lastType` there is `n.Type() == lastNode.Type()`. -/
def optimize1Loop : List Node → List Node → Option Node → List Node
  | [], newList, lastNode => flushLast newList lastNode
  | n :: rest, newList, lastNode =>
    match n with
    | .loop _ =>
      if isDecrementBody (Node.optimize1Children n) then
        optimize1Loop rest (flushLast newList lastNode) (some newClearNode)
      else
        optimize1Loop rest
          (flushLast newList lastNode ++ [.loop (Node.optimize1Children n)]) none
    | _ =>
      match lastNode with
      | none => optimize1Loop rest newList (some n)
      | some ln =>
        if n.type = ln.type then
          match ln, n with
          | .moveCell a, .moveCell b => optimize1Loop rest newList (some (.moveCell (a + b)))
          | .add a off, .add b _ => optimize1Loop rest newList (some (.add (a + b) off))
          | .clear off, .clear _ => optimize1Loop rest newList (some (.clear off))
          | _, _ => optimize1Loop rest (newList ++ [ln, n]) none
        else
          optimize1Loop rest (newList ++ [ln]) (some n)
end

/-- `ListNode.Optimize1`: the new value of `l.Nodes`.  For `l.Nodes == nil`
the method returns at line 189 and the list stays empty, which is also what
the loop gives. -/
def Optimize1 (nodes : List Node) : List Node :=
  optimize1Loop nodes [] none

/-! ## Pass B: `ListNode.Optimize2` (lines 244-292) -/

/-- Lines 257-261, 273-277 and 284-288: a pending nonzero `movCellOffset` is
realized by a new `MoveCellNode`. -/
def realize (newList : List Node) (movCellOffset : Int) : List Node :=
  if movCellOffset ≠ 0 then newList ++ [newMoveCellNode movCellOffset] else newList

mutual
/-- The call `n.(*LoopNode).Children.Optimize2(st)` of line 278: the nodes of
the children list after the call. -/
def Node.optimize2Children : Node → List Node
  | .loop children => optimize2Loop children [] 0
  | _ => []
/-- The `for _, n := range l.Nodes` loop of `Optimize2` (lines 254-281)
followed by the final restore (lines 284-288), started on the remaining input
with the current `newList.Nodes` and `movCellOffset`.  For a `Print` or `Get`
node the test of line 257 realizes a nonzero offset and resets it, so the
offset is `0` after the node in either case. -/
def optimize2Loop : List Node → List Node → Int → List Node
  | [], newList, movCellOffset => realize newList movCellOffset
  | n :: rest, newList, movCellOffset =>
    match n with
    | .print => optimize2Loop rest (realize newList movCellOffset ++ [n]) 0
    | .get => optimize2Loop rest (realize newList movCellOffset ++ [n]) 0
    | .moveCell num => optimize2Loop rest newList (movCellOffset + num)
    | .add num offset =>
      optimize2Loop rest (newList ++ [.add num (offset + movCellOffset)]) movCellOffset
    | .clear offset =>
      optimize2Loop rest (newList ++ [.clear (offset + movCellOffset)]) movCellOffset
    | .loop _ =>
      optimize2Loop rest
        (realize newList movCellOffset ++ [.loop (Node.optimize2Children n)]) 0
end

/-- `ListNode.Optimize2`: the new value of `l.Nodes` (empty input: early
return at line 249, the list stays empty). -/
def Optimize2 (nodes : List Node) : List Node :=
  optimize2Loop nodes [] 0

/-! ## Parser: the scanner loop of `main` (lines 315-350) -/

/-- The parser's view of the tree under construction.

`within cur parents`: `list` points to an open list whose `Nodes` are `cur`;
`parents` holds, innermost first, the nodes that each enclosing open list had
before the `LoopNode` leading to the next inner list was appended to it.
`detached root`: `list == nil` after `list = list.Parent` was executed on the
root list, whose finished nodes are `root`. -/
inductive ParseState where
  | within (cur : List Node) (parents : List (List Node))
  | detached (root : List Node)
  deriving Repr, Inhabited

/-- Closing an open list: the enclosing list ends with the `LoopNode` that owns
the closed one. -/
def closeInto (child before : List Node) : List Node :=
  before ++ [newLoopNode child]

/-- The nodes of `startList` for a parser state. -/
def ParseState.root : ParseState → List Node
  | .within cur parents => parents.foldl closeInto cur
  | .detached root => root

/-- `list.append(node)`; it dereferences `list`, which fails for `nil`. -/
def ParseState.append (st : ParseState) (n : Node) : Option ParseState :=
  match st with
  | .within cur parents => some (.within (cur ++ [n]) parents)
  | .detached _ => none

/-- One iteration of the scanner loop (the `switch token[0]` of lines 322-349).
`none` is the nil-pointer dereference of `list.append` or `list.Parent` when
`list == nil`. -/
def parseStep (st : ParseState) (token : Char) : Option ParseState :=
  match token with
  | '>' => st.append (newMoveCellNode 1)
  | '<' => st.append (newMoveCellNode (-1))
  | '+' => st.append (newAddNode 1)
  | '-' => st.append (newAddNode (-1))
  | '.' => st.append newPrintNode
  | ',' => st.append newGetNode
  | '[' =>
    match st with
    | .within cur parents => some (.within [] (cur :: parents))
    | .detached _ => none
  | ']' =>
    match st with
    | .within cur (before :: parents) => some (.within (closeInto cur before) parents)
    | .within cur [] => some (.detached cur)
    | .detached _ => none
  | _ => some st

/-- The scanner loop from a given state over the remaining source bytes. -/
def parseFrom : ParseState → List Char → Option ParseState
  | st, [] => some st
  | st, token :: rest =>
    match parseStep st token with
    | some st1 => parseFrom st1 rest
    | none => none

/-- The tree handed to the passes at line 352: the nodes of `startList` after
the scanner loop, or `none` when the loop dereferenced a nil `list`. -/
def parse (source : List Char) : Option (List Node) :=
  (parseFrom (.within [] []) source).map ParseState.root

/-- The eight command bytes. -/
def isCommand (c : Char) : Bool :=
  c == '>' || c == '<' || c == '+' || c == '-' || c == '.' || c == ',' || c == '[' || c == ']'

/-- Bracket scan with the number of currently open `[`: no `]` without an open
`[`, and nothing left open at the end. -/
def bracketScan : List Char → Nat → Bool
  | [], depth => depth == 0
  | c :: rest, depth =>
    if c = '[' then bracketScan rest (depth + 1)
    else if c = ']' then
      match depth with
      | 0 => false
      | d + 1 => bracketScan rest d
    else bracketScan rest depth

/-- A source is well-bracketed when its `[` and `]` match. -/
def WellBracketed (source : List Char) : Prop :=
  bracketScan source 0 = true

instance (source : List Char) : Decidable (WellBracketed source) :=
  inferInstanceAs (Decidable (bracketScan source 0 = true))

/-- The whole compile pipeline up to code generation (lines 352-353). -/
def pipeline (source : List Char) : Option (List Node) :=
  (parse source).map fun t => Optimize2 (Optimize1 t)

/-! ## Reference semantics of the node variants (specification, section 3) -/

/-- The machine a program runs on: the byte tape, the data pointer, the unread
input bytes and the bytes written so far. -/
structure Machine where
  tape : Int → Fin 256
  ptr : Int
  input : List (Fin 256)
  output : List (Fin 256)

/-- Adding a delta to a byte cell wraps around: the sum is reduced `% 256`. -/
def addByte (c : Fin 256) (delta : Int) : Fin 256 :=
  ⟨(((c.val : Int) + delta) % 256).toNat, by omega⟩

/-- The effect of one node that is not a loop.
`MoveCell` shifts the data pointer; `Add` and `Clear` act on the cell at
`offset` cells from the pointer; `Print` appends the byte at the pointer to the
output; `Get` stores the next input byte in the cell at the pointer (at the end
of the input a one-byte read transfers nothing and the cell keeps its value). -/
def Node.step (n : Node) (m : Machine) : Machine :=
  match n with
  | .moveCell num => { m with ptr := m.ptr + num }
  | .add num offset =>
    { m with tape := Function.update m.tape (m.ptr + offset)
                       (addByte (m.tape (m.ptr + offset)) num) }
  | .print => { m with output := m.output ++ [m.tape m.ptr] }
  | .get =>
    match m.input with
    | [] => m
    | b :: rest => { m with tape := Function.update m.tape m.ptr b, input := rest }
  | .clear offset => { m with tape := Function.update m.tape (m.ptr + offset) 0 }
  | .loop _ => m

/-- Running a node list with a step budget: every node visit and every loop
test costs one unit.  `Loop` repeats its children while the cell at the pointer
is nonzero.  `none` means the budget ran out. -/
def exec : Nat → List Node → Machine → Option Machine
  | 0, _, _ => none
  | _ + 1, [], m => some m
  | fuel + 1, n :: rest, m =>
    match n with
    | .loop children =>
      if m.tape m.ptr = 0 then exec fuel rest m
      else
        match exec fuel children m with
        | some m1 => exec fuel (n :: rest) m1
        | none => none
    | _ => exec fuel rest (n.step m)

/-- The program, started in `m`, terminates in `m1`. -/
def Terminates (prog : List Node) (m m1 : Machine) : Prop :=
  ∃ fuel, exec fuel prog m = some m1

/-- The program, started in `m`, terminates. -/
def Halts (prog : List Node) (m : Machine) : Prop :=
  ∃ m1, Terminates prog m m1

/-- Observational equivalence of two programs: from every start one terminates
iff the other does, and then in the same final machine (same output, tape,
pointer and unread input). -/
def Equivalent (p q : List Node) : Prop :=
  ∀ m m1, Terminates p m m1 ↔ Terminates q m m1

/-- A machine with every cell zero, the pointer at `0`, and the given input. -/
def Machine.init (input : List (Fin 256)) : Machine :=
  { tape := fun _ => 0, ptr := 0, input := input, output := [] }

/-! ## Shape predicates on trees -/

mutual
/-- The node, and every node below it, addresses the cell at the pointer:
`Add` and `Clear` have `Offset == 0`. -/
def Node.zeroOffsets : Node → Bool
  | .add _ offset => offset == 0
  | .clear offset => offset == 0
  | .loop children => zeroOffsetsList children
  | _ => true
/-- Every node of the list satisfies `Node.zeroOffsets`. -/
def zeroOffsetsList : List Node → Bool
  | [] => true
  | n :: rest => n.zeroOffsets && zeroOffsetsList rest
end

mutual
/-- The node is one the scanner loop can build: `MoveCell` and `Add` with
delta `+1` or `-1`, `Add` with offset `0`, `Print`, `Get`, and loops of such
nodes; no `Clear`. -/
def Node.parserBuilt : Node → Bool
  | .moveCell num => num == 1 || num == -1
  | .add num offset => (num == 1 || num == -1) && offset == 0
  | .print => true
  | .get => true
  | .loop children => parserBuiltList children
  | .clear _ => false
/-- Every node of the list satisfies `Node.parserBuilt`. -/
def parserBuiltList : List Node → Bool
  | [] => true
  | n :: rest => n.parserBuilt && parserBuiltList rest
end

/-! ## Flattening a tree back to source tokens -/

mutual
/-- The token text of a node: `MoveCell(+1)` is `>`, `MoveCell(-1)` is `<`,
`Add(+1,0)` is `+`, `Add(-1,0)` is `-`, `Print` is `.`, `Get` is `,` and a
loop is its flattened body between `[` and `]`.  Other nodes have no token
text. -/
def Node.flatten : Node → Option (List Char)
  | .moveCell num => if num = 1 then some ['>'] else if num = -1 then some ['<'] else none
  | .add num offset =>
    if offset = 0 then
      if num = 1 then some ['+'] else if num = -1 then some ['-'] else none
    else none
  | .print => some ['.']
  | .get => some [',']
  | .loop children => (flattenList children).map fun body => '[' :: body ++ [']']
  | .clear _ => none
/-- The token text of a node list: the texts of its nodes in order. -/
def flattenList : List Node → Option (List Char)
  | [] => some []
  | n :: rest => n.flatten.bind fun a => (flattenList rest).map fun b => a ++ b
end

/-! ## Counting nodes -/

mutual
/-- The number of `MoveCell` nodes at or below a node. -/
def Node.countMoveCell : Node → Nat
  | .moveCell _ => 1
  | .loop children => countMoveCellList children
  | _ => 0
/-- The number of `MoveCell` nodes in a tree, all nesting levels included. -/
def countMoveCellList : List Node → Nat
  | [] => 0
  | n :: rest => n.countMoveCell + countMoveCellList rest
end

/-! ## Code generator: state, emitted lines and the `Visit` methods without arithmetic (lines 41-47, 98-105, 114-121) -/

/-- The code generator state, `type State struct { Loop int }`. -/
structure State where
  Loop : Int
  deriving Repr, DecidableEq

/-- One emitted line.  The lines with a number in them keep the number as a
field; `Line.render` gives the printed text. -/
inductive Line where
  | clearAt (offset : Int)
  | clear
  | addRsp (num : Int)
  | subRsp (num : Int)
  | incAt (offset num : Int)
  | decAt (offset num : Int)
  | inc (num : Int)
  | dec (num : Int)
  | text (s : String)
  | cmpZero
  | je (loopNum : Int)
  | loopStart (loopNum : Int)
  | jne (loopNum : Int)
  | loopEnd (loopNum : Int)
  deriving Repr, DecidableEq

/-- The text of a line as the `Printf`/`Println` calls print it (without the
final newline); `%d` prints a decimal integer. -/
def Line.render : Line → String
  | .clearAt offset => "\tmov BYTE [rsp+" ++ toString offset ++ "], 0 ; Clear Node"
  | .clear => "\tmov BYTE [rsp], 0 ; Clear Node"
  | .addRsp num => "\tadd rsp, " ++ toString num ++ " ; Next Cell"
  | .subRsp num => "\tsub rsp, " ++ toString num ++ " ; Prev Cell"
  | .incAt offset num =>
    "\tadd BYTE [rsp+" ++ toString offset ++ "], " ++ toString num ++ " ; Inc Node"
  | .decAt offset num =>
    "\tsub BYTE [rsp+" ++ toString offset ++ "], " ++ toString num ++ " ; Dec Node"
  | .inc num => "\tadd BYTE [rsp], " ++ toString num ++ " ; Inc Node"
  | .dec num => "\tsub BYTE [rsp], " ++ toString num ++ " ; Dec Node"
  | .text s => s
  | .cmpZero => "\tcmp BYTE [rsp], 0"
  | .je loopNum => "\tje loop_end_" ++ toString loopNum
  | .loopStart loopNum => "loop_start_" ++ toString loopNum ++ ":"
  | .jne loopNum => "\tjne loop_start_" ++ toString loopNum
  | .loopEnd loopNum => "loop_end_" ++ toString loopNum ++ ":"

/-- `ClearNode.Visit` (lines 41-47). -/
def visitClear (offset : Int) : List Line :=
  if offset ≠ 0 then [.clearAt offset] else [.clear]

/-- `PrintNode.Visit` (lines 98-105). -/
def visitPrint : List Line :=
  [.text "\tmov rax, 1", .text "\tmov rdi, 1", .text "\tmov rsi, rsp", .text "\tmov rdx, 1",
    .text "\tsyscall"]

/-- `GetNode.Visit` (lines 114-121). -/
def visitGet : List Line :=
  [.text "\tmov rax, 0", .text "\tmov rdi, 0", .text "\tmov rsi, rsp", .text "\tmov rdx, 1",
    .text "\tsyscall"]

/-- The indices of the `loop_start_<n>:` label definitions, in emission
order. -/
def startLabels (lines : List Line) : List Int :=
  lines.filterMap fun l => match l with | .loopStart k => some k | _ => none

/-- The indices of the `loop_end_<n>:` label definitions, in emission order. -/
def endLabels (lines : List Line) : List Int :=
  lines.filterMap fun l => match l with | .loopEnd k => some k | _ => none

/-- The indices named by the `je loop_end_<n>` branches, in emission order. -/
def jeTargets (lines : List Line) : List Int :=
  lines.filterMap fun l => match l with | .je k => some k | _ => none

/-- The indices named by the `jne loop_start_<n>` branches, in emission
order. -/
def jneTargets (lines : List Line) : List Int :=
  lines.filterMap fun l => match l with | .jne k => some k | _ => none

/-- The label indices `c+1, ..., c+k`. -/
def labelRange (c : Int) (k : Nat) : List Int :=
  (List.range k).map fun (i : Nat) => c + 1 + (i : Int)

/-- A line that is neither a branch to a loop label nor a loop label. -/
def Line.plain : Line → Bool
  | .je _ => false
  | .loopStart _ => false
  | .jne _ => false
  | .loopEnd _ => false
  | _ => true

/-! ## Input/output nodes of a tree -/

mutual
/-- The `Print` and `Get` nodes at or below a node, in depth-first,
left-to-right order. -/
def Node.ioNodes : Node → List Node
  | .print => [.print]
  | .get => [.get]
  | .loop children => ioNodesList children
  | _ => []
/-- The `Print` and `Get` nodes met in a depth-first, left-to-right walk of a
tree. -/
def ioNodesList : List Node → List Node
  | [] => []
  | n :: rest => n.ioNodes ++ ioNodesList rest
end

/-! ## Placement of `MoveCell` nodes -/

/-- The list is empty or starts with a node that works on the cell at the
physical pointer: `Print`, `Get` or `Loop`. -/
def needsPointer : List Node → Bool
  | [] => true
  | .print :: _ => true
  | .get :: _ => true
  | .loop _ :: _ => true
  | _ => false

/-- A `MoveCell` followed by `rest` has a nonzero delta and is the last node
or stands right before a `Print`, `Get` or `Loop`; other nodes are not
restricted. -/
def moveWellPlaced (n : Node) (rest : List Node) : Bool :=
  match n with
  | .moveCell num => num != 0 && needsPointer rest
  | _ => true

mutual
/-- Every list below the node satisfies `movesRequiredList`. -/
def Node.movesRequired : Node → Bool
  | .loop children => movesRequiredList children
  | _ => true
/-- In this list and in every list nested in it, every `MoveCell` satisfies
`moveWellPlaced`. -/
def movesRequiredList : List Node → Bool
  | [] => true
  | n :: rest => n.movesRequired && moveWellPlaced n rest && movesRequiredList rest
end

/-! ## Nesting depth -/

mutual
/-- The loop-nesting depth of a node: a loop is one level deeper than its
children, any other node has depth `0`. -/
def Node.depth : Node → Nat
  | .loop children => 1 + depthList children
  | _ => 0
/-- The maximum loop-nesting depth of a tree. -/
def depthList : List Node → Nat
  | [] => 0
  | n :: rest => max n.depth (depthList rest)
end

/-- The number of `[` minus the number of `]` in a byte sequence. -/
def bracketBalance (s : List Char) : Int :=
  (s.count '[' : Int) - (s.count ']' : Int)

/-- The maximum bracket-nesting depth of a source: the largest value of
`bracketBalance` over all its initial segments (the empty one has balance
`0`). -/
def bracketDepth (s : List Char) : Int :=
  (s.inits.map bracketBalance).foldr max 0

/-! ## More shape predicates -/

mutual
/-- The node is not a `Clear` and no node below it is. -/
def Node.noClear : Node → Bool
  | .clear _ => false
  | .loop children => noClearList children
  | _ => true
/-- The tree contains no `Clear` node. -/
def noClearList : List Node → Bool
  | [] => true
  | n :: rest => n.noClear && noClearList rest
end

/-- Every list of a parser state holds only nodes the scanner loop builds. -/
def ParseState.built : ParseState → Bool
  | .within cur parents => parserBuiltList cur && parents.all parserBuiltList
  | .detached root => parserBuiltList root

/-- No initial segment of the source has more `]` than `[`. -/
def NoExcessClose (source : List Char) : Prop :=
  ∀ p ∈ source.inits, p.count ']' ≤ p.count '['

instance (source : List Char) : Decidable (NoExcessClose source) :=
  inferInstanceAs (Decidable (∀ p ∈ source.inits, p.count ']' ≤ p.count '['))

/-! ## The methods on every value of the Go types

The definitions above describe the pipeline on the trees the program builds.
The namespace `Go` describes the same methods on every value of the Go types:
`Nodes` may hold a `*ListNode` element (the `case NodeList` of line 153), and
every `int` operation wraps around at 64 bits. -/

namespace Go

/-- The value of a Go `int` expression whose mathematical value is `x`:
two's complement wrap-around at 64 bits. -/
def wrap64 (x : Int) : Int :=
  (x + 9223372036854775808) % 18446744073709551616 - 9223372036854775808

/-- The integer is a value of Go's 64-bit `int`. -/
def InInt64 (x : Int) : Prop :=
  -9223372036854775808 ≤ x ∧ x ≤ 9223372036854775807

instance (x : Int) : Decidable (InInt64 x) :=
  inferInstanceAs (Decidable (-9223372036854775808 ≤ x ∧ x ≤ 9223372036854775807))

/-- The element type of `ListNode.Nodes`, with the `*ListNode` element. -/
inductive Node where
  | moveCell (num : Int)
  | add (num : Int) (offset : Int)
  | print
  | get
  | loop (children : List Node)
  | list (nodes : List Node)
  | clear (offset : Int)
  deriving Repr, Inhabited

mutual
/-- Decidable equality of nodes. -/
def Node.decEq : (a b : Node) → Decidable (a = b)
  | .moveCell x, b =>
    match b with
    | .moveCell y =>
      if h : x = y then isTrue (by rw [h]) else isFalse (by intro e; cases e; exact h rfl)
    | .add _ _ | .print | .get | .loop _ | .list _ | .clear _ =>
      isFalse (by intro e; cases e)
  | .add x o, b =>
    match b with
    | .add y p =>
      if h : x = y ∧ o = p then isTrue (by rw [h.1, h.2])
      else isFalse (by intro e; cases e; exact h ⟨rfl, rfl⟩)
    | .moveCell _ | .print | .get | .loop _ | .list _ | .clear _ =>
      isFalse (by intro e; cases e)
  | .print, b =>
    match b with
    | .print => isTrue rfl
    | .moveCell _ | .add _ _ | .get | .loop _ | .list _ | .clear _ =>
      isFalse (by intro e; cases e)
  | .get, b =>
    match b with
    | .get => isTrue rfl
    | .moveCell _ | .add _ _ | .print | .loop _ | .list _ | .clear _ =>
      isFalse (by intro e; cases e)
  | .clear o, b =>
    match b with
    | .clear p =>
      if h : o = p then isTrue (by rw [h]) else isFalse (by intro e; cases e; exact h rfl)
    | .moveCell _ | .add _ _ | .print | .get | .loop _ | .list _ =>
      isFalse (by intro e; cases e)
  | .loop xs, b =>
    match b with
    | .loop ys =>
      match Node.decEqList xs ys with
      | isTrue h => isTrue (by rw [h])
      | isFalse h => isFalse (by intro e; cases e; exact h rfl)
    | .moveCell _ | .add _ _ | .print | .get | .list _ | .clear _ =>
      isFalse (by intro e; cases e)
  | .list xs, b =>
    match b with
    | .list ys =>
      match Node.decEqList xs ys with
      | isTrue h => isTrue (by rw [h])
      | isFalse h => isFalse (by intro e; cases e; exact h rfl)
    | .moveCell _ | .add _ _ | .print | .get | .loop _ | .clear _ =>
      isFalse (by intro e; cases e)
/-- Decidable equality of node lists. -/
def Node.decEqList : (a b : List Node) → Decidable (a = b)
  | [], [] => isTrue rfl
  | [], _ :: _ => isFalse (by intro e; cases e)
  | _ :: _, [] => isFalse (by intro e; cases e)
  | x :: xs, y :: ys =>
    match Node.decEq x y, Node.decEqList xs ys with
    | isTrue h1, isTrue h2 => isTrue (by rw [h1, h2])
    | isFalse h1, _ => isFalse (by intro e; cases e; exact h1 rfl)
    | _, isFalse h2 => isFalse (by intro e; cases e; exact h2 rfl)
end

instance : DecidableEq Node := Node.decEq

/-- The `Type()` method of a node. -/
def Node.type : Node → NodeType
  | .moveCell _ => NodeMoveCell
  | .add _ _ => NodeAdd
  | .print => NodePrint
  | .get => NodeGet
  | .loop _ => NodeLoop
  | .list _ => NodeList
  | .clear _ => NodeClear

/-! ### Pass A: `ListNode.Optimize1` (lines 185-242) -/

/-- The test of line 206 on the children of a loop after they were optimized;
the `Offset` field is not read. -/
def isDecrementBody : List Node → Bool
  | [.add num _] => num == -1
  | _ => false

/-- Lines 199-202 and 236-238: append the pending node, if there is one. -/
def flushLast (newList : List Node) (lastNode : Option Node) : List Node :=
  match lastNode with
  | some ln => newList ++ [ln]
  | none => newList

mutual
/-- The call `n.(*LoopNode).Children.Optimize1(st)` of line 203: the nodes of
the children list after the call. -/
def Node.optimize1Children : Node → List Node
  | .loop children => optimize1Loop children [] none
  | _ => []
/-- The `for _, n := range l.Nodes` loop of `Optimize1` (lines 195-234)
followed by the final flush (lines 236-238), started on the remaining input
with the current `newList.Nodes` and `lastNode`.  The two `+=` of lines 218
and 220 wrap around at 64 bits.  A `*ListNode` element is not a loop: it
becomes pending or is flushed like any other node, two of them in a row take
the `default` case, and the pass does not look inside it.

`lastType` is not a separate component: wherever `lastNode` is assigned a
node, `lastType` is assigned that node's type (lines 207-208, 213-214,
230-231), and `lastType` is read only at line 215, where `lastNode != nil`. -/
def optimize1Loop : List Node → List Node → Option Node → List Node
  | [], newList, lastNode => flushLast newList lastNode
  | n :: rest, newList, lastNode =>
    match n with
    | .loop _ =>
      if isDecrementBody (Node.optimize1Children n) then
        optimize1Loop rest (flushLast newList lastNode) (some (.clear 0))
      else
        optimize1Loop rest
          (flushLast newList lastNode ++ [.loop (Node.optimize1Children n)]) none
    | _ =>
      match lastNode with
      | none => optimize1Loop rest newList (some n)
      | some ln =>
        if n.type = ln.type then
          match ln, n with
          | .moveCell a, .moveCell b =>
            optimize1Loop rest newList (some (.moveCell (wrap64 (a + b))))
          | .add a off, .add b _ =>
            optimize1Loop rest newList (some (.add (wrap64 (a + b)) off))
          | .clear off, .clear _ => optimize1Loop rest newList (some (.clear off))
          | _, _ => optimize1Loop rest (newList ++ [ln, n]) none
        else
          optimize1Loop rest (newList ++ [ln]) (some n)
end

/-- `ListNode.Optimize1`: the new value of `l.Nodes`. -/
def Optimize1 (nodes : List Node) : List Node :=
  optimize1Loop nodes [] none

/-! ### Pass B: `ListNode.Optimize2` (lines 244-292) -/

/-- Lines 257-261, 273-277 and 284-288: a pending nonzero `movCellOffset` is
realized by a new `MoveCellNode`. -/
def realize (newList : List Node) (movCellOffset : Int) : List Node :=
  if movCellOffset ≠ 0 then newList ++ [.moveCell movCellOffset] else newList

mutual
/-- The call `n.(*LoopNode).Children.Optimize2(st)` of line 278: the nodes of
the children list after the call. -/
def Node.optimize2Children : Node → List Node
  | .loop children => optimize2Loop children [] 0
  | _ => []
/-- The `for _, n := range l.Nodes` loop of `Optimize2` (lines 254-281)
followed by the final restore (lines 284-288), started on the remaining input
with the current `newList.Nodes` and `movCellOffset`.  The three `+=` of lines
264, 268 and 271 wrap around at 64 bits.  A `*ListNode` element matches none
of the tests: it is appended at line 280 as it is, and the pending offset is
neither realized nor reset. -/
def optimize2Loop : List Node → List Node → Int → List Node
  | [], newList, movCellOffset => realize newList movCellOffset
  | n :: rest, newList, movCellOffset =>
    match n with
    | .print => optimize2Loop rest (realize newList movCellOffset ++ [n]) 0
    | .get => optimize2Loop rest (realize newList movCellOffset ++ [n]) 0
    | .moveCell num => optimize2Loop rest newList (wrap64 (movCellOffset + num))
    | .add num offset =>
      optimize2Loop rest (newList ++ [.add num (wrap64 (offset + movCellOffset))])
        movCellOffset
    | .clear offset =>
      optimize2Loop rest (newList ++ [.clear (wrap64 (offset + movCellOffset))])
        movCellOffset
    | .loop _ =>
      optimize2Loop rest
        (realize newList movCellOffset ++ [.loop (Node.optimize2Children n)]) 0
    | .list _ => optimize2Loop rest (newList ++ [n]) movCellOffset
end

/-- `ListNode.Optimize2`: the new value of `l.Nodes`. -/
def Optimize2 (nodes : List Node) : List Node :=
  optimize2Loop nodes [] 0

/-! ### Code generator: the `Visit` methods (lines 57-63, 75-89, 137-159, 170-182) -/

/-- `MoveCellNode.Visit` (lines 57-63); `n.Num*-1` wraps around, so it stays
negative for the least `int`. -/
def visitMoveCell (num : Int) : List Line :=
  if num > 0 then [.addRsp num] else if num < 0 then [.subRsp (wrap64 (num * -1))] else []

/-- `AddNode.Visit` (lines 75-89); `n.Num*-1` wraps around. -/
def visitAdd (num offset : Int) : List Line :=
  if offset ≠ 0 then
    if num > 0 then [.incAt offset num]
    else if num < 0 then [.decAt offset (wrap64 (num * -1))] else []
  else
    if num > 0 then [.inc num] else if num < 0 then [.dec (wrap64 (num * -1))] else []

mutual
/-- The dispatch of `ListNode.Visit` on one node (lines 142-157).  For a loop
this is `LoopNode.Visit` (lines 170-182), where `st.Loop++` wraps around; for
a `*ListNode` element it is `ListNode.Visit` on that list (lines 153-154). -/
def Node.Visit : Node → State → List Line × State
  | .moveCell num, st => (visitMoveCell num, st)
  | .add num offset, st => (visitAdd num offset, st)
  | .print, st => (visitPrint, st)
  | .get, st => (visitGet, st)
  | .clear offset, st => (visitClear offset, st)
  | .list nodes, st => visitList nodes st
  | .loop children, st =>
    let loop_num := wrap64 (st.Loop + 1)
    let body := visitList children { Loop := wrap64 (st.Loop + 1) }
    ([.cmpZero, .je loop_num, .loopStart loop_num] ++ body.1 ++
      [.cmpZero, .jne loop_num, .loopEnd loop_num], body.2)
/-- `ListNode.Visit` (lines 137-159): the nodes are visited in order. -/
def visitList : List Node → State → List Line × State
  | [], st => ([], st)
  | n :: rest, st =>
    let first := n.Visit st
    let others := visitList rest first.2
    (first.1 ++ others.1, others.2)
end

mutual
/-- The number of `Loop` nodes at or below a node, those inside `*ListNode`
elements included. -/
def Node.countLoops : Node → Nat
  | .loop children => 1 + countLoopsList children
  | .list nodes => countLoopsList nodes
  | _ => 0
/-- The number of `Loop` nodes in a tree, nested ones included. -/
def countLoopsList : List Node → Nat
  | [] => 0
  | n :: rest => n.countLoops + countLoopsList rest
end

/-! ### Reference semantics -/

/-- The effect of one node that is neither a loop nor a list; as
`Bf2asm.Node.step`. -/
def Node.step (n : Node) (m : Machine) : Machine :=
  match n with
  | .moveCell num => { m with ptr := m.ptr + num }
  | .add num offset =>
    { m with tape := Function.update m.tape (m.ptr + offset)
                       (addByte (m.tape (m.ptr + offset)) num) }
  | .print => { m with output := m.output ++ [m.tape m.ptr] }
  | .get =>
    match m.input with
    | [] => m
    | b :: rest => { m with tape := Function.update m.tape m.ptr b, input := rest }
  | .clear offset => { m with tape := Function.update m.tape (m.ptr + offset) 0 }
  | .loop _ => m
  | .list _ => m

/-- Running a node list with a step budget, as `Bf2asm.exec`; a `*ListNode`
element runs its nodes in order, which is what the generated code does. -/
def exec : Nat → List Node → Machine → Option Machine
  | 0, _, _ => none
  | _ + 1, [], m => some m
  | fuel + 1, n :: rest, m =>
    match n with
    | .loop children =>
      if m.tape m.ptr = 0 then exec fuel rest m
      else
        match exec fuel children m with
        | some m1 => exec fuel (n :: rest) m1
        | none => none
    | .list nodes =>
      match exec fuel nodes m with
      | some m1 => exec fuel rest m1
      | none => none
    | _ => exec fuel rest (n.step m)

/-- The program, started in `m`, terminates in `m1`. -/
def Terminates (prog : List Node) (m m1 : Machine) : Prop :=
  ∃ fuel, exec fuel prog m = some m1

/-- The program, started in `m`, terminates. -/
def Halts (prog : List Node) (m : Machine) : Prop :=
  ∃ m1, Terminates prog m m1

/-! ### Trees without list elements, and sums that fit -/

mutual
/-- The node as a value of the Go types. -/
def ofNode : Bf2asm.Node → Node
  | .moveCell num => .moveCell num
  | .add num offset => .add num offset
  | .print => .print
  | .get => .get
  | .loop children => .loop (ofNodes children)
  | .clear offset => .clear offset
/-- The tree as a value of the Go types. -/
def ofNodes : List Bf2asm.Node → List Node
  | [] => []
  | n :: rest => ofNode n :: ofNodes rest
end

mutual
/-- The node is not a `*ListNode` and none is below it. -/
def Node.listFree : Node → Bool
  | .list _ => false
  | .loop children => listFreeList children
  | _ => true
/-- No list of the tree has a `*ListNode` element. -/
def listFreeList : List Node → Bool
  | [] => true
  | n :: rest => n.listFree && listFreeList rest
end

mutual
/-- The children of a loop pass `offsetsFit` from offset `0`. -/
def Node.offsetsFitChildren : Node → Bool
  | .loop children => offsetsFit children 0
  | _ => true
/-- No addition of `Optimize2` overflows on this list, started with the given
`movCellOffset`: every sum of lines 264, 268 and 271, taken in the integers,
is a value of `int`; the same for the children of every loop. -/
def offsetsFit : List Node → Int → Bool
  | [], _ => true
  | n :: rest, off =>
    match n with
    | .moveCell num => decide (InInt64 (off + num)) && offsetsFit rest (off + num)
    | .add _ offset => decide (InInt64 (offset + off)) && offsetsFit rest off
    | .clear offset => decide (InInt64 (offset + off)) && offsetsFit rest off
    | .print => offsetsFit rest 0
    | .get => offsetsFit rest 0
    | .loop _ => n.offsetsFitChildren && offsetsFit rest 0
    | .list _ => offsetsFit rest off
end

/-! ### Placement of `MoveCell` nodes -/

/-- The list is empty or starts with a `Print`, `Get` or `Loop`. -/
def needsPointer : List Node → Bool
  | [] => true
  | .print :: _ => true
  | .get :: _ => true
  | .loop _ :: _ => true
  | _ => false

/-- A `MoveCell` followed by `rest` has a nonzero delta and is the last node
or stands right before a `Print`, `Get` or `Loop`. -/
def moveWellPlaced (n : Node) (rest : List Node) : Bool :=
  match n with
  | .moveCell num => num != 0 && needsPointer rest
  | _ => true

mutual
/-- The children of a loop satisfy `movesRequiredList`; a `*ListNode` element
is not looked into. -/
def Node.movesRequired : Node → Bool
  | .loop children => movesRequiredList children
  | _ => true
/-- In this list and in the children of every loop reached from it through
loops, every `MoveCell` satisfies `moveWellPlaced`. -/
def movesRequiredList : List Node → Bool
  | [] => true
  | n :: rest => n.movesRequired && moveWellPlaced n rest && movesRequiredList rest
end

/-- The sum, in the integers, of the deltas of the `MoveCell` nodes that are
direct children of a list. -/
def netMove : List Node → Int
  | [] => 0
  | .moveCell num :: rest => num + netMove rest
  | _ :: rest => netMove rest

/-- The children lists of the loops that are direct children of a list, in
order. -/
def loopBodies : List Node → List (List Node)
  | [] => []
  | .loop children :: rest => children :: loopBodies rest
  | _ :: rest => loopBodies rest

/-- The `*ListNode` elements that are direct children of a list, in order. -/
def listElements : List Node → List (List Node)
  | [] => []
  | .list nodes :: rest => nodes :: listElements rest
  | _ :: rest => listElements rest

/-! ### Mergeable neighbours -/

/-- Two nodes that the run-length merging of `Optimize1` would combine when
they are neighbours: both `MoveCell`, or both `Add`. -/
def Node.clash (a b : Node) : Bool :=
  match a, b with
  | .moveCell _, .moveCell _ => true
  | .add _ _, .add _ _ => true
  | _, _ => false

/-- The node `a` clashes with the first node of the list that follows it. -/
def headClash (a : Node) : List Node → Bool
  | [] => false
  | b :: _ => a.clash b

mutual
/-- The children of a loop satisfy `mergeFreeList`; a `*ListNode` element is
not looked into. -/
def Node.mergeFree : Node → Bool
  | .loop children => mergeFreeList children
  | _ => true
/-- In this list and in the children of every loop reached from it through
loops, no two adjacent nodes are both `MoveCell` and no two adjacent nodes are
both `Add`. -/
def mergeFreeList : List Node → Bool
  | [] => true
  | n :: rest => n.mergeFree && !headClash n rest && mergeFreeList rest
end

/-! ### The size of the numbers in a tree -/

mutual
/-- The sum of the absolute values of the `int` fields at or below a node. -/
def nodeWeight : Bf2asm.Node → Nat
  | .moveCell num => num.natAbs
  | .add num offset => num.natAbs + offset.natAbs
  | .clear offset => offset.natAbs
  | .loop children => weight children
  | _ => 0
/-- The sum of the absolute values of the `int` fields of a tree. -/
def weight : List Bf2asm.Node → Nat
  | [] => 0
  | n :: rest => nodeWeight n + weight rest
end

/-- The weight of the pending node of `Optimize1`. -/
def pendingWeight : Option Bf2asm.Node → Nat
  | none => 0
  | some n => nodeWeight n

end Go

end Bf2asm

/-! # Theorems -/

namespace Bf2asm

/-! ## Induction over node lists -/

/-- Induction over a node list that also descends into the children of loops. -/
theorem nodes_induction {P : List Node → Prop} (nil : P [])
    (loop : ∀ children rest, P children → P rest → P (Node.loop children :: rest))
    (other : ∀ n rest, (∀ c, n ≠ Node.loop c) → P rest → P (n :: rest)) :
    ∀ l, P l := by
  intro l
  refine Node.rec_1 (motive_1 := fun n => ∀ rest, P rest → P (n :: rest)) (motive_2 := P)
    ?_ ?_ ?_ ?_ ?_ ?_ ?_ ?_ l
  · intro num rest h; exact other _ _ (by intro c e; cases e) h
  · intro num off rest h; exact other _ _ (by intro c e; cases e) h
  · intro rest h; exact other _ _ (by intro c e; cases e) h
  · intro rest h; exact other _ _ (by intro c e; cases e) h
  · intro children ih rest h; exact loop _ _ ih h
  · intro off rest h; exact other _ _ (by intro c e; cases e) h
  · exact nil
  · intro head tail ih1 ih2; exact ih1 _ ih2

/-! ## The reference interpreter -/

theorem exec_zero (p : List Node) (m : Machine) : exec 0 p m = none := rfl

theorem exec_nil (fuel : Nat) (m : Machine) : exec (fuel + 1) [] m = some m := rfl

theorem exec_cons_loop (fuel : Nat) (children rest : List Node) (m : Machine) :
    exec (fuel + 1) (Node.loop children :: rest) m =
      if m.tape m.ptr = 0 then exec fuel rest m
      else
        match exec fuel children m with
        | some m1 => exec fuel (Node.loop children :: rest) m1
        | none => none := rfl

theorem exec_cons_other (fuel : Nat) {n : Node} (rest : List Node) (m : Machine)
    (hn : ∀ c, n ≠ Node.loop c) :
    exec (fuel + 1) (n :: rest) m = exec fuel rest (n.step m) := by
  cases n with
  | loop c => exact absurd rfl (hn c)
  | _ => rfl

theorem exec_succ {fuel : Nat} {p : List Node} {m m1 : Machine}
    (h : exec fuel p m = some m1) : exec (fuel + 1) p m = some m1 := by
  induction fuel generalizing p m m1 with
  | zero => simp [exec_zero] at h
  | succ k ih =>
    cases p with
    | nil => simpa [exec_nil] using h
    | cons n rest =>
      by_cases hn : ∀ c, n ≠ Node.loop c
      · rw [exec_cons_other _ _ _ hn] at h ⊢
        exact ih h
      · push_neg at hn
        obtain ⟨children, rfl⟩ := hn
        rw [exec_cons_loop] at h ⊢
        by_cases hz : m.tape m.ptr = 0
        · simp only [hz, if_true] at h ⊢
          exact ih h
        · simp only [hz, if_false] at h ⊢
          cases hb : exec k children m with
          | none => simp [hb] at h
          | some m2 =>
            simp only [hb] at h
            rw [ih hb]
            exact ih h

theorem exec_mono {f g : Nat} {p : List Node} {m m1 : Machine}
    (h : exec f p m = some m1) (hle : f ≤ g) : exec g p m = some m1 := by
  induction hle with
  | refl => exact h
  | step _ ih => exact exec_succ ih

theorem Terminates.unique {p : List Node} {m m1 m2 : Machine}
    (h1 : Terminates p m m1) (h2 : Terminates p m m2) : m1 = m2 := by
  obtain ⟨f, hf⟩ := h1
  obtain ⟨g, hg⟩ := h2
  have a := exec_mono hf (Nat.le_max_left f g)
  have b := exec_mono hg (Nat.le_max_right f g)
  rw [a] at b
  exact Option.some.inj b

theorem terminates_nil {m m1 : Machine} : Terminates [] m m1 ↔ m1 = m := by
  constructor
  · rintro ⟨f, hf⟩
    cases f with
    | zero => simp [exec_zero] at hf
    | succ k => rw [exec_nil] at hf; exact (Option.some.inj hf).symm
  · rintro rfl; exact ⟨1, rfl⟩

theorem terminates_cons {n : Node} {rest : List Node} {m m1 : Machine}
    (hn : ∀ c, n ≠ Node.loop c) :
    Terminates (n :: rest) m m1 ↔ Terminates rest (n.step m) m1 := by
  constructor
  · rintro ⟨f, hf⟩
    cases f with
    | zero => simp [exec_zero] at hf
    | succ k => rw [exec_cons_other _ _ _ hn] at hf; exact ⟨k, hf⟩
  · rintro ⟨f, hf⟩
    exact ⟨f + 1, by rw [exec_cons_other _ _ _ hn]; exact hf⟩

theorem terminates_loop_zero {children rest : List Node} {m m1 : Machine}
    (hz : m.tape m.ptr = 0) :
    Terminates (Node.loop children :: rest) m m1 ↔ Terminates rest m m1 := by
  constructor
  · rintro ⟨f, hf⟩
    cases f with
    | zero => simp [exec_zero] at hf
    | succ k => rw [exec_cons_loop, if_pos hz] at hf; exact ⟨k, hf⟩
  · rintro ⟨f, hf⟩
    exact ⟨f + 1, by rw [exec_cons_loop, if_pos hz]; exact hf⟩

theorem terminates_loop_step {children rest : List Node} {m m1 : Machine}
    (hz : m.tape m.ptr ≠ 0) :
    Terminates (Node.loop children :: rest) m m1 ↔
      ∃ m2, Terminates children m m2 ∧ Terminates (Node.loop children :: rest) m2 m1 := by
  constructor
  · rintro ⟨f, hf⟩
    cases f with
    | zero => simp [exec_zero] at hf
    | succ k =>
      rw [exec_cons_loop, if_neg hz] at hf
      cases hb : exec k children m with
      | none => simp [hb] at hf
      | some m2 =>
        simp only [hb] at hf
        exact ⟨m2, ⟨k, hb⟩, ⟨k, hf⟩⟩
  · rintro ⟨m2, ⟨f, hf⟩, ⟨g, hg⟩⟩
    refine ⟨max f g + 1, ?_⟩
    rw [exec_cons_loop, if_neg hz, exec_mono hf (Nat.le_max_left f g)]
    exact exec_mono hg (Nat.le_max_right f g)

theorem terminates_append {p q : List Node} {m m1 : Machine} :
    Terminates (p ++ q) m m1 ↔ ∃ m2, Terminates p m m2 ∧ Terminates q m2 m1 := by
  constructor
  · rintro ⟨f, hf⟩
    induction f generalizing p m with
    | zero => simp [exec_zero] at hf
    | succ k ih =>
      cases p with
      | nil => exact ⟨m, terminates_nil.mpr rfl, ⟨k + 1, hf⟩⟩
      | cons n rest =>
        rw [List.cons_append] at hf
        by_cases hn : ∀ c, n ≠ Node.loop c
        · rw [exec_cons_other _ _ _ hn] at hf
          obtain ⟨m2, h1, h2⟩ := ih hf
          exact ⟨m2, (terminates_cons hn).mpr h1, h2⟩
        · push_neg at hn
          obtain ⟨children, rfl⟩ := hn
          rw [exec_cons_loop] at hf
          by_cases hz : m.tape m.ptr = 0
          · rw [if_pos hz] at hf
            obtain ⟨m2, h1, h2⟩ := ih hf
            exact ⟨m2, (terminates_loop_zero hz).mpr h1, h2⟩
          · rw [if_neg hz] at hf
            cases hb : exec k children m with
            | none => simp [hb] at hf
            | some m3 =>
              simp only [hb] at hf
              rw [← List.cons_append] at hf
              obtain ⟨m2, h1, h2⟩ := ih hf
              exact ⟨m2, (terminates_loop_step hz).mpr ⟨m3, ⟨k, hb⟩, h1⟩, h2⟩
  · rintro ⟨m2, ⟨f, hf⟩, ⟨g, hg⟩⟩
    refine ⟨f + g, ?_⟩
    induction f generalizing p m with
    | zero => simp [exec_zero] at hf
    | succ k ih =>
      cases p with
      | nil =>
        rw [exec_nil] at hf
        cases Option.some.inj hf
        exact exec_mono hg (by omega)
      | cons n rest =>
        rw [List.cons_append, show k + 1 + g = (k + g) + 1 by omega]
        by_cases hn : ∀ c, n ≠ Node.loop c
        · rw [exec_cons_other _ _ _ hn] at hf ⊢
          exact ih hf
        · push_neg at hn
          obtain ⟨children, rfl⟩ := hn
          rw [exec_cons_loop] at hf ⊢
          by_cases hz : m.tape m.ptr = 0
          · rw [if_pos hz] at hf ⊢
            exact ih hf
          · rw [if_neg hz] at hf ⊢
            cases hb : exec k children m with
            | none => simp [hb] at hf
            | some m3 =>
              simp only [hb] at hf
              rw [exec_mono hb (Nat.le_add_right k g)]
              exact ih hf

/-! ## Observational equivalence is a congruence -/

theorem Equivalent.refl (p : List Node) : Equivalent p p := fun _ _ => Iff.rfl

theorem Equivalent.symm {p q : List Node} (h : Equivalent p q) : Equivalent q p :=
  fun m m1 => (h m m1).symm

theorem Equivalent.trans {p q r : List Node} (h1 : Equivalent p q) (h2 : Equivalent q r) :
    Equivalent p r :=
  fun m m1 => (h1 m m1).trans (h2 m m1)

theorem Equivalent.append {p q r s : List Node} (h1 : Equivalent p q) (h2 : Equivalent r s) :
    Equivalent (p ++ r) (q ++ s) := by
  intro m m1
  rw [terminates_append, terminates_append]
  constructor
  · rintro ⟨m2, a, b⟩; exact ⟨m2, (h1 _ _).mp a, (h2 _ _).mp b⟩
  · rintro ⟨m2, a, b⟩; exact ⟨m2, (h1 _ _).mpr a, (h2 _ _).mpr b⟩

theorem loop_congr_aux {b c : List Node} (h : ∀ m m1, Terminates b m m1 → Terminates c m m1)
    (rest : List Node) (fuel : Nat) :
    ∀ m m1, exec fuel (Node.loop b :: rest) m = some m1 →
      Terminates (Node.loop c :: rest) m m1 := by
  induction fuel with
  | zero => intro m m1 hf; simp [exec_zero] at hf
  | succ k ih =>
    intro m m1 hf
    rw [exec_cons_loop] at hf
    by_cases hz : m.tape m.ptr = 0
    · rw [if_pos hz] at hf
      exact (terminates_loop_zero hz).mpr ⟨k, hf⟩
    · rw [if_neg hz] at hf
      cases hb : exec k b m with
      | none => simp [hb] at hf
      | some m3 =>
        simp only [hb] at hf
        exact (terminates_loop_step hz).mpr ⟨m3, h _ _ ⟨k, hb⟩, ih _ _ hf⟩

theorem Equivalent.loop {b c : List Node} (h : Equivalent b c) (rest : List Node) :
    Equivalent (Node.loop b :: rest) (Node.loop c :: rest) := by
  intro m m1
  constructor
  · rintro ⟨f, hf⟩
    exact loop_congr_aux (fun m m1 => (h m m1).mp) rest f m m1 hf
  · rintro ⟨f, hf⟩
    exact loop_congr_aux (fun m m1 => (h m m1).mpr) rest f m m1 hf

/-! ## Unfolding `Optimize1` -/

theorem optimize1Children_loop (children : List Node) :
    (Node.loop children).optimize1Children = Optimize1 children := rfl

theorem optimize1Loop_nil (newList : List Node) (lastNode : Option Node) :
    optimize1Loop [] newList lastNode = flushLast newList lastNode := rfl

theorem optimize1Loop_loop (children rest newList : List Node) (lastNode : Option Node) :
    optimize1Loop (Node.loop children :: rest) newList lastNode =
      if isDecrementBody (Optimize1 children) then
        optimize1Loop rest (flushLast newList lastNode) (some newClearNode)
      else
        optimize1Loop rest (flushLast newList lastNode ++ [Node.loop (Optimize1 children)])
          none := rfl

theorem optimize1Loop_first {n : Node} (rest newList : List Node)
    (hn : ∀ c, n ≠ Node.loop c) :
    optimize1Loop (n :: rest) newList none = optimize1Loop rest newList (some n) := by
  cases n with
  | loop c => exact absurd rfl (hn c)
  | _ => rfl

theorem optimize1Loop_other {n ln : Node} (rest newList : List Node)
    (hn : ∀ c, n ≠ Node.loop c) (ht : n.type ≠ ln.type) :
    optimize1Loop (n :: rest) newList (some ln) =
      optimize1Loop rest (newList ++ [ln]) (some n) := by
  cases n with
  | loop c => exact absurd rfl (hn c)
  | _ => simp only [optimize1Loop]; rw [if_neg ht]

theorem isDecrementBody_iff (l : List Node) :
    isDecrementBody l = true ↔ ∃ offset, l = [Node.add (-1) offset] := by
  constructor
  · intro h
    match l, h with
    | [.add num offset], h =>
      simp only [isDecrementBody, beq_iff_eq] at h
      exact ⟨offset, by rw [h]⟩
  · rintro ⟨offset, rfl⟩
    rfl

theorem optimize1Loop_moveCell (a b : Int) (rest newList : List Node) :
    optimize1Loop (Node.moveCell b :: rest) newList (some (Node.moveCell a)) =
      optimize1Loop rest newList (some (Node.moveCell (a + b))) := rfl

theorem optimize1Loop_add (a b o p : Int) (rest newList : List Node) :
    optimize1Loop (Node.add b p :: rest) newList (some (Node.add a o)) =
      optimize1Loop rest newList (some (Node.add (a + b) o)) := rfl

theorem optimize1Loop_clear (o p : Int) (rest newList : List Node) :
    optimize1Loop (Node.clear p :: rest) newList (some (Node.clear o)) =
      optimize1Loop rest newList (some (Node.clear o)) := rfl

theorem optimize1Loop_print (rest newList : List Node) :
    optimize1Loop (Node.print :: rest) newList (some Node.print) =
      optimize1Loop rest (newList ++ [Node.print, Node.print]) none := rfl

theorem optimize1Loop_get (rest newList : List Node) :
    optimize1Loop (Node.get :: rest) newList (some Node.get) =
      optimize1Loop rest (newList ++ [Node.get, Node.get]) none := rfl

/-- The pairs of a pending node and a current node that line 215 treats as
having the same type. -/
theorem same_type_cases {n ln : Node} (hn : ∀ c, n ≠ Node.loop c) (ht : n.type = ln.type) :
    (∃ a b, ln = Node.moveCell a ∧ n = Node.moveCell b) ∨
    (∃ a o b p, ln = Node.add a o ∧ n = Node.add b p) ∨
    (ln = Node.print ∧ n = Node.print) ∨
    (ln = Node.get ∧ n = Node.get) ∨
    (∃ o p, ln = Node.clear o ∧ n = Node.clear p) := by
  cases n <;> cases ln <;>
    simp [Node.type, NodeMoveCell, NodeAdd, NodePrint, NodeGet, NodeLoop, NodeClear] at ht ⊢
  exact absurd rfl (hn _)

/-! ## Shape predicates -/

theorem zeroOffsetsList_cons (n : Node) (rest : List Node) :
    zeroOffsetsList (n :: rest) = (n.zeroOffsets && zeroOffsetsList rest) := rfl

theorem zeroOffsets_loop (children : List Node) :
    (Node.loop children).zeroOffsets = zeroOffsetsList children := rfl

theorem zeroOffsetsList_append (p q : List Node) :
    zeroOffsetsList (p ++ q) = (zeroOffsetsList p && zeroOffsetsList q) := by
  induction p with
  | nil => rfl
  | cons n rest ih => simp [zeroOffsetsList_cons, ih, Bool.and_assoc]

theorem zeroOffsetsList_flushLast {newList : List Node} {lastNode : Option Node}
    (h1 : zeroOffsetsList newList = true)
    (h2 : ∀ ln, lastNode = some ln → ln.zeroOffsets = true) :
    zeroOffsetsList (flushLast newList lastNode) = true := by
  cases lastNode with
  | none => exact h1
  | some ln =>
    simp [flushLast, zeroOffsetsList_append, zeroOffsetsList_cons, h1, h2 ln rfl,
      show zeroOffsetsList [] = true from rfl]

theorem optimize1Loop_zeroOffsets :
    ∀ nodes, zeroOffsetsList nodes = true → ∀ newList lastNode,
      zeroOffsetsList newList = true → (∀ ln, lastNode = some ln → ln.zeroOffsets = true) →
      zeroOffsetsList (optimize1Loop nodes newList lastNode) = true := by
  intro nodes
  induction nodes using nodes_induction with
  | nil =>
    intro _ newList lastNode h1 h2
    rw [optimize1Loop_nil]
    exact zeroOffsetsList_flushLast h1 h2
  | loop children rest ihc ihr =>
    intro hz newList lastNode h1 h2
    rw [zeroOffsetsList_cons, zeroOffsets_loop, Bool.and_eq_true] at hz
    have hf := zeroOffsetsList_flushLast h1 h2
    rw [optimize1Loop_loop]
    split
    · exact ihr hz.2 _ _ hf (by intro ln e; cases e; rfl)
    · refine ihr hz.2 _ _ ?_ (by intro ln e; cases e)
      rw [zeroOffsetsList_append, zeroOffsetsList_cons, zeroOffsets_loop, hf]
      have := ihc hz.1 [] none rfl (by intro ln e; cases e)
      simp [Optimize1, this, show zeroOffsetsList [] = true from rfl]
  | other n rest hn ihr =>
    intro hz newList lastNode h1 h2
    rw [zeroOffsetsList_cons, Bool.and_eq_true] at hz
    cases lastNode with
    | none =>
      rw [optimize1Loop_first _ _ hn]
      exact ihr hz.2 _ _ h1 (by intro ln e; cases e; exact hz.1)
    | some ln =>
      have hln := h2 ln rfl
      by_cases ht : n.type = ln.type
      · rcases same_type_cases hn ht with ⟨a, b, rfl, rfl⟩ | ⟨a, o, b, p, rfl, rfl⟩ |
          ⟨rfl, rfl⟩ | ⟨rfl, rfl⟩ | ⟨o, p, rfl, rfl⟩
        · rw [optimize1Loop_moveCell]
          exact ihr hz.2 _ _ h1 (by intro ln e; cases e; rfl)
        · rw [optimize1Loop_add]
          exact ihr hz.2 _ _ h1 (by intro ln e; cases e; exact hln)
        · rw [optimize1Loop_print]
          exact ihr hz.2 _ _ (by simp [zeroOffsetsList_append, h1]; rfl) (by intro ln e; cases e)
        · rw [optimize1Loop_get]
          exact ihr hz.2 _ _ (by simp [zeroOffsetsList_append, h1]; rfl) (by intro ln e; cases e)
        · rw [optimize1Loop_clear]
          exact ihr hz.2 _ _ h1 (by intro ln e; cases e; exact hln)
      · rw [optimize1Loop_other _ _ hn ht]
        refine ihr hz.2 _ _ ?_ (by intro ln e; cases e; exact hz.1)
        simp [zeroOffsetsList_append, zeroOffsetsList_cons, h1, hln,
          show zeroOffsetsList [] = true from rfl]

/-! ## Soundness of the rewrites of pass A -/

theorem addByte_addByte (c : Fin 256) (a b : Int) :
    addByte (addByte c a) b = addByte c (a + b) := by
  apply Fin.ext
  simp only [addByte]
  omega

theorem addByte_neg_one_val {c : Fin 256} (h : c ≠ 0) :
    (addByte c (-1)).val + 1 = c.val := by
  have h1 : c.val ≠ 0 := fun e => h (Fin.ext e)
  have h2 := c.isLt
  simp only [addByte]
  omega

theorem terminates_single {n : Node} (hn : ∀ c, n ≠ Node.loop c) (m m1 : Machine) :
    Terminates [n] m m1 ↔ m1 = n.step m := by
  rw [terminates_cons hn, terminates_nil]

theorem terminates_pair {a b : Node} (ha : ∀ c, a ≠ Node.loop c) (hb : ∀ c, b ≠ Node.loop c)
    (m m1 : Machine) : Terminates [a, b] m m1 ↔ m1 = b.step (a.step m) := by
  rw [terminates_cons ha, terminates_cons hb, terminates_nil]

theorem equivalent_pair {a b c : Node} (ha : ∀ l, a ≠ Node.loop l)
    (hb : ∀ l, b ≠ Node.loop l) (hc : ∀ l, c ≠ Node.loop l)
    (h : ∀ m, b.step (a.step m) = c.step m) : Equivalent [a, b] [c] := by
  intro m m1
  rw [terminates_pair ha hb, terminates_single hc, h]

theorem moveCell_merge (a b : Int) :
    Equivalent [Node.moveCell a, Node.moveCell b] [Node.moveCell (a + b)] := by
  apply equivalent_pair (by intro l e; cases e) (by intro l e; cases e) (by intro l e; cases e)
  intro m
  simp [Node.step, add_assoc]

theorem add_merge (a b : Int) :
    Equivalent [Node.add a 0, Node.add b 0] [Node.add (a + b) 0] := by
  apply equivalent_pair (by intro l e; cases e) (by intro l e; cases e) (by intro l e; cases e)
  intro m
  simp [Node.step, addByte_addByte]

theorem clear_merge :
    Equivalent [Node.clear 0, Node.clear 0] [Node.clear 0] := by
  apply equivalent_pair (by intro l e; cases e) (by intro l e; cases e) (by intro l e; cases e)
  intro m
  simp [Node.step]

theorem clear_loop_terminates (k : Nat) :
    ∀ m : Machine, (m.tape m.ptr).val = k →
      Terminates [Node.loop [Node.add (-1) 0]] m ((Node.clear 0).step m) := by
  induction k with
  | zero =>
    intro m hk
    have hz : m.tape m.ptr = 0 := Fin.ext hk
    rw [terminates_loop_zero hz, terminates_nil]
    simp [Node.step, ← hz]
  | succ k ih =>
    intro m hk
    have hz : m.tape m.ptr ≠ 0 := by
      intro e; rw [e] at hk; simp at hk
    rw [terminates_loop_step hz]
    refine ⟨(Node.add (-1) 0).step m, ?_, ?_⟩
    · rw [terminates_single (by intro l e; cases e)]
    · have h1 := addByte_neg_one_val hz
      have h2 : (((Node.add (-1) 0).step m).tape ((Node.add (-1) 0).step m).ptr).val = k := by
        simp [Node.step]; omega
      have h3 := ih _ h2
      have h4 : (Node.clear 0).step ((Node.add (-1) 0).step m) = (Node.clear 0).step m := by
        simp [Node.step]
      rw [h4] at h3
      exact h3

theorem decrement_loop_equivalent :
    Equivalent [Node.loop [Node.add (-1) 0]] [Node.clear 0] := by
  intro m m1
  rw [terminates_single (n := Node.clear 0) (by intro l e; cases e)]
  constructor
  · intro h
    exact Terminates.unique h (clear_loop_terminates _ m rfl)
  · rintro rfl
    exact clear_loop_terminates _ m rfl

/-- The loop of `Optimize1`, started with output `newList` and pending node
`lastNode`, produces a program equivalent to the flushed output followed by the
remaining input, when every `Add` and `Clear` has offset `0`. -/
theorem optimize1Loop_equivalent :
    ∀ nodes, zeroOffsetsList nodes = true → ∀ newList lastNode,
      (∀ ln, lastNode = some ln → ln.zeroOffsets = true) →
      Equivalent (optimize1Loop nodes newList lastNode) (flushLast newList lastNode ++ nodes) := by
  intro nodes
  induction nodes using nodes_induction with
  | nil =>
    intro _ newList lastNode _
    rw [optimize1Loop_nil, List.append_nil]
    exact Equivalent.refl _
  | loop children rest ihc ihr =>
    intro hz newList lastNode h2
    rw [zeroOffsetsList_cons, zeroOffsets_loop, Bool.and_eq_true] at hz
    have hc : Equivalent (Optimize1 children) children := by
      have := ihc hz.1 [] none (by intro ln e; cases e)
      simpa [Optimize1, flushLast] using this
    have hcz : zeroOffsetsList (Optimize1 children) = true :=
      optimize1Loop_zeroOffsets children hz.1 [] none rfl (by intro ln e; cases e)
    rw [optimize1Loop_loop]
    split
    · rename_i hd
      obtain ⟨offset, ho⟩ := (isDecrementBody_iff _).mp hd
      have ho0 : offset = 0 := by
        rw [ho] at hcz
        simp only [zeroOffsetsList_cons, Node.zeroOffsets, Bool.and_eq_true, beq_iff_eq] at hcz
        exact hcz.1
      subst ho0
      refine (ihr hz.2 _ _ (by intro ln e; cases e; rfl)).trans ?_
      have e1 : flushLast (flushLast newList lastNode) (some newClearNode) ++ rest =
          flushLast newList lastNode ++ ([Node.clear 0] ++ rest) := by
        simp [flushLast, newClearNode]
      have e2 : flushLast newList lastNode ++ Node.loop children :: rest =
          flushLast newList lastNode ++ ([Node.loop children] ++ rest) := by simp
      rw [e1, e2]
      refine Equivalent.append (Equivalent.refl _) (Equivalent.append ?_ (Equivalent.refl _))
      refine Equivalent.trans decrement_loop_equivalent.symm ?_
      rw [← ho]
      exact Equivalent.loop hc []
    · refine (ihr hz.2 _ _ (by intro ln e; cases e)).trans ?_
      have e1 : flushLast (flushLast newList lastNode ++ [Node.loop (Optimize1 children)]) none
          ++ rest = flushLast newList lastNode ++ (Node.loop (Optimize1 children) :: rest) := by
        simp [flushLast]
      rw [e1]
      exact Equivalent.append (Equivalent.refl _) (Equivalent.loop hc rest)
  | other n rest hn ihr =>
    intro hz newList lastNode h2
    rw [zeroOffsetsList_cons, Bool.and_eq_true] at hz
    cases lastNode with
    | none =>
      rw [optimize1Loop_first _ _ hn]
      refine (ihr hz.2 _ _ (by intro ln e; cases e; exact hz.1)).trans ?_
      simp only [flushLast, List.append_assoc, List.singleton_append]
      exact Equivalent.refl _
    | some ln =>
      have hln := h2 ln rfl
      by_cases ht : n.type = ln.type
      · rcases same_type_cases hn ht with ⟨a, b, rfl, rfl⟩ | ⟨a, o, b, p, rfl, rfl⟩ |
          ⟨rfl, rfl⟩ | ⟨rfl, rfl⟩ | ⟨o, p, rfl, rfl⟩
        · rw [optimize1Loop_moveCell]
          refine (ihr hz.2 _ _ (by intro ln e; cases e; rfl)).trans ?_
          have e1 : flushLast newList (some (Node.moveCell (a + b))) ++ rest =
              newList ++ ([Node.moveCell (a + b)] ++ rest) := by simp [flushLast]
          have e2 : flushLast newList (some (Node.moveCell a)) ++ Node.moveCell b :: rest =
              newList ++ ([Node.moveCell a, Node.moveCell b] ++ rest) := by simp [flushLast]
          rw [e1, e2]
          exact Equivalent.append (Equivalent.refl _)
            (Equivalent.append (moveCell_merge a b).symm (Equivalent.refl _))
        · rw [optimize1Loop_add]
          have ho : o = 0 := by simpa [Node.zeroOffsets] using hln
          have hp : p = 0 := by simpa [Node.zeroOffsets] using hz.1
          subst ho hp
          refine (ihr hz.2 _ _ (by intro ln e; cases e; rfl)).trans ?_
          have e1 : flushLast newList (some (Node.add (a + b) 0)) ++ rest =
              newList ++ ([Node.add (a + b) 0] ++ rest) := by simp [flushLast]
          have e2 : flushLast newList (some (Node.add a 0)) ++ Node.add b 0 :: rest =
              newList ++ ([Node.add a 0, Node.add b 0] ++ rest) := by simp [flushLast]
          rw [e1, e2]
          exact Equivalent.append (Equivalent.refl _)
            (Equivalent.append (add_merge a b).symm (Equivalent.refl _))
        · rw [optimize1Loop_print]
          refine (ihr hz.2 _ _ (by intro ln e; cases e)).trans ?_
          simp only [flushLast, List.append_assoc, List.singleton_append, List.cons_append,
            List.nil_append]
          exact Equivalent.refl _
        · rw [optimize1Loop_get]
          refine (ihr hz.2 _ _ (by intro ln e; cases e)).trans ?_
          simp only [flushLast, List.append_assoc, List.singleton_append, List.cons_append,
            List.nil_append]
          exact Equivalent.refl _
        · rw [optimize1Loop_clear]
          have ho : o = 0 := by simpa [Node.zeroOffsets] using hln
          have hp : p = 0 := by simpa [Node.zeroOffsets] using hz.1
          subst ho hp
          refine (ihr hz.2 _ _ (by intro ln e; cases e; rfl)).trans ?_
          have e1 : flushLast newList (some (Node.clear 0)) ++ rest =
              newList ++ ([Node.clear 0] ++ rest) := by simp [flushLast]
          have e2 : flushLast newList (some (Node.clear 0)) ++ Node.clear 0 :: rest =
              newList ++ ([Node.clear 0, Node.clear 0] ++ rest) := by simp [flushLast]
          rw [e1, e2]
          exact Equivalent.append (Equivalent.refl _)
            (Equivalent.append clear_merge.symm (Equivalent.refl _))
      · rw [optimize1Loop_other _ _ hn ht]
        refine (ihr hz.2 _ _ (by intro ln e; cases e; exact hz.1)).trans ?_
        simp only [flushLast, List.append_assoc, List.singleton_append]
        exact Equivalent.refl _

theorem Optimize1_equivalent {t : List Node} (h : zeroOffsetsList t = true) :
    Equivalent (Optimize1 t) t := by
  have := optimize1Loop_equivalent t h [] none (by intro ln e; cases e)
  simpa [Optimize1, flushLast] using this

/-! ## The parser -/

theorem parseStep_other (st : ParseState) {c : Char} (h : isCommand c = false) :
    parseStep st c = some st := by
  simp only [isCommand, Bool.or_eq_false_iff, beq_eq_false_iff_ne, ne_eq] at h
  obtain ⟨⟨⟨⟨⟨⟨⟨h1, h2⟩, h3⟩, h4⟩, h5⟩, h6⟩, h7⟩, h8⟩ := h
  unfold parseStep
  split <;> first | rfl | contradiction

theorem isCommand_cases (c : Char) :
    c = '>' ∨ c = '<' ∨ c = '+' ∨ c = '-' ∨ c = '.' ∨ c = ',' ∨ c = '[' ∨ c = ']' ∨
      isCommand c = false := by
  by_cases h : isCommand c = false
  · simp [h]
  · simp only [isCommand, Bool.or_eq_false_iff, beq_eq_false_iff_ne, ne_eq] at h
    tauto

theorem bracketScan_cons (c : Char) (rest : List Char) (depth : Nat) :
    bracketScan (c :: rest) depth =
      if c = '[' then bracketScan rest (depth + 1)
      else if c = ']' then
        match depth with
        | 0 => false
        | d + 1 => bracketScan rest d
      else bracketScan rest depth := rfl

theorem parseFrom_nil (st : ParseState) : parseFrom st [] = some st := rfl

theorem parseFrom_cons (st : ParseState) (c : Char) (rest : List Char) :
    parseFrom st (c :: rest) = (parseStep st c).bind fun st1 => parseFrom st1 rest := by
  rw [parseFrom]
  cases parseStep st c <;> rfl

theorem flattenList_nil : flattenList [] = some [] := rfl

theorem flattenList_cons (n : Node) (rest : List Node) :
    flattenList (n :: rest) =
      n.flatten.bind fun a => (flattenList rest).map fun b => a ++ b := rfl

theorem flatten_loop (children : List Node) :
    (Node.loop children).flatten =
      (flattenList children).map fun body => '[' :: body ++ [']'] := rfl

theorem flattenList_append {p q : List Node} {a b : List Char}
    (hp : flattenList p = some a) (hq : flattenList q = some b) :
    flattenList (p ++ q) = some (a ++ b) := by
  induction p generalizing a with
  | nil =>
    rw [flattenList_nil] at hp
    cases hp
    simpa using hq
  | cons n rest ih =>
    rw [List.cons_append, flattenList_cons]
    rw [flattenList_cons] at hp
    cases hn : n.flatten with
    | none => simp [hn] at hp
    | some x =>
      cases hr : flattenList rest with
      | none => simp [hn, hr] at hp
      | some y =>
        simp only [hn, hr, Option.some_bind, Option.map_some', Option.some.injEq] at hp
        subst hp
        simp [ih hr]

theorem flattenList_snoc {p : List Node} {a b : List Char} {n : Node}
    (hp : flattenList p = some a) (hn : n.flatten = some b) :
    flattenList (p ++ [n]) = some (a ++ b) := by
  apply flattenList_append hp
  simp [flattenList_cons, hn, flattenList_nil]

/-- The token text consumed so far to reach the open lists of a parser state:
each enclosing list contributes its own text followed by the `[` that opened
the next inner list. -/
inductive OpenText : List (List Node) → List Char → Prop where
  | root : OpenText [] []
  | push {parents : List (List Node)} {o a : List Char} {before : List Node} :
      OpenText parents o → flattenList before = some a →
      OpenText (before :: parents) (o ++ a ++ ['['])

theorem parseFrom_flatten (source : List Char) :
    ∀ (cur : List Node) (parents : List (List Node)) (o f : List Char),
      bracketScan source parents.length = true → OpenText parents o →
      flattenList cur = some f →
      ∃ t, parseFrom (.within cur parents) source = some (.within t []) ∧
        flattenList t = some (o ++ f ++ source.filter isCommand) := by
  induction source with
  | nil =>
    intro cur parents o f hb ho hf
    have hlen : parents.length = 0 := by simpa [bracketScan] using hb
    have hp : parents = [] := List.length_eq_zero.mp hlen
    subst hp
    cases ho
    exact ⟨cur, rfl, by simpa using hf⟩
  | cons c rest ih =>
    intro cur parents o f hb ho hf
    rw [parseFrom_cons]
    have simple : ∀ (n : Node) (x : Char), n.flatten = some [x] → c ≠ '[' → c ≠ ']' →
        parseStep (.within cur parents) c = some (.within (cur ++ [n]) parents) →
        [c].filter isCommand = [x] →
        ∃ t, ((parseStep (.within cur parents) c).bind fun st1 => parseFrom st1 rest) =
            some (.within t []) ∧
          flattenList t = some (o ++ f ++ (c :: rest).filter isCommand) := by
      intro n x hn h1 h2 hs hx
      rw [hs, Option.some_bind]
      have hb1 : bracketScan rest parents.length = true := by
        rw [bracketScan_cons, if_neg h1, if_neg h2] at hb; exact hb
      obtain ⟨t, ht1, ht2⟩ := ih _ _ o (f ++ [x]) hb1 ho (flattenList_snoc hf hn)
      refine ⟨t, ht1, ?_⟩
      rw [ht2]
      have : (c :: rest).filter isCommand = [x] ++ rest.filter isCommand := by
        rw [← hx]; by_cases hc : isCommand c = true <;> simp [List.filter_cons, hc]
      rw [this]; simp
    rcases isCommand_cases c with h | h | h | h | h | h | h | h | h
    · subst h; exact simple (newMoveCellNode 1) '>' rfl (by decide) (by decide) rfl rfl
    · subst h; exact simple (newMoveCellNode (-1)) '<' (by decide) (by decide) (by decide) rfl rfl
    · subst h; exact simple (newAddNode 1) '+' rfl (by decide) (by decide) rfl rfl
    · subst h; exact simple (newAddNode (-1)) '-' (by decide) (by decide) (by decide) rfl rfl
    · subst h; exact simple newPrintNode '.' rfl (by decide) (by decide) rfl rfl
    · subst h; exact simple newGetNode ',' rfl (by decide) (by decide) rfl rfl
    · subst h
      have hb1 : bracketScan rest (cur :: parents).length = true := by
        rw [bracketScan_cons, if_pos rfl] at hb; exact hb
      obtain ⟨t, ht1, ht2⟩ := ih [] (cur :: parents) _ [] hb1 (OpenText.push ho hf) rfl
      refine ⟨t, ht1, ?_⟩
      rw [ht2]
      simp [List.filter_cons, isCommand]
    · subst h
      cases parents with
      | nil => simp [bracketScan_cons] at hb
      | cons before ps =>
        have hb1 : bracketScan rest ps.length = true := by
          simpa [bracketScan_cons] using hb
        cases ho with
        | push ho1 ha =>
          rename_i o1 a
          have hcl : flattenList (closeInto cur before) = some (a ++ ('[' :: f ++ [']'])) := by
            apply flattenList_snoc ha
            simp [newLoopNode, flatten_loop, hf]
          obtain ⟨t, ht1, ht2⟩ := ih _ ps o1 _ hb1 ho1 hcl
          refine ⟨t, ht1, ?_⟩
          rw [ht2]
          simp [List.filter_cons, isCommand]
    · have h1 : c ≠ '[' := by rintro rfl; simp [isCommand] at h
      have h2 : c ≠ ']' := by rintro rfl; simp [isCommand] at h
      rw [parseStep_other _ h, Option.some_bind]
      have hb1 : bracketScan rest parents.length = true := by
        rw [bracketScan_cons, if_neg h1, if_neg h2] at hb; exact hb
      obtain ⟨t, ht1, ht2⟩ := ih cur parents o f hb1 ho hf
      refine ⟨t, ht1, ?_⟩
      rw [ht2]
      simp [List.filter_cons, h]

theorem parse_flatten {source : List Char} (h : WellBracketed source) :
    ∃ t, parse source = some t ∧ flattenList t = some (source.filter isCommand) := by
  obtain ⟨t, ht1, ht2⟩ := parseFrom_flatten source [] [] [] [] h OpenText.root rfl
  refine ⟨t, ?_, by simpa using ht2⟩
  simp [parse, ht1, ParseState.root]

theorem parseFrom_filter (source : List Char) :
    ∀ st, parseFrom st (source.filter isCommand) = parseFrom st source := by
  induction source with
  | nil => intro st; rfl
  | cons c rest ih =>
    intro st
    by_cases h : isCommand c = true
    · rw [List.filter_cons_of_pos h, parseFrom_cons, parseFrom_cons]
      cases parseStep st c with
      | none => rfl
      | some st1 => simp [ih]
    · have h0 : isCommand c = false := by simpa using h
      rw [List.filter_cons_of_neg h, parseFrom_cons, parseStep_other _ h0, Option.some_bind]
      exact ih st

/-! ## Soundness of pass B -/

theorem optimize2Children_loop (children : List Node) :
    (Node.loop children).optimize2Children = Optimize2 children := rfl

theorem optimize2Loop_nil (newList : List Node) (off : Int) :
    optimize2Loop [] newList off = realize newList off := rfl

theorem optimize2Loop_print (rest newList : List Node) (off : Int) :
    optimize2Loop (Node.print :: rest) newList off =
      optimize2Loop rest (realize newList off ++ [Node.print]) 0 := rfl

theorem optimize2Loop_get (rest newList : List Node) (off : Int) :
    optimize2Loop (Node.get :: rest) newList off =
      optimize2Loop rest (realize newList off ++ [Node.get]) 0 := rfl

theorem optimize2Loop_moveCell (num : Int) (rest newList : List Node) (off : Int) :
    optimize2Loop (Node.moveCell num :: rest) newList off =
      optimize2Loop rest newList (off + num) := rfl

theorem optimize2Loop_add (num offset : Int) (rest newList : List Node) (off : Int) :
    optimize2Loop (Node.add num offset :: rest) newList off =
      optimize2Loop rest (newList ++ [Node.add num (offset + off)]) off := rfl

theorem optimize2Loop_clear (offset : Int) (rest newList : List Node) (off : Int) :
    optimize2Loop (Node.clear offset :: rest) newList off =
      optimize2Loop rest (newList ++ [Node.clear (offset + off)]) off := rfl

theorem optimize2Loop_loop (children rest newList : List Node) (off : Int) :
    optimize2Loop (Node.loop children :: rest) newList off =
      optimize2Loop rest (realize newList off ++ [Node.loop (Optimize2 children)]) 0 := rfl

theorem step_moveCell_zero (m : Machine) : (Node.moveCell 0).step m = m := by
  simp [Node.step]

theorem terminates_snoc {p : List Node} {n : Node} (hn : ∀ c, n ≠ Node.loop c)
    (m m1 : Machine) :
    Terminates (p ++ [n]) m m1 ↔ ∃ m2, Terminates p m m2 ∧ m1 = n.step m2 := by
  rw [terminates_append]
  simp only [terminates_single hn]

theorem terminates_realize (newList : List Node) (off : Int) (m m1 : Machine) :
    Terminates (realize newList off) m m1 ↔
      ∃ m2, Terminates newList m m2 ∧ m1 = (Node.moveCell off).step m2 := by
  unfold realize
  split
  · exact terminates_snoc (by intro c e; cases e) m m1
  · rename_i h
    have h0 : off = 0 := by simpa using h
    subst h0
    simp only [step_moveCell_zero]
    constructor
    · intro h; exact ⟨m1, h, rfl⟩
    · rintro ⟨m2, h, rfl⟩; exact h

/-- The loop of `Optimize2`, started with output `newList` and pending offset
`off`: running its result is running `newList` and then the remaining input
with the pointer displaced by `off`. -/
theorem optimize2Loop_sound :
    ∀ nodes newList off m m1,
      Terminates (optimize2Loop nodes newList off) m m1 ↔
        ∃ m2, Terminates newList m m2 ∧ Terminates nodes ((Node.moveCell off).step m2) m1 := by
  intro nodes
  induction nodes using nodes_induction with
  | nil =>
    intro newList off m m1
    rw [optimize2Loop_nil, terminates_realize]
    simp only [terminates_nil]
  | loop children rest ihc ihr =>
    intro newList off m m1
    have hc : Equivalent (Optimize2 children) children := by
      intro a b
      rw [Optimize2, ihc]
      simp only [terminates_nil, step_moveCell_zero]
      constructor
      · rintro ⟨m2, rfl, h⟩; exact h
      · intro h; exact ⟨a, rfl, h⟩
    rw [optimize2Loop_loop, ihr]
    simp only [step_moveCell_zero, terminates_append, terminates_realize]
    have hl := Equivalent.loop hc []
    constructor
    · rintro ⟨m2, ⟨m3, ⟨m4, h4, rfl⟩, h3⟩, h2⟩
      refine ⟨m4, h4, ?_⟩
      have : Node.loop children :: rest = [Node.loop children] ++ rest := rfl
      rw [this, terminates_append]
      exact ⟨m2, (hl _ _).mp h3, h2⟩
    · rintro ⟨m4, h4, h⟩
      have : Node.loop children :: rest = [Node.loop children] ++ rest := rfl
      rw [this, terminates_append] at h
      obtain ⟨m2, h3, h2⟩ := h
      exact ⟨m2, ⟨_, ⟨m4, h4, rfl⟩, (hl _ _).mpr h3⟩, h2⟩
  | other n rest hn ihr =>
    intro newList off m m1
    cases n with
    | loop c => exact absurd rfl (hn c)
    | moveCell num =>
      rw [optimize2Loop_moveCell, ihr]
      simp only [terminates_cons hn]
      have e : ∀ a, (Node.moveCell (off + num)).step a =
          (Node.moveCell num).step ((Node.moveCell off).step a) := by
        intro a; simp [Node.step, add_assoc]
      simp only [e]
    | add num offset =>
      rw [optimize2Loop_add, ihr]
      simp only [terminates_cons hn, terminates_snoc (n := Node.add num (offset + off))
        (by intro c e; cases e)]
      have e : ∀ a, (Node.moveCell off).step ((Node.add num (offset + off)).step a) =
          (Node.add num offset).step ((Node.moveCell off).step a) := by
        intro a
        simp [Node.step, add_assoc, add_comm off offset]
      constructor
      · rintro ⟨m2, ⟨m3, h3, rfl⟩, h2⟩
        exact ⟨m3, h3, by rw [← e]; exact h2⟩
      · rintro ⟨m3, h3, h2⟩
        exact ⟨_, ⟨m3, h3, rfl⟩, by rw [e]; exact h2⟩
    | clear offset =>
      rw [optimize2Loop_clear, ihr]
      simp only [terminates_cons hn, terminates_snoc (n := Node.clear (offset + off))
        (by intro c e; cases e)]
      have e : ∀ a, (Node.moveCell off).step ((Node.clear (offset + off)).step a) =
          (Node.clear offset).step ((Node.moveCell off).step a) := by
        intro a
        simp [Node.step, add_assoc, add_comm off offset]
      constructor
      · rintro ⟨m2, ⟨m3, h3, rfl⟩, h2⟩
        exact ⟨m3, h3, by rw [← e]; exact h2⟩
      · rintro ⟨m3, h3, h2⟩
        exact ⟨_, ⟨m3, h3, rfl⟩, by rw [e]; exact h2⟩
    | print =>
      rw [optimize2Loop_print, ihr]
      simp only [terminates_cons hn, terminates_snoc hn, terminates_realize,
        step_moveCell_zero]
      constructor
      · rintro ⟨m2, ⟨m3, ⟨m4, h4, rfl⟩, rfl⟩, h2⟩
        exact ⟨m4, h4, h2⟩
      · rintro ⟨m4, h4, h2⟩
        exact ⟨_, ⟨_, ⟨m4, h4, rfl⟩, rfl⟩, h2⟩
    | get =>
      rw [optimize2Loop_get, ihr]
      simp only [terminates_cons hn, terminates_snoc hn, terminates_realize,
        step_moveCell_zero]
      constructor
      · rintro ⟨m2, ⟨m3, ⟨m4, h4, rfl⟩, rfl⟩, h2⟩
        exact ⟨m4, h4, h2⟩
      · rintro ⟨m4, h4, h2⟩
        exact ⟨_, ⟨_, ⟨m4, h4, rfl⟩, rfl⟩, h2⟩

theorem Optimize2_equivalent (t : List Node) : Equivalent (Optimize2 t) t := by
  intro m m1
  rw [Optimize2, optimize2Loop_sound]
  simp only [terminates_nil, step_moveCell_zero]
  constructor
  · rintro ⟨m2, rfl, h⟩; exact h
  · intro h; exact ⟨m, rfl, h⟩

theorem Equivalent.halts {p q : List Node} (h : Equivalent p q) (m : Machine) :
    Halts p m ↔ Halts q m := by
  constructor
  · rintro ⟨m1, h1⟩; exact ⟨m1, (h m m1).mp h1⟩
  · rintro ⟨m1, h1⟩; exact ⟨m1, (h m m1).mpr h1⟩

theorem Equivalent.same_result {p q : List Node} (h : Equivalent p q) {m m1 m2 : Machine}
    (h1 : Terminates p m m1) (h2 : Terminates q m m2) : m1 = m2 :=
  Terminates.unique ((h m m1).mp h1) h2

/-! ## Counting `MoveCell` nodes through pass B -/

theorem countMoveCellList_nil : countMoveCellList [] = 0 := rfl

theorem countMoveCellList_cons (n : Node) (rest : List Node) :
    countMoveCellList (n :: rest) = n.countMoveCell + countMoveCellList rest := rfl

theorem countMoveCell_loop (children : List Node) :
    (Node.loop children).countMoveCell = countMoveCellList children := rfl

theorem countMoveCellList_append (p q : List Node) :
    countMoveCellList (p ++ q) = countMoveCellList p + countMoveCellList q := by
  induction p with
  | nil => simp [countMoveCellList_nil]
  | cons n rest ih => simp [countMoveCellList_cons, ih, Nat.add_assoc]

theorem countMoveCellList_realize (newList : List Node) (off : Int) :
    countMoveCellList (realize newList off) =
      countMoveCellList newList + (if off ≠ 0 then 1 else 0) := by
  unfold realize
  split
  · rw [countMoveCellList_append]; rfl
  · rfl

/-- The loop of `Optimize2` adds at most one `MoveCell` for a pending nonzero
offset and none otherwise. -/
theorem optimize2Loop_countMoveCell :
    ∀ nodes newList off,
      countMoveCellList (optimize2Loop nodes newList off) ≤
        countMoveCellList newList + (if off ≠ 0 then 1 else 0) + countMoveCellList nodes := by
  intro nodes
  induction nodes using nodes_induction with
  | nil =>
    intro newList off
    rw [optimize2Loop_nil, countMoveCellList_realize, countMoveCellList_nil]
    omega
  | loop children rest ihc ihr =>
    intro newList off
    rw [optimize2Loop_loop]
    refine (ihr _ _).trans ?_
    have hc := ihc [] 0
    rw [countMoveCellList_append, countMoveCellList_realize, countMoveCellList_cons,
      countMoveCellList_cons, countMoveCell_loop, countMoveCell_loop, countMoveCellList_nil]
    simp only [countMoveCellList_nil, ne_eq, not_true_eq_false, if_false] at hc ⊢
    unfold Optimize2
    omega
  | other n rest hn ihr =>
    intro newList off
    cases n with
    | loop c => exact absurd rfl (hn c)
    | moveCell num =>
      rw [optimize2Loop_moveCell]
      refine (ihr _ _).trans ?_
      rw [countMoveCellList_cons]
      simp only [Node.countMoveCell]
      split <;> split <;> omega
    | add num offset =>
      rw [optimize2Loop_add]
      refine (ihr _ _).trans ?_
      rw [countMoveCellList_append, countMoveCellList_cons, countMoveCellList_cons]
      simp only [Node.countMoveCell, countMoveCellList_nil]
      omega
    | clear offset =>
      rw [optimize2Loop_clear]
      refine (ihr _ _).trans ?_
      rw [countMoveCellList_append, countMoveCellList_cons, countMoveCellList_cons]
      simp only [Node.countMoveCell, countMoveCellList_nil]
      omega
    | print =>
      rw [optimize2Loop_print]
      refine (ihr _ _).trans ?_
      rw [countMoveCellList_append, countMoveCellList_realize, countMoveCellList_cons,
        countMoveCellList_cons]
      simp only [Node.countMoveCell, countMoveCellList_nil, ne_eq, not_true_eq_false, if_false]
      omega
    | get =>
      rw [optimize2Loop_get]
      refine (ihr _ _).trans ?_
      rw [countMoveCellList_append, countMoveCellList_realize, countMoveCellList_cons,
        countMoveCellList_cons]
      simp only [Node.countMoveCell, countMoveCellList_nil, ne_eq, not_true_eq_false, if_false]
      omega

theorem flattenList_cons_some {n : Node} {rest : List Node} {a : List Char}
    (h : flattenList (n :: rest) = some a) :
    ∃ x y, n.flatten = some x ∧ flattenList rest = some y ∧ a = x ++ y := by
  rw [flattenList_cons] at h
  cases hn : n.flatten with
  | none => simp [hn] at h
  | some x =>
    cases hr : flattenList rest with
    | none => simp [hn, hr] at h
    | some y =>
      simp only [hn, hr, Option.some_bind, Option.map_some', Option.some.injEq] at h
      exact ⟨x, y, rfl, rfl, h.symm⟩

/-- A tree that has a token text has offset `0` on every `Add` and contains no
`Clear`. -/
theorem flattenList_zeroOffsets :
    ∀ t a, flattenList t = some a → zeroOffsetsList t = true := by
  intro t
  induction t using nodes_induction with
  | nil => intro _ _; rfl
  | loop children rest ihc ihr =>
    intro a h
    obtain ⟨x, y, hx, hy, -⟩ := flattenList_cons_some h
    rw [flatten_loop] at hx
    cases hc : flattenList children with
    | none => simp [hc] at hx
    | some b =>
      rw [zeroOffsetsList_cons, zeroOffsets_loop, ihc b hc, ihr y hy]
      rfl
  | other n rest hn ihr =>
    intro a h
    obtain ⟨x, y, hx, hy, -⟩ := flattenList_cons_some h
    rw [zeroOffsetsList_cons, ihr y hy, Bool.and_true]
    cases n with
    | loop c => exact absurd rfl (hn c)
    | add num offset =>
      by_cases ho : offset = 0
      · simp [Node.zeroOffsets, ho]
      · simp [Node.flatten, ho] at hx
    | clear offset => simp [Node.flatten] at hx
    | _ => rfl

theorem parse_zeroOffsets {source : List Char} {t : List Node}
    (hw : WellBracketed source) (hp : parse source = some t) :
    zeroOffsetsList t = true := by
  obtain ⟨t1, h1, h2⟩ := parse_flatten hw
  rw [hp] at h1
  cases h1
  exact flattenList_zeroOffsets _ _ h2

/-! ## Claims -/

/-- The interpreter on the source `,[.,]` with input `65, 66, 0`: it echoes the
two nonzero bytes and stops at the zero byte. -/
theorem exec_echo_example :
    (parse ",[.,]".toList).bind (fun t =>
        (exec 20 t (Machine.init [65, 66, 0])).map fun m => (m.output, m.ptr, m.input)) =
      some ([65, 66], 0, []) := by
  decide

/-- C1 (pass A soundness): for every tree `t` the parser builds from a
well-bracketed source and every start machine (tape of byte cells, pointer,
input), running `t` terminates iff running `Optimize1 t` terminates, and when
both terminate the final output, tape and pointer are the same. -/
theorem optimize1_sound (source : List Char) (t : List Node)
    (hw : WellBracketed source) (hp : parse source = some t) (m : Machine) :
    (Halts t m ↔ Halts (Optimize1 t) m) ∧
      ∀ m1 m2, Terminates t m m1 → Terminates (Optimize1 t) m m2 →
        m1.output = m2.output ∧ m1.tape = m2.tape ∧ m1.ptr = m2.ptr := by
  have h := (Optimize1_equivalent (parse_zeroOffsets hw hp)).symm
  refine ⟨h.halts m, ?_⟩
  intro m1 m2 h1 h2
  have e := h.same_result h1 h2
  subst e
  exact ⟨rfl, rfl, rfl⟩

theorem optimize1_sound_witness :
    WellBracketed "+[-]>,[.,]".toList ∧
      parse "+[-]>,[.,]".toList =
        some [.add 1 0, .loop [.add (-1) 0], .moveCell 1, .get, .loop [.print, .get]] ∧
      ((Halts [.add 1 0, .loop [.add (-1) 0], .moveCell 1, .get, .loop [.print, .get]]
            (Machine.init [65, 0]) ↔
          Halts (Optimize1
            [.add 1 0, .loop [.add (-1) 0], .moveCell 1, .get, .loop [.print, .get]])
            (Machine.init [65, 0])) ∧
        ∀ m1 m2,
          Terminates [.add 1 0, .loop [.add (-1) 0], .moveCell 1, .get, .loop [.print, .get]]
            (Machine.init [65, 0]) m1 →
          Terminates (Optimize1
            [.add 1 0, .loop [.add (-1) 0], .moveCell 1, .get, .loop [.print, .get]])
            (Machine.init [65, 0]) m2 →
          m1.output = m2.output ∧ m1.tape = m2.tape ∧ m1.ptr = m2.ptr) :=
  ⟨by decide, by decide,
    optimize1_sound "+[-]>,[.,]".toList _ (by decide) (by decide) (Machine.init [65, 0])⟩

/-- C3 (pass A idempotence), evaluated on the source `[-][-]`: the first
application of `Optimize1` turns the two loops into two adjacent `Clear`
nodes, because the pending `Clear` of the first loop is flushed at line 200
before the second loop is examined; a second application merges the two
`Clear` nodes at line 221, so the output of `Optimize1` is not a fixed
point. -/
theorem optimize1_twice_differs :
    WellBracketed "[-][-]".toList ∧
      parse "[-][-]".toList = some [.loop [.add (-1) 0], .loop [.add (-1) 0]] ∧
      Optimize1 [.loop [.add (-1) 0], .loop [.add (-1) 0]] = [.clear 0, .clear 0] ∧
      Optimize1 (Optimize1 [.loop [.add (-1) 0], .loop [.add (-1) 0]]) = [.clear 0] ∧
      Optimize1 (Optimize1 [.loop [.add (-1) 0], .loop [.add (-1) 0]]) ≠
        Optimize1 [.loop [.add (-1) 0], .loop [.add (-1) 0]] := by
  decide

/-- C4, the claim as stated fails: for the source `>>++<<.` the passes do not
produce `Add(+2, offset=2), MoveCell(-2), Print`; the output has no `MoveCell`
node. -/
theorem scenario_no_realized_move :
    pipeline ">>++<<.".toList ≠ some [.add 2 2, .moveCell (-2), .print] ∧
      (pipeline ">>++<<.".toList).map countMoveCellList = some 0 := by
  decide

/-- C4 (amended): parsing `>>++<<.`, then `Optimize1`, then `Optimize2`, yields
exactly `Add(+2, offset=2), Print`: the two `<` bring the accumulated offset
back to `0` before the `Print`, so line 257 realizes no `MoveCell`.  The
intermediate trees are the parsed one and `MoveCell(2), Add(2), MoveCell(-2),
Print` after `Optimize1`. -/
theorem scenario_offset_cancels :
    parse ">>++<<.".toList =
        some [.moveCell 1, .moveCell 1, .add 1 0, .add 1 0, .moveCell (-1), .moveCell (-1),
          .print] ∧
      (parse ">>++<<.".toList).map Optimize1 =
        some [.moveCell 2, .add 2 0, .moveCell (-2), .print] ∧
      pipeline ">>++<<.".toList = some [.add 2 2, .print] := by
  decide

/-- C5 (pass B never increases pointer movement): for every tree, the number
of `MoveCell` nodes at all nesting levels of `Optimize2 t` is at most that of
`t`. -/
theorem optimize2_moveCell_count (t : List Node) :
    countMoveCellList (Optimize2 t) ≤ countMoveCellList t := by
  have h := optimize2Loop_countMoveCell t [] 0
  simpa [Optimize2, countMoveCellList_nil] using h

/-! ## `Optimize1` list by list -/

theorem flushLast_append (a newList : List Node) (lastNode : Option Node) :
    flushLast (a ++ newList) lastNode = a ++ flushLast newList lastNode := by
  cases lastNode <;> simp [flushLast]

/-- The output built so far is only ever extended at its end. -/
theorem optimize1Loop_acc :
    ∀ nodes newList lastNode,
      optimize1Loop nodes newList lastNode = newList ++ optimize1Loop nodes [] lastNode := by
  intro nodes
  induction nodes with
  | nil =>
    intro newList lastNode
    rw [optimize1Loop_nil, optimize1Loop_nil]
    simpa using flushLast_append newList [] lastNode
  | cons n rest ih =>
    intro newList lastNode
    have step : ∀ (a : List Node) (l : Option Node) (b : List Node),
        optimize1Loop (n :: rest) newList lastNode = optimize1Loop rest (newList ++ a) l →
        optimize1Loop (n :: rest) [] lastNode = optimize1Loop rest a l →
        optimize1Loop (n :: rest) newList lastNode =
          newList ++ optimize1Loop (n :: rest) [] lastNode := by
      intro a l _ h1 h2
      rw [h1, h2, ih (newList ++ a), ih a, List.append_assoc]
    by_cases hn : ∀ c, n ≠ Node.loop c
    · cases lastNode with
      | none =>
        refine step [] (some n) [] ?_ ?_
        · rw [optimize1Loop_first _ _ hn, List.append_nil]
        · rw [optimize1Loop_first _ _ hn]
      | some ln =>
        by_cases ht : n.type = ln.type
        · rcases same_type_cases hn ht with ⟨a, b, rfl, rfl⟩ | ⟨a, o, b, p, rfl, rfl⟩ |
            ⟨rfl, rfl⟩ | ⟨rfl, rfl⟩ | ⟨o, p, rfl, rfl⟩
          · exact step [] _ [] (by rw [optimize1Loop_moveCell, List.append_nil])
              (by rw [optimize1Loop_moveCell])
          · exact step [] _ [] (by rw [optimize1Loop_add, List.append_nil])
              (by rw [optimize1Loop_add])
          · exact step [Node.print, Node.print] _ [] (by rw [optimize1Loop_print])
              (by rw [optimize1Loop_print, List.nil_append])
          · exact step [Node.get, Node.get] _ [] (by rw [optimize1Loop_get])
              (by rw [optimize1Loop_get, List.nil_append])
          · exact step [] _ [] (by rw [optimize1Loop_clear, List.append_nil])
              (by rw [optimize1Loop_clear])
        · exact step [ln] _ [] (by rw [optimize1Loop_other _ _ hn ht])
            (by rw [optimize1Loop_other _ _ hn ht, List.nil_append])
    · push_neg at hn
      obtain ⟨children, rfl⟩ := hn
      by_cases hd : isDecrementBody (Optimize1 children) = true
      · refine step (flushLast [] lastNode) (some newClearNode) [] ?_ ?_
        · rw [optimize1Loop_loop, if_pos hd, ← flushLast_append, List.append_nil]
        · rw [optimize1Loop_loop, if_pos hd]
      · refine step (flushLast [] lastNode ++ [Node.loop (Optimize1 children)]) none [] ?_ ?_
        · rw [optimize1Loop_loop, if_neg hd, ← List.append_assoc, ← flushLast_append,
            List.append_nil]
        · rw [optimize1Loop_loop, if_neg hd]

/-- Processing a list `pre` from any state leads to a state from which the
nodes that follow are processed, whatever they are. -/
theorem optimize1Loop_split :
    ∀ pre newList lastNode, ∃ nl ln,
      ∀ rest, optimize1Loop (pre ++ rest) newList lastNode = optimize1Loop rest nl ln := by
  intro pre
  induction pre with
  | nil => intro newList lastNode; exact ⟨newList, lastNode, fun _ => rfl⟩
  | cons n pre ih =>
    intro newList lastNode
    have step : ∀ (a : List Node) (l : Option Node),
        (∀ rest, optimize1Loop (n :: rest) newList lastNode = optimize1Loop rest a l) →
        ∃ nl ln, ∀ rest,
          optimize1Loop (n :: pre ++ rest) newList lastNode = optimize1Loop rest nl ln := by
      intro a l h
      obtain ⟨nl, ln, hnl⟩ := ih a l
      exact ⟨nl, ln, fun rest => by rw [List.cons_append, h, hnl]⟩
    by_cases hn : ∀ c, n ≠ Node.loop c
    · cases lastNode with
      | none => exact step _ _ (fun rest => optimize1Loop_first _ _ hn)
      | some ln =>
        by_cases ht : n.type = ln.type
        · rcases same_type_cases hn ht with ⟨a, b, rfl, rfl⟩ | ⟨a, o, b, p, rfl, rfl⟩ |
            ⟨rfl, rfl⟩ | ⟨rfl, rfl⟩ | ⟨o, p, rfl, rfl⟩
          · exact step _ _ (fun rest => optimize1Loop_moveCell _ _ _ _)
          · exact step _ _ (fun rest => optimize1Loop_add _ _ _ _ _ _)
          · exact step _ _ (fun rest => optimize1Loop_print _ _)
          · exact step _ _ (fun rest => optimize1Loop_get _ _)
          · exact step _ _ (fun rest => optimize1Loop_clear _ _ _ _)
        · exact step _ _ (fun rest => optimize1Loop_other _ _ hn ht)
    · push_neg at hn
      obtain ⟨children, rfl⟩ := hn
      by_cases hd : isDecrementBody (Optimize1 children) = true
      · exact step _ _ (fun rest => by rw [optimize1Loop_loop, if_pos hd])
      · exact step _ _ (fun rest => by rw [optimize1Loop_loop, if_neg hd])

/-- How `Optimize1` treats a loop in the middle of a list. -/
theorem Optimize1_loop_middle (pre body post : List Node) :
    Optimize1 (pre ++ Node.loop body :: post) =
      if isDecrementBody (Optimize1 body) then
        Optimize1 pre ++ Optimize1 (newClearNode :: post)
      else Optimize1 pre ++ Node.loop (Optimize1 body) :: Optimize1 post := by
  obtain ⟨nl, ln, h⟩ := optimize1Loop_split pre [] none
  have hpre : Optimize1 pre = flushLast nl ln := by
    have := h []
    rw [List.append_nil, optimize1Loop_nil] at this
    exact this
  have e1 : Optimize1 (pre ++ Node.loop body :: post) =
      optimize1Loop (Node.loop body :: post) nl ln := h _
  have e2 : Optimize1 (newClearNode :: post) = optimize1Loop post [] (some newClearNode) :=
    optimize1Loop_first _ _ (by intro c e; cases e)
  rw [e1, optimize1Loop_loop, hpre, e2]
  by_cases hd : isDecrementBody (Optimize1 body) = true
  · rw [if_pos hd, if_pos hd, optimize1Loop_acc]
  · rw [if_neg hd, if_neg hd, optimize1Loop_acc, List.append_assoc]
    rfl

/-- A pending `Clear` is the first node that is put out. -/
theorem Optimize1_clear_head (post : List Node) :
    ∃ tail, Optimize1 (newClearNode :: post) = newClearNode :: tail := by
  unfold Optimize1
  rw [optimize1Loop_first _ _ (by intro c e; cases e)]
  induction post with
  | nil => exact ⟨[], rfl⟩
  | cons n rest ih =>
    by_cases hn : ∀ c, n ≠ Node.loop c
    · by_cases ht : n.type = newClearNode.type
      · rcases same_type_cases hn ht with ⟨a, b, h, rfl⟩ | ⟨a, o, b, p, h, rfl⟩ |
            ⟨h, rfl⟩ | ⟨h, rfl⟩ | ⟨o, p, h, rfl⟩ <;> cases h
        exact ih
      · rw [optimize1Loop_other _ _ hn ht, optimize1Loop_acc]
        exact ⟨_, rfl⟩
    · push_neg at hn
      obtain ⟨children, rfl⟩ := hn
      rw [optimize1Loop_loop, optimize1Loop_acc]
      split
      · exact ⟨_, rfl⟩
      · rw [optimize1Loop_acc]
        exact ⟨_, rfl⟩

/-- Before a list that does not start with a `Clear`, a `Clear` stays a node
of its own. -/
theorem Optimize1_clear_cons {post : List Node}
    (h : ∀ offset rest, post ≠ Node.clear offset :: rest) :
    Optimize1 (newClearNode :: post) = newClearNode :: Optimize1 post := by
  unfold Optimize1
  rw [optimize1Loop_first _ _ (by intro c e; cases e)]
  cases post with
  | nil => rfl
  | cons n rest =>
    by_cases hn : ∀ c, n ≠ Node.loop c
    · by_cases ht : n.type = newClearNode.type
      · rcases same_type_cases hn ht with ⟨a, b, h1, rfl⟩ | ⟨a, o, b, p, h1, rfl⟩ |
            ⟨h1, rfl⟩ | ⟨h1, rfl⟩ | ⟨o, p, h1, rfl⟩ <;> cases h1
        exact absurd rfl (h _ _)
      · rw [optimize1Loop_other _ _ hn ht, optimize1Loop_acc, optimize1Loop_first _ _ hn]
        rfl
    · push_neg at hn
      obtain ⟨children, rfl⟩ := hn
      rw [optimize1Loop_loop, optimize1Loop_loop]
      split
      · rw [optimize1Loop_acc]; rfl
      · rw [optimize1Loop_acc rest (flushLast [] (some newClearNode) ++ _),
          optimize1Loop_acc rest (flushLast [] none ++ _)]
        rfl

theorem parserBuiltList_cons (n : Node) (rest : List Node) :
    parserBuiltList (n :: rest) = (n.parserBuilt && parserBuiltList rest) := rfl

theorem parserBuiltList_no_clear_head {post : List Node} (h : parserBuiltList post = true) :
    ∀ offset rest, post ≠ Node.clear offset :: rest := by
  rintro offset rest rfl
  rw [parserBuiltList_cons] at h
  simp [Node.parserBuilt] at h

theorem isDecrementBody_of_not_single_add {l : List Node}
    (h : l.length ≠ 1 ∨ ∃ n, l = [n] ∧ n.type ≠ NodeAdd) : isDecrementBody l = false := by
  cases hd : isDecrementBody l with
  | false => rfl
  | true =>
    obtain ⟨offset, rfl⟩ := (isDecrementBody_iff l).mp hd
    rcases h with h | ⟨n, h1, h2⟩
    · exact absurd rfl h
    · cases h1
      exact absurd rfl h2

/-- C6 (clear idiom): the source `[-]` optimizes to the single node
`Clear(0)` and `[->+<]` stays a loop with body `Add(-1), MoveCell(+1),
Add(+1), MoveCell(-1)`.  The same holds for these loops inside any node list
`pre ++ Loop :: post` of a parsed program (the root list or a loop body, the
nodes after the loop being parser-built): the loop with body `Add(-1, 0)`
becomes one `Clear(0)` between the optimized neighbours, the copy loop is
kept, and every loop whose optimized body has a length other than one, or is a
single node that is not an `Add`, is kept as a loop with its optimized body. -/
theorem clear_idiom (pre post : List Node) (hpost : parserBuiltList post = true) :
    (parse "[-]".toList).map Optimize1 = some [.clear 0] ∧
    (parse "[->+<]".toList).map Optimize1 =
      some [.loop [.add (-1) 0, .moveCell 1, .add 1 0, .moveCell (-1)]] ∧
    Optimize1 (pre ++ .loop [.add (-1) 0] :: post) =
      Optimize1 pre ++ .clear 0 :: Optimize1 post ∧
    Optimize1 (pre ++ .loop [.add (-1) 0, .moveCell 1, .add 1 0, .moveCell (-1)] :: post) =
      Optimize1 pre ++ .loop [.add (-1) 0, .moveCell 1, .add 1 0, .moveCell (-1)] ::
        Optimize1 post ∧
    ∀ body, ((Optimize1 body).length ≠ 1 ∨ ∃ n, Optimize1 body = [n] ∧ n.type ≠ NodeAdd) →
      Optimize1 (pre ++ .loop body :: post) =
        Optimize1 pre ++ .loop (Optimize1 body) :: Optimize1 post := by
  refine ⟨by decide, by decide, ?_, ?_, ?_⟩
  · rw [Optimize1_loop_middle, if_pos (by decide),
      Optimize1_clear_cons (parserBuiltList_no_clear_head hpost)]
    rfl
  · rw [Optimize1_loop_middle, if_neg (by decide)]
    rfl
  · intro body h
    rw [Optimize1_loop_middle, isDecrementBody_of_not_single_add h]
    rfl

theorem clear_idiom_witness :
    parserBuiltList [.print, .loop [.get]] = true ∧
    ((parse "[-]".toList).map Optimize1 = some [.clear 0] ∧
    (parse "[->+<]".toList).map Optimize1 =
      some [.loop [.add (-1) 0, .moveCell 1, .add 1 0, .moveCell (-1)]] ∧
    Optimize1 ([.add 1 0, .add 1 0] ++ .loop [.add (-1) 0] :: [.print, .loop [.get]]) =
      Optimize1 [.add 1 0, .add 1 0] ++ .clear 0 :: Optimize1 [.print, .loop [.get]] ∧
    Optimize1 ([.add 1 0, .add 1 0] ++
        .loop [.add (-1) 0, .moveCell 1, .add 1 0, .moveCell (-1)] :: [.print, .loop [.get]]) =
      Optimize1 [.add 1 0, .add 1 0] ++
        .loop [.add (-1) 0, .moveCell 1, .add 1 0, .moveCell (-1)] ::
          Optimize1 [.print, .loop [.get]] ∧
    ∀ body, ((Optimize1 body).length ≠ 1 ∨ ∃ n, Optimize1 body = [n] ∧ n.type ≠ NodeAdd) →
      Optimize1 ([.add 1 0, .add 1 0] ++ .loop body :: [.print, .loop [.get]]) =
        Optimize1 [.add 1 0, .add 1 0] ++ .loop (Optimize1 body) ::
          Optimize1 [.print, .loop [.get]]) :=
  ⟨by decide, clear_idiom [.add 1 0, .add 1 0] [.print, .loop [.get]] (by decide)⟩

/-- C7, the claim as stated fails: a loop whose optimized body is the single
node `Add(-1, offset=5)` is not kept as a loop; line 206 does not read the
offset and the loop becomes `Clear(0)`. -/
theorem clear_rewrite_ignores_offset :
    Optimize1 [.add (-1) 5] = [.add (-1) 5] ∧
      Optimize1 [.loop [.add (-1) 5]] = [.clear 0] ∧
      Optimize1 [.loop [.add (-1) 5]] ≠ [.loop [.add (-1) 5]] := by
  decide

/-- C7 (amended): for every loop in any node list given to `Optimize1`, the
test of line 206 holds iff the already-optimized body is exactly one `Add`
with delta `-1`, whatever its offset.  When it holds the loop is replaced by
`Clear(0)`: the output is the optimized nodes before the loop followed by what
`Optimize1` makes of `Clear(0)` and the nodes after the loop, which starts
with `Clear(0)`.  When it fails the loop is kept, with its optimized body,
between the optimized neighbours. -/
theorem clear_rewrite_condition (pre body post : List Node) :
    (isDecrementBody (Optimize1 body) = true ↔
      ∃ offset, Optimize1 body = [.add (-1) offset]) ∧
    Optimize1 (pre ++ .loop body :: post) =
      (if isDecrementBody (Optimize1 body) then
        Optimize1 pre ++ Optimize1 (.clear 0 :: post)
      else Optimize1 pre ++ .loop (Optimize1 body) :: Optimize1 post) ∧
    ∃ tail, Optimize1 (.clear 0 :: post) = .clear 0 :: tail :=
  ⟨isDecrementBody_iff _, Optimize1_loop_middle pre body post, Optimize1_clear_head post⟩

/-! ## Label indices in emitted lines -/

theorem labels_of_plain {lines : List Line} (h : ∀ l ∈ lines, l.plain = true) :
    startLabels lines = [] ∧ endLabels lines = [] ∧ jeTargets lines = [] ∧
      jneTargets lines = [] := by
  simp only [startLabels, endLabels, jeTargets, jneTargets, List.filterMap_eq_nil_iff]
  refine ⟨?_, ?_, ?_, ?_⟩ <;>
  · intro l hl
    have := h l hl
    cases l <;> simp_all [Line.plain]

theorem startLabels_append (a b : List Line) :
    startLabels (a ++ b) = startLabels a ++ startLabels b := by
  simp [startLabels, List.filterMap_append]

theorem endLabels_append (a b : List Line) :
    endLabels (a ++ b) = endLabels a ++ endLabels b := by
  simp [endLabels, List.filterMap_append]

theorem jeTargets_append (a b : List Line) :
    jeTargets (a ++ b) = jeTargets a ++ jeTargets b := by
  simp [jeTargets, List.filterMap_append]

theorem jneTargets_append (a b : List Line) :
    jneTargets (a ++ b) = jneTargets a ++ jneTargets b := by
  simp [jneTargets, List.filterMap_append]

theorem labelRange_zero (c : Int) : labelRange c 0 = [] := rfl

theorem labelRange_add (c : Int) (a b : Nat) :
    labelRange c (a + b) = labelRange c a ++ labelRange (c + a) b := by
  simp only [labelRange, List.range_add, List.map_append, List.map_map]
  congr 1
  apply List.map_congr_left
  intro i _
  simp only [Function.comp, Nat.cast_add]
  ring

theorem labelRange_one (c : Int) : labelRange c 1 = [c + 1] := by
  simp [labelRange, List.range_succ]

theorem labelRange_length (c : Int) (k : Nat) : (labelRange c k).length = k := by
  simp [labelRange]

theorem labelRange_nodup (c : Int) (k : Nat) : (labelRange c k).Nodup := by
  unfold labelRange
  apply List.Nodup.map _ (List.nodup_range k)
  intro i j h
  simpa using h

theorem mem_labelRange (c : Int) (k : Nat) (x : Int) :
    x ∈ labelRange c k ↔ c + 1 ≤ x ∧ x ≤ c + k := by
  simp only [labelRange, List.mem_map, List.mem_range]
  constructor
  · rintro ⟨i, hi, rfl⟩
    omega
  · rintro ⟨h1, h2⟩
    refine ⟨(x - c - 1).toNat, ?_, ?_⟩ <;> omega

/-- C9 (parse round-trip): for every well-bracketed source the parser
succeeds, the token text of the parsed tree is the source with every byte
other than the eight command bytes removed, and parsing that filtered source
gives the same result as parsing the source. -/
theorem parse_roundtrip (source : List Char) (h : WellBracketed source) :
    (∃ t, parse source = some t ∧ flattenList t = some (source.filter isCommand)) ∧
      parse (source.filter isCommand) = parse source := by
  refine ⟨parse_flatten h, ?_⟩
  unfold parse
  rw [parseFrom_filter]

theorem parse_roundtrip_witness :
    WellBracketed "a+[ b-,\n[>.]< ] c".toList ∧
      ((∃ t, parse "a+[ b-,\n[>.]< ] c".toList = some t ∧
          flattenList t = some ("a+[ b-,\n[>.]< ] c".toList.filter isCommand)) ∧
        parse ("a+[ b-,\n[>.]< ] c".toList.filter isCommand) = parse "a+[ b-,\n[>.]< ] c".toList) :=
  ⟨by decide, parse_roundtrip "a+[ b-,\n[>.]< ] c".toList (by decide)⟩

theorem parseFrom_replicate_plus (n : Nat) :
    ∀ (cur : List Node) (parents : List (List Node)) (rest : List Char),
      parseFrom (.within cur parents) (List.replicate n '+' ++ rest) =
        parseFrom (.within (cur ++ List.replicate n (newAddNode 1)) parents) rest := by
  induction n with
  | zero => intro cur parents rest; simp
  | succ k ih =>
    intro cur parents rest
    rw [List.replicate_succ, List.cons_append, parseFrom_cons]
    have : parseStep (.within cur parents) '+' = some (.within (cur ++ [newAddNode 1]) parents) :=
      rfl
    rw [this, Option.some_bind, ih]
    simp [List.replicate_succ]

theorem optimize1Loop_replicate_add (n : Nat) :
    ∀ (k : Int) (rest newList : List Node),
      optimize1Loop (List.replicate n (newAddNode 1) ++ rest) newList (some (Node.add k 0)) =
        optimize1Loop rest newList (some (Node.add (k + n) 0)) := by
  induction n with
  | zero => intro k rest newList; simp
  | succ j ih =>
    intro k rest newList
    rw [List.replicate_succ, List.cons_append]
    show optimize1Loop (Node.add 1 0 :: _) newList (some (Node.add k 0)) = _
    rw [optimize1Loop_add, ih]
    congr 3
    push_cast
    ring

/-- C10 (scenario `+++.` for any run length): for every `n ≥ 1`, parsing `n`
bytes `+` followed by `.` and applying `Optimize1` and then `Optimize2` yields
exactly the two nodes `Add(delta=n, offset=0), Print`, so no `MoveCell`. -/
theorem scenario_plus_run (n : Nat) (h : 1 ≤ n) :
    pipeline (List.replicate n '+' ++ ['.']) = some [.add n 0, .print] ∧
      (pipeline (List.replicate n '+' ++ ['.'])).map countMoveCellList = some 0 := by
  have hp : parse (List.replicate n '+' ++ ['.']) =
      some (List.replicate n (newAddNode 1) ++ [Node.print]) := by
    unfold parse
    rw [parseFrom_replicate_plus]
    rfl
  obtain ⟨j, rfl⟩ : ∃ j, n = j + 1 := ⟨n - 1, by omega⟩
  have h1 : Optimize1 (List.replicate (j + 1) (newAddNode 1) ++ [Node.print]) =
      [Node.add ((j + 1 : Nat) : Int) 0, Node.print] := by
    unfold Optimize1
    rw [List.replicate_succ, List.cons_append,
      optimize1Loop_first _ _ (by intro c e; cases e)]
    show optimize1Loop _ [] (some (Node.add 1 0)) = _
    rw [optimize1Loop_replicate_add]
    have : (1 : Int) + (j : Int) = ((j + 1 : Nat) : Int) := by push_cast; ring
    rw [this]
    rfl
  have h2 : Optimize2 [Node.add ((j + 1 : Nat) : Int) 0, Node.print] =
      [Node.add ((j + 1 : Nat) : Int) 0, Node.print] := by
    simp [Optimize2, optimize2Loop, realize]
  have hpipe : pipeline (List.replicate (j + 1) '+' ++ ['.']) =
      some [.add ((j + 1 : Nat) : Int) 0, .print] := by
    unfold pipeline
    rw [hp, Option.map_some', h1, h2]
  rw [hpipe]
  exact ⟨rfl, rfl⟩

theorem scenario_plus_run_witness :
    1 ≤ 3 ∧
      (pipeline (List.replicate 3 '+' ++ ['.']) = some [.add (3 : Nat) 0, .print] ∧
        (pipeline (List.replicate 3 '+' ++ ['.'])).map countMoveCellList = some 0) :=
  ⟨by decide, scenario_plus_run 3 (by decide)⟩

/-! ## One step of `Optimize1` on a node that is not a loop -/

/-- What one iteration of the loop of `Optimize1` does with a node that is not
a loop, in terms of the output that is still to come. -/
theorem optimize1Loop_step_cases {n : Node} (rest : List Node) (lastNode : Option Node)
    (hn : ∀ c, n ≠ Node.loop c) :
    (lastNode = none ∧
      optimize1Loop (n :: rest) [] lastNode = optimize1Loop rest [] (some n)) ∨
    (∃ ln, lastNode = some ln ∧ n.type ≠ ln.type ∧
      optimize1Loop (n :: rest) [] lastNode = ln :: optimize1Loop rest [] (some n)) ∨
    (∃ a b, lastNode = some (Node.moveCell a) ∧ n = Node.moveCell b ∧
      optimize1Loop (n :: rest) [] lastNode =
        optimize1Loop rest [] (some (Node.moveCell (a + b)))) ∨
    (∃ a o b p, lastNode = some (Node.add a o) ∧ n = Node.add b p ∧
      optimize1Loop (n :: rest) [] lastNode =
        optimize1Loop rest [] (some (Node.add (a + b) o))) ∨
    (∃ o p, lastNode = some (Node.clear o) ∧ n = Node.clear p ∧
      optimize1Loop (n :: rest) [] lastNode = optimize1Loop rest [] (some (Node.clear o))) ∨
    (lastNode = some Node.print ∧ n = Node.print ∧
      optimize1Loop (n :: rest) [] lastNode =
        Node.print :: Node.print :: optimize1Loop rest [] none) ∨
    (lastNode = some Node.get ∧ n = Node.get ∧
      optimize1Loop (n :: rest) [] lastNode =
        Node.get :: Node.get :: optimize1Loop rest [] none) := by
  cases lastNode with
  | none => exact Or.inl ⟨rfl, optimize1Loop_first _ _ hn⟩
  | some ln =>
    by_cases ht : n.type = ln.type
    · rcases same_type_cases hn ht with ⟨a, b, rfl, rfl⟩ | ⟨a, o, b, p, rfl, rfl⟩ |
        ⟨rfl, rfl⟩ | ⟨rfl, rfl⟩ | ⟨o, p, rfl, rfl⟩
      · exact Or.inr (Or.inr (Or.inl ⟨a, b, rfl, rfl, rfl⟩))
      · exact Or.inr (Or.inr (Or.inr (Or.inl ⟨a, o, b, p, rfl, rfl, rfl⟩)))
      · refine Or.inr (Or.inr (Or.inr (Or.inr (Or.inr (Or.inl ⟨rfl, rfl, ?_⟩)))))
        rw [optimize1Loop_print, optimize1Loop_acc]
        rfl
      · refine Or.inr (Or.inr (Or.inr (Or.inr (Or.inr (Or.inr ⟨rfl, rfl, ?_⟩)))))
        rw [optimize1Loop_get, optimize1Loop_acc]
        rfl
      · exact Or.inr (Or.inr (Or.inr (Or.inr (Or.inl ⟨o, p, rfl, rfl, rfl⟩))))
    · refine Or.inr (Or.inl ⟨ln, rfl, ht, ?_⟩)
      rw [optimize1Loop_other _ _ hn ht, optimize1Loop_acc]
      rfl

/-- The step of `Optimize1` on a loop, in terms of the output still to come. -/
theorem optimize1Loop_loop_acc (children rest : List Node) (lastNode : Option Node) :
    optimize1Loop (Node.loop children :: rest) [] lastNode =
      if isDecrementBody (Optimize1 children) then
        flushLast [] lastNode ++ optimize1Loop rest [] (some newClearNode)
      else
        flushLast [] lastNode ++ Node.loop (Optimize1 children) :: optimize1Loop rest [] none := by
  rw [optimize1Loop_loop]
  split
  · rw [optimize1Loop_acc]
  · rw [optimize1Loop_acc, List.append_assoc]
    rfl

/-! ## Pass A and the input/output nodes -/

theorem ioNodesList_nil : ioNodesList [] = [] := rfl

theorem ioNodesList_cons (n : Node) (rest : List Node) :
    ioNodesList (n :: rest) = n.ioNodes ++ ioNodesList rest := rfl

theorem ioNodes_loop (children : List Node) :
    (Node.loop children).ioNodes = ioNodesList children := rfl

theorem ioNodesList_append (p q : List Node) :
    ioNodesList (p ++ q) = ioNodesList p ++ ioNodesList q := by
  induction p with
  | nil => rfl
  | cons n rest ih => simp [ioNodesList_cons, ih]

theorem ioNodesList_flushLast (lastNode : Option Node) (rest : List Node) :
    ioNodesList (flushLast [] lastNode ++ rest) =
      ioNodesList (flushLast [] lastNode) ++ ioNodesList rest :=
  ioNodesList_append _ _

/-- The loop of `Optimize1` keeps the depth-first sequence of `Print` and `Get`
nodes of the pending node followed by the remaining input. -/
theorem optimize1Loop_ioNodes :
    ∀ nodes lastNode,
      ioNodesList (optimize1Loop nodes [] lastNode) =
        ioNodesList (flushLast [] lastNode) ++ ioNodesList nodes := by
  intro nodes
  induction nodes using nodes_induction with
  | nil =>
    intro lastNode
    rw [optimize1Loop_nil, ioNodesList_nil, List.append_nil]
  | loop children rest ihc ihr =>
    intro lastNode
    have hc : ioNodesList (Optimize1 children) = ioNodesList children := by
      have := ihc none
      simpa [Optimize1, flushLast, ioNodesList_nil] using this
    rw [optimize1Loop_loop_acc]
    split
    · rename_i hd
      obtain ⟨offset, ho⟩ := (isDecrementBody_iff _).mp hd
      have hc0 : ioNodesList children = [] := by
        rw [← hc, ho]; rfl
      rw [ioNodesList_append, ihr, ioNodesList_cons, ioNodes_loop, hc0]
      simp [flushLast, newClearNode, ioNodesList_cons, Node.ioNodes, ioNodesList_nil]
    · rw [ioNodesList_append, ioNodesList_cons, ioNodes_loop, hc, ihr, ioNodesList_cons,
        ioNodes_loop]
      simp [flushLast, ioNodesList_nil]
  | other n rest hn ihr =>
    intro lastNode
    rcases optimize1Loop_step_cases rest lastNode hn with ⟨rfl, h⟩ | ⟨ln, rfl, -, h⟩ |
      ⟨a, b, rfl, rfl, h⟩ | ⟨a, o, b, p, rfl, rfl, h⟩ | ⟨o, p, rfl, rfl, h⟩ |
      ⟨rfl, rfl, h⟩ | ⟨rfl, rfl, h⟩ <;> rw [h] <;>
      simp [ioNodesList_cons, ihr, flushLast, ioNodesList_nil, Node.ioNodes]

theorem Optimize1_ioNodes (t : List Node) : ioNodesList (Optimize1 t) = ioNodesList t := by
  have := optimize1Loop_ioNodes t none
  simpa [Optimize1, flushLast, ioNodesList_nil] using this

/-- A pending `Print` or `Get` is put out unchanged in front of what the
remaining input gives on its own. -/
theorem optimize1Loop_pending_io {x : Node} (hx : x = Node.print ∨ x = Node.get) :
    ∀ post, optimize1Loop post [] (some x) = x :: optimize1Loop post [] none := by
  intro post
  induction post with
  | nil => rfl
  | cons n rest ih =>
    by_cases hn : ∀ c, n ≠ Node.loop c
    · rw [optimize1Loop_first _ _ hn]
      rcases optimize1Loop_step_cases rest (some x) hn with ⟨h0, -⟩ | ⟨ln, h0, -, h⟩ |
        ⟨a, b, h0, -, -⟩ | ⟨a, o, b, p, h0, -, -⟩ | ⟨o, p, h0, -, -⟩ |
        ⟨h0, rfl, h⟩ | ⟨h0, rfl, h⟩
      · cases h0
      · cases h0; exact h
      · cases h0; rcases hx with hx | hx <;> cases hx
      · cases h0; rcases hx with hx | hx <;> cases hx
      · cases h0; rcases hx with hx | hx <;> cases hx
      · cases h0; rw [h, ih]
      · cases h0; rw [h, ih]
    · push_neg at hn
      obtain ⟨children, rfl⟩ := hn
      rw [optimize1Loop_loop_acc, optimize1Loop_loop_acc]
      split <;> rfl

/-- A `Print` or `Get` splits the list: what is before it and what is after
it are optimized on their own. -/
theorem Optimize1_io_middle {x : Node} (hx : x = Node.print ∨ x = Node.get)
    (pre post : List Node) :
    Optimize1 (pre ++ x :: post) = Optimize1 pre ++ x :: Optimize1 post := by
  have hxl : ∀ c, x ≠ Node.loop c := by
    rcases hx with rfl | rfl <;> intro c e <;> cases e
  obtain ⟨nl, ln, h⟩ := optimize1Loop_split pre [] none
  have hpre : Optimize1 pre = flushLast nl ln := by
    have := h []
    rw [List.append_nil, optimize1Loop_nil] at this
    exact this
  have e1 : Optimize1 (pre ++ x :: post) = optimize1Loop (x :: post) nl ln := h _
  rw [e1, hpre, optimize1Loop_acc]
  unfold Optimize1
  rcases optimize1Loop_step_cases post ln hxl with ⟨rfl, h⟩ | ⟨l, rfl, -, h⟩ |
    ⟨a, b, rfl, rfl, h⟩ | ⟨a, o, b, p, rfl, rfl, h⟩ | ⟨o, p, rfl, rfl, h⟩ |
    ⟨rfl, rfl, h⟩ | ⟨rfl, rfl, h⟩
  · rw [h, optimize1Loop_pending_io hx]; simp [flushLast]
  · rw [h, optimize1Loop_pending_io hx]; simp [flushLast]
  · rcases hx with hx | hx <;> cases hx
  · rcases hx with hx | hx <;> cases hx
  · rcases hx with hx | hx <;> cases hx
  · rw [h]; simp [flushLast]
  · rw [h]; simp [flushLast]

/-- C11 (pass A never merges or reorders I/O): for every tree the depth-first,
left-to-right sequence of `Print` and `Get` nodes is the same before and after
`Optimize1`; and in every node list a `Print` or a `Get` stays where it is
between the nodes that survive: the output for `pre ++ Print :: post` is the
output for `pre`, then the `Print`, then the output for `post` (the same for
`Get`), so nothing is merged with it or moved across it. -/
theorem optimize1_keeps_io (t pre post : List Node) :
    ioNodesList (Optimize1 t) = ioNodesList t ∧
      Optimize1 (pre ++ .print :: post) = Optimize1 pre ++ .print :: Optimize1 post ∧
      Optimize1 (pre ++ .get :: post) = Optimize1 pre ++ .get :: Optimize1 post :=
  ⟨Optimize1_ioNodes t, Optimize1_io_middle (Or.inl rfl) pre post,
    Optimize1_io_middle (Or.inr rfl) pre post⟩

/-! ## `Optimize2` in terms of the output still to come -/

theorem realize_append (a newList : List Node) (off : Int) :
    realize (a ++ newList) off = a ++ realize newList off := by
  unfold realize
  split <;> simp

/-- The output built so far is only ever extended at its end. -/
theorem optimize2Loop_acc :
    ∀ nodes newList off,
      optimize2Loop nodes newList off = newList ++ optimize2Loop nodes [] off := by
  intro nodes
  induction nodes with
  | nil =>
    intro newList off
    rw [optimize2Loop_nil, optimize2Loop_nil]
    simpa using realize_append newList [] off
  | cons n rest ih =>
    intro newList off
    cases n with
    | moveCell num => rw [optimize2Loop_moveCell, optimize2Loop_moveCell, ih]
    | add num offset =>
      rw [optimize2Loop_add, optimize2Loop_add, ih, ih ([] ++ _)]
      simp
    | clear offset =>
      rw [optimize2Loop_clear, optimize2Loop_clear, ih, ih ([] ++ _)]
      simp
    | print =>
      rw [optimize2Loop_print, optimize2Loop_print, ih, ih (realize [] off ++ _)]
      have := realize_append newList [] off
      simp only [List.append_nil] at this
      rw [this]
      simp
    | get =>
      rw [optimize2Loop_get, optimize2Loop_get, ih, ih (realize [] off ++ _)]
      have := realize_append newList [] off
      simp only [List.append_nil] at this
      rw [this]
      simp
    | loop children =>
      rw [optimize2Loop_loop, optimize2Loop_loop, ih, ih (realize [] off ++ _)]
      have := realize_append newList [] off
      simp only [List.append_nil] at this
      rw [this]
      simp

theorem optimize2_add (num offset : Int) (rest : List Node) (off : Int) :
    optimize2Loop (Node.add num offset :: rest) [] off =
      Node.add num (offset + off) :: optimize2Loop rest [] off := by
  rw [optimize2Loop_add, optimize2Loop_acc]; rfl

theorem optimize2_clear (offset : Int) (rest : List Node) (off : Int) :
    optimize2Loop (Node.clear offset :: rest) [] off =
      Node.clear (offset + off) :: optimize2Loop rest [] off := by
  rw [optimize2Loop_clear, optimize2Loop_acc]; rfl

theorem optimize2_print (rest : List Node) (off : Int) :
    optimize2Loop (Node.print :: rest) [] off =
      realize [] off ++ Node.print :: optimize2Loop rest [] 0 := by
  rw [optimize2Loop_print, optimize2Loop_acc, List.append_assoc]; rfl

theorem optimize2_get (rest : List Node) (off : Int) :
    optimize2Loop (Node.get :: rest) [] off =
      realize [] off ++ Node.get :: optimize2Loop rest [] 0 := by
  rw [optimize2Loop_get, optimize2Loop_acc, List.append_assoc]; rfl

theorem optimize2_loop (children rest : List Node) (off : Int) :
    optimize2Loop (Node.loop children :: rest) [] off =
      realize [] off ++ Node.loop (Optimize2 children) :: optimize2Loop rest [] 0 := by
  rw [optimize2Loop_loop, optimize2Loop_acc, List.append_assoc]; rfl

theorem realize_nil_zero : realize [] 0 = [] := rfl

theorem realize_nil_of_ne {off : Int} (h : off ≠ 0) : realize [] off = [Node.moveCell off] := by
  unfold realize
  rw [if_pos h]
  rfl

/-! ## Where pass B puts `MoveCell` nodes -/

theorem movesRequiredList_nil : movesRequiredList [] = true := rfl

theorem movesRequiredList_cons (n : Node) (rest : List Node) :
    movesRequiredList (n :: rest) =
      (n.movesRequired && moveWellPlaced n rest && movesRequiredList rest) := rfl

theorem movesRequired_loop (children : List Node) :
    (Node.loop children).movesRequired = movesRequiredList children := rfl

/-- A realized offset in front of a list that starts with a `Print`, `Get` or
`Loop` (or is empty) keeps the placement property. -/
theorem movesRequiredList_realize {l : List Node} (off : Int)
    (h : movesRequiredList l = true) (hp : needsPointer l = true) :
    movesRequiredList (realize [] off ++ l) = true := by
  by_cases h0 : off = 0
  · subst h0; simpa [realize_nil_zero] using h
  · rw [realize_nil_of_ne h0, List.singleton_append, movesRequiredList_cons]
    simp [Node.movesRequired, moveWellPlaced, h0, hp, h]

theorem optimize2Loop_movesRequired :
    ∀ nodes off, movesRequiredList (optimize2Loop nodes [] off) = true := by
  intro nodes
  induction nodes using nodes_induction with
  | nil =>
    intro off
    rw [optimize2Loop_nil]
    have := movesRequiredList_realize (l := []) off rfl rfl
    simpa using this
  | loop children rest ihc ihr =>
    intro off
    rw [optimize2_loop]
    refine movesRequiredList_realize _ ?_ rfl
    rw [movesRequiredList_cons, movesRequired_loop]
    have hc : movesRequiredList (Optimize2 children) = true := ihc 0
    simp [hc, ihr 0, moveWellPlaced]
  | other n rest hn ihr =>
    intro off
    cases n with
    | loop c => exact absurd rfl (hn c)
    | moveCell num => rw [optimize2Loop_moveCell]; exact ihr _
    | add num offset =>
      rw [optimize2_add, movesRequiredList_cons]
      simp [Node.movesRequired, moveWellPlaced, ihr off]
    | clear offset =>
      rw [optimize2_clear, movesRequiredList_cons]
      simp [Node.movesRequired, moveWellPlaced, ihr off]
    | print =>
      rw [optimize2_print]
      refine movesRequiredList_realize _ ?_ rfl
      rw [movesRequiredList_cons]
      simp [Node.movesRequired, moveWellPlaced, ihr 0]
    | get =>
      rw [optimize2_get]
      refine movesRequiredList_realize _ ?_ rfl
      rw [movesRequiredList_cons]
      simp [Node.movesRequired, moveWellPlaced, ihr 0]

/-! ## Pass B on its own output -/

/-- On a list where every `MoveCell` is nonzero and stands where the pointer
is needed, the loop of `Optimize2` changes nothing; started with a pending
nonzero offset in front of a `Print`, `Get`, `Loop` or the end of the list, it
puts out that offset and then the list. -/
theorem optimize2Loop_fixed :
    ∀ l, movesRequiredList l = true →
      optimize2Loop l [] 0 = l ∧
      ∀ d, d ≠ 0 → needsPointer l = true →
        optimize2Loop l [] d = Node.moveCell d :: l := by
  intro l
  induction l using nodes_induction with
  | nil =>
    intro _
    refine ⟨rfl, ?_⟩
    intro d hd _
    rw [optimize2Loop_nil, realize_nil_of_ne hd]
  | loop children rest ihc ihr =>
    intro h
    rw [movesRequiredList_cons, movesRequired_loop, Bool.and_eq_true, Bool.and_eq_true] at h
    obtain ⟨⟨h1, -⟩, h3⟩ := h
    have hc : Optimize2 children = children := (ihc h1).1
    have hr := (ihr h3).1
    refine ⟨?_, ?_⟩
    · rw [optimize2_loop, hc, hr, realize_nil_zero]; rfl
    · intro d hd _
      rw [optimize2_loop, hc, hr, realize_nil_of_ne hd]; rfl
  | other n rest hn ihr =>
    intro h
    rw [movesRequiredList_cons, Bool.and_eq_true, Bool.and_eq_true] at h
    obtain ⟨⟨-, h2⟩, h3⟩ := h
    obtain ⟨hr0, hrd⟩ := ihr h3
    cases n with
    | loop c => exact absurd rfl (hn c)
    | moveCell num =>
      simp only [moveWellPlaced, Bool.and_eq_true, bne_iff_ne, ne_eq] at h2
      refine ⟨?_, ?_⟩
      · rw [optimize2Loop_moveCell, zero_add]
        exact hrd num h2.1 h2.2
      · intro d _ hp
        simp [needsPointer] at hp
    | add num offset =>
      refine ⟨?_, ?_⟩
      · rw [optimize2_add, hr0, add_zero]
      · intro d _ hp
        simp [needsPointer] at hp
    | clear offset =>
      refine ⟨?_, ?_⟩
      · rw [optimize2_clear, hr0, add_zero]
      · intro d _ hp
        simp [needsPointer] at hp
    | print =>
      refine ⟨?_, ?_⟩
      · rw [optimize2_print, hr0, realize_nil_zero]; rfl
      · intro d hd _
        rw [optimize2_print, hr0, realize_nil_of_ne hd]; rfl
    | get =>
      refine ⟨?_, ?_⟩
      · rw [optimize2_get, hr0, realize_nil_zero]; rfl
      · intro d hd _
        rw [optimize2_get, hr0, realize_nil_of_ne hd]; rfl

/-- C20 (pass B idempotence): for every tree, applying `Optimize2` to the
output of `Optimize2` returns that output unchanged. -/
theorem optimize2_idempotent (t : List Node) :
    Optimize2 (Optimize2 t) = Optimize2 t :=
  (optimize2Loop_fixed (Optimize2 t) (optimize2Loop_movesRequired t 0)).1

/-! ## Bracket depth of a source -/

theorem foldr_max_le_iff (l : List Int) (z : Int) :
    l.foldr max 0 ≤ z ↔ 0 ≤ z ∧ ∀ x ∈ l, x ≤ z := by
  induction l with
  | nil => simp
  | cons a l ih =>
    simp only [List.foldr_cons, max_le_iff, ih, List.mem_cons, forall_eq_or_imp]
    tauto

theorem bracketBalance_nil : bracketBalance [] = 0 := rfl

theorem bracketBalance_cons (c : Char) (r : List Char) :
    bracketBalance (c :: r) = bracketBalance [c] + bracketBalance r := by
  simp only [bracketBalance, List.count_cons, List.count_nil]
  push_cast
  ring

theorem bracketBalance_append (a b : List Char) :
    bracketBalance (a ++ b) = bracketBalance a + bracketBalance b := by
  simp only [bracketBalance, List.count_append]
  push_cast
  ring

theorem bracketDepth_nil : bracketDepth [] = 0 := by
  simp [bracketDepth, bracketBalance]

theorem bracketDepth_nonneg (s : List Char) : 0 ≤ bracketDepth s := by
  have := (foldr_max_le_iff (s.inits.map bracketBalance) (bracketDepth s)).mp le_rfl
  exact this.1

theorem bracketDepth_cons (c : Char) (r : List Char) :
    bracketDepth (c :: r) = max 0 (bracketBalance [c] + bracketDepth r) := by
  apply eq_of_forall_ge_iff
  intro z
  unfold bracketDepth
  rw [max_le_iff, foldr_max_le_iff]
  simp only [List.inits_cons, List.map_cons, List.map_map, List.mem_cons, List.mem_map,
    Function.comp, forall_eq_or_imp, forall_exists_index, and_imp,
    forall_apply_eq_imp_iff₂, bracketBalance_nil]
  have key : (bracketBalance [c] + (r.inits.map bracketBalance).foldr max 0 ≤ z) ↔
      (bracketBalance [c] ≤ z ∧ ∀ p ∈ r.inits, bracketBalance [c] + bracketBalance p ≤ z) := by
    rw [← le_sub_iff_add_le', foldr_max_le_iff]
    simp only [List.mem_map, forall_exists_index, and_imp, forall_apply_eq_imp_iff₂]
    constructor
    · rintro ⟨h1, h2⟩
      exact ⟨by linarith, fun p hp => by have := h2 p hp; linarith⟩
    · rintro ⟨h1, h2⟩
      exact ⟨by linarith, fun p hp => by have := h2 p hp; linarith⟩
  rw [key]
  constructor
  · rintro ⟨h0, h1, h2⟩
    refine ⟨h0, ?_, ?_⟩
    · have := h2 [] (by simp)
      simpa [bracketBalance_nil] using this
    · intro p hp
      have := h2 p hp
      rwa [bracketBalance_cons] at this
  · rintro ⟨h0, -, h2⟩
    refine ⟨h0, h0, fun p hp => ?_⟩
    rw [bracketBalance_cons]
    exact h2 p hp

theorem bracketDepth_append (a b : List Char) :
    bracketDepth (a ++ b) = max (bracketDepth a) (bracketBalance a + bracketDepth b) := by
  induction a with
  | nil =>
    have := bracketDepth_nonneg b
    simp [bracketDepth_nil, bracketBalance_nil, this]
  | cons c a ih =>
    rw [List.cons_append, bracketDepth_cons, ih, bracketDepth_cons, bracketBalance_cons c a]
    have h1 := bracketDepth_nonneg a
    have h2 := bracketDepth_nonneg b
    simp only [max_def]
    split_ifs <;> omega

theorem bracketBalance_single_other {c : Char} (h1 : c ≠ '[') (h2 : c ≠ ']') :
    bracketBalance [c] = 0 := by
  simp [bracketBalance, List.count_cons, Ne.symm h1, Ne.symm h2]

theorem bracket_filter (s : List Char) :
    bracketBalance (s.filter isCommand) = bracketBalance s ∧
      bracketDepth (s.filter isCommand) = bracketDepth s := by
  induction s with
  | nil => exact ⟨rfl, rfl⟩
  | cons c r ih =>
    by_cases h : isCommand c = true
    · rw [List.filter_cons_of_pos h, bracketBalance_cons, bracketDepth_cons,
        bracketBalance_cons c r, bracketDepth_cons c r, ih.1, ih.2]
      exact ⟨rfl, rfl⟩
    · have h0 : isCommand c = false := by simpa using h
      have h1 : c ≠ '[' := by rintro rfl; simp [isCommand] at h0
      have h2 : c ≠ ']' := by rintro rfl; simp [isCommand] at h0
      rw [List.filter_cons_of_neg h, bracketBalance_cons c r, bracketDepth_cons c r,
        bracketBalance_single_other h1 h2, ih.1, ih.2]
      have := bracketDepth_nonneg r
      simp [this]

/-! ## Depth of the parsed tree -/

theorem depthList_nil : depthList [] = 0 := rfl

theorem depthList_cons (n : Node) (rest : List Node) :
    depthList (n :: rest) = max n.depth (depthList rest) := rfl

theorem depth_loop (children : List Node) :
    (Node.loop children).depth = 1 + depthList children := rfl

/-- The token text of a non-loop node is one byte that is not a bracket. -/
theorem flatten_other {n : Node} {x : List Char} (hn : ∀ c, n ≠ Node.loop c)
    (h : n.flatten = some x) :
    n.depth = 0 ∧ ∃ ch, x = [ch] ∧ ch ≠ '[' ∧ ch ≠ ']' := by
  cases n with
  | loop c => exact absurd rfl (hn c)
  | moveCell num =>
    refine ⟨rfl, ?_⟩
    simp only [Node.flatten] at h
    split_ifs at h <;> cases h
    · exact ⟨'>', rfl, by decide, by decide⟩
    · exact ⟨'<', rfl, by decide, by decide⟩
  | add num offset =>
    refine ⟨rfl, ?_⟩
    simp only [Node.flatten] at h
    split_ifs at h <;> cases h
    · exact ⟨'+', rfl, by decide, by decide⟩
    · exact ⟨'-', rfl, by decide, by decide⟩
  | print =>
    cases h
    exact ⟨rfl, '.', rfl, by decide, by decide⟩
  | get =>
    cases h
    exact ⟨rfl, ',', rfl, by decide, by decide⟩
  | clear offset => simp [Node.flatten] at h

/-- The token text of a tree is balanced and its bracket depth is the loop
depth of the tree. -/
theorem flattenList_depth :
    ∀ t toks, flattenList t = some toks →
      bracketBalance toks = 0 ∧ bracketDepth toks = (depthList t : Int) := by
  intro t
  induction t using nodes_induction with
  | nil =>
    intro toks h
    rw [flattenList_nil] at h
    cases h
    exact ⟨rfl, by simp [bracketDepth_nil, depthList_nil]⟩
  | loop children rest ihc ihr =>
    intro toks h
    obtain ⟨x, y, hx, hy, rfl⟩ := flattenList_cons_some h
    rw [flatten_loop] at hx
    cases hc : flattenList children with
    | none => simp [hc] at hx
    | some body =>
      simp only [hc, Option.map_some', Option.some.injEq] at hx
      subst hx
      obtain ⟨b1, d1⟩ := ihc body hc
      obtain ⟨b2, d2⟩ := ihr y hy
      have e1 : bracketBalance ['['] = 1 := by decide
      have e2 : bracketBalance [']'] = -1 := by decide
      have e3 : bracketDepth [']'] = 0 := by
        rw [bracketDepth_cons, e2, bracketDepth_nil]; rfl
      have hbal : bracketBalance ('[' :: body ++ [']']) = 0 := by
        rw [List.cons_append, bracketBalance_cons, bracketBalance_append, e1, e2, b1]; rfl
      have hdep : bracketDepth ('[' :: body ++ [']']) = 1 + bracketDepth body := by
        rw [List.cons_append, bracketDepth_cons, bracketDepth_append, e1, e3, b1]
        have := bracketDepth_nonneg body
        simp only [max_def]
        split_ifs <;> omega
      refine ⟨by rw [bracketBalance_append, hbal, b2]; rfl, ?_⟩
      rw [bracketDepth_append, hbal, hdep, d1, d2, depthList_cons, depth_loop]
      push_cast
      simp
  | other n rest hn ihr =>
    intro toks h
    obtain ⟨x, y, hx, hy, rfl⟩ := flattenList_cons_some h
    obtain ⟨hd, ch, rfl, h1, h2⟩ := flatten_other hn hx
    obtain ⟨b2, d2⟩ := ihr y hy
    have e := bracketBalance_single_other h1 h2
    refine ⟨by rw [bracketBalance_append, e, b2]; rfl, ?_⟩
    rw [List.singleton_append, bracketDepth_cons, e, d2, depthList_cons, hd]
    simp

/-- C14 (parse depth): for every well-bracketed source the parser succeeds
and the maximum loop-nesting depth of the parsed tree equals the maximum
bracket-nesting depth of the source, the largest value over all initial
segments of the number of `[` minus the number of `]`. -/
theorem parse_depth (source : List Char) (h : WellBracketed source) :
    ∃ t, parse source = some t ∧ (depthList t : Int) = bracketDepth source := by
  obtain ⟨t, h1, h2⟩ := parse_flatten h
  refine ⟨t, h1, ?_⟩
  rw [← (flattenList_depth t _ h2).2, (bracket_filter source).2]

theorem parse_depth_witness :
    WellBracketed "+[>[-]<[[.]]]x[]".toList ∧
      ∃ t, parse "+[>[-]<[[.]]]x[]".toList = some t ∧
        (depthList t : Int) = bracketDepth "+[>[-]<[[.]]]x[]".toList :=
  ⟨by decide, parse_depth "+[>[-]<[[.]]]x[]".toList (by decide)⟩

/-! ## What the parser builds -/

theorem parserBuiltList_nil : parserBuiltList [] = true := rfl

theorem parserBuilt_loop (children : List Node) :
    (Node.loop children).parserBuilt = parserBuiltList children := rfl

theorem parserBuiltList_append (p q : List Node) :
    parserBuiltList (p ++ q) = (parserBuiltList p && parserBuiltList q) := by
  induction p with
  | nil => rfl
  | cons n rest ih => simp [parserBuiltList_cons, ih, Bool.and_assoc]

theorem parserBuiltList_snoc {p : List Node} {n : Node} (hp : parserBuiltList p = true)
    (hn : n.parserBuilt = true) : parserBuiltList (p ++ [n]) = true := by
  rw [parserBuiltList_append, hp, parserBuiltList_cons, hn]
  rfl

theorem append_built {st st1 : ParseState} {n : Node} (hn : n.parserBuilt = true)
    (hs : st.built = true) (h : st.append n = some st1) : st1.built = true := by
  cases st with
  | within cur parents =>
    simp only [ParseState.append, Option.some.injEq] at h
    subst h
    simp only [ParseState.built, Bool.and_eq_true] at hs ⊢
    exact ⟨parserBuiltList_snoc hs.1 hn, hs.2⟩
  | detached root => simp [ParseState.append] at h

theorem parseStep_built {st st1 : ParseState} {c : Char} (hs : st.built = true)
    (h : parseStep st c = some st1) : st1.built = true := by
  rcases isCommand_cases c with hc | hc | hc | hc | hc | hc | hc | hc | hc
  · subst hc; exact append_built (n := newMoveCellNode 1) (by decide) hs h
  · subst hc; exact append_built (n := newMoveCellNode (-1)) (by decide) hs h
  · subst hc; exact append_built (n := newAddNode 1) (by decide) hs h
  · subst hc; exact append_built (n := newAddNode (-1)) (by decide) hs h
  · subst hc; exact append_built (n := newPrintNode) (by decide) hs h
  · subst hc; exact append_built (n := newGetNode) (by decide) hs h
  · subst hc
    cases st with
    | within cur parents =>
      have e : parseStep (.within cur parents) '[' = some (.within [] (cur :: parents)) := rfl
      rw [e] at h
      cases h
      simp only [ParseState.built, Bool.and_eq_true, List.all_cons] at hs ⊢
      exact ⟨rfl, hs.1, hs.2⟩
    | detached root =>
      have e : parseStep (.detached root) '[' = none := rfl
      rw [e] at h
      cases h
  · subst hc
    cases st with
    | within cur parents =>
      cases parents with
      | nil =>
        have e : parseStep (.within cur []) ']' = some (.detached cur) := rfl
        rw [e] at h
        cases h
        simp only [ParseState.built, Bool.and_eq_true] at hs ⊢
        exact hs.1
      | cons before ps =>
        have e : parseStep (.within cur (before :: ps)) ']' =
            some (.within (closeInto cur before) ps) := rfl
        rw [e] at h
        cases h
        simp only [ParseState.built, Bool.and_eq_true, List.all_cons] at hs ⊢
        refine ⟨?_, hs.2.2⟩
        exact parserBuiltList_snoc hs.2.1 (by rw [newLoopNode, parserBuilt_loop]; exact hs.1)
    | detached root =>
      have e : parseStep (.detached root) ']' = none := rfl
      rw [e] at h
      cases h
  · rw [parseStep_other _ hc] at h
    cases h
    exact hs

theorem parseFrom_built (source : List Char) :
    ∀ st st1, st.built = true → parseFrom st source = some st1 → st1.built = true := by
  induction source with
  | nil =>
    intro st st1 hs h
    rw [parseFrom_nil] at h
    cases h
    exact hs
  | cons c rest ih =>
    intro st st1 hs h
    rw [parseFrom_cons] at h
    cases hp : parseStep st c with
    | none => simp [hp] at h
    | some st2 =>
      rw [hp, Option.some_bind] at h
      exact ih st2 st1 (parseStep_built hs hp) h

theorem root_built {st : ParseState} (hs : st.built = true) :
    parserBuiltList st.root = true := by
  cases st with
  | detached root => exact hs
  | within cur parents =>
    simp only [ParseState.built, Bool.and_eq_true] at hs
    obtain ⟨h1, h2⟩ := hs
    simp only [ParseState.root]
    induction parents generalizing cur with
    | nil => exact h1
    | cons before ps ih =>
      simp only [List.all_cons, Bool.and_eq_true] at h2
      rw [List.foldl_cons]
      refine ih _ ?_ h2.2
      exact parserBuiltList_snoc h2.1 (by rw [newLoopNode, parserBuilt_loop]; exact h1)

/-- Every tree the parser returns, for any source, consists of nodes the
scanner loop builds. -/
theorem parse_parserBuilt {source : List Char} {t : List Node} (h : parse source = some t) :
    parserBuiltList t = true := by
  unfold parse at h
  cases hp : parseFrom (.within [] []) source with
  | none => simp [hp] at h
  | some st =>
    rw [hp, Option.map_some', Option.some.injEq] at h
    subst h
    exact root_built (parseFrom_built source (.within [] []) _ rfl hp)

theorem noClearList_cons (n : Node) (rest : List Node) :
    noClearList (n :: rest) = (n.noClear && noClearList rest) := rfl

theorem parserBuiltList_shape :
    ∀ t, parserBuiltList t = true → noClearList t = true ∧ zeroOffsetsList t = true := by
  intro t
  induction t using nodes_induction with
  | nil => intro _; exact ⟨rfl, rfl⟩
  | loop children rest ihc ihr =>
    intro h
    rw [parserBuiltList_cons, parserBuilt_loop, Bool.and_eq_true] at h
    obtain ⟨c1, c2⟩ := ihc h.1
    obtain ⟨r1, r2⟩ := ihr h.2
    constructor
    · rw [noClearList_cons, r1]
      simp [Node.noClear, c1]
    · rw [zeroOffsetsList_cons, zeroOffsets_loop, c2, r2]
      rfl
  | other n rest hn ihr =>
    intro h
    rw [parserBuiltList_cons, Bool.and_eq_true] at h
    obtain ⟨r1, r2⟩ := ihr h.2
    rw [noClearList_cons, zeroOffsetsList_cons, r1, r2]
    cases n with
    | loop c => exact absurd rfl (hn c)
    | clear offset => simp [Node.parserBuilt] at h
    | add num offset =>
      have := h.1
      simp only [Node.parserBuilt, Bool.and_eq_true, beq_iff_eq] at this
      simp [Node.noClear, Node.zeroOffsets, this.2]
    | _ => exact ⟨rfl, rfl⟩

/-- C15 (offsets and `Clear` are introduced only by their pass): for every
source the parser accepts, the parsed tree contains no `Clear` node and every
`Add` in it has offset `0`; and in `Optimize1` of that tree every `Add` and
every `Clear` has offset `0`. -/
theorem offsets_only_from_pass_b (source : List Char) (t : List Node)
    (h : parse source = some t) :
    noClearList t = true ∧ zeroOffsetsList t = true ∧
      zeroOffsetsList (Optimize1 t) = true := by
  obtain ⟨h1, h2⟩ := parserBuiltList_shape t (parse_parserBuilt h)
  exact ⟨h1, h2, optimize1Loop_zeroOffsets t h2 [] none rfl (by intro ln e; cases e)⟩

theorem offsets_only_from_pass_b_witness :
    parse "+[-]]".toList = some [.add 1 0, .loop [.add (-1) 0]] ∧
      (noClearList [.add 1 0, .loop [.add (-1) 0]] = true ∧
        zeroOffsetsList [.add 1 0, .loop [.add (-1) 0]] = true ∧
        zeroOffsetsList (Optimize1 [.add 1 0, .loop [.add (-1) 0]]) = true) :=
  ⟨by decide, offsets_only_from_pass_b "+[-]]".toList _ (by decide)⟩

/-! ## The parser on unmatched brackets -/

theorem parseStep_plain (cur : List Node) (parents : List (List Node)) {c : Char}
    (h1 : c ≠ '[') (h2 : c ≠ ']') :
    ∃ cur2, parseStep (.within cur parents) c = some (.within cur2 parents) := by
  rcases isCommand_cases c with h | h | h | h | h | h | h | h | h
  · subst h; exact ⟨_, rfl⟩
  · subst h; exact ⟨_, rfl⟩
  · subst h; exact ⟨_, rfl⟩
  · subst h; exact ⟨_, rfl⟩
  · subst h; exact ⟨_, rfl⟩
  · subst h; exact ⟨_, rfl⟩
  · exact absurd h h1
  · exact absurd h h2
  · exact ⟨cur, parseStep_other _ h⟩

theorem parseStep_detached (root : List Node) (c : Char) :
    parseStep (.detached root) c = if isCommand c = true then none else some (.detached root) := by
  rcases isCommand_cases c with h | h | h | h | h | h | h | h | h
  · subst h; rfl
  · subst h; rfl
  · subst h; rfl
  · subst h; rfl
  · subst h; rfl
  · subst h; rfl
  · subst h; rfl
  · subst h; rfl
  · rw [parseStep_other _ h, h]; rfl

/-- After the root was closed, the scanner loop fails at the first command
byte and otherwise stays where it is. -/
theorem parseFrom_detached (root : List Node) (s : List Char) :
    parseFrom (.detached root) s =
      if s.any isCommand = true then none else some (.detached root) := by
  induction s with
  | nil => rfl
  | cons c rest ih =>
    rw [parseFrom_cons, parseStep_detached, List.any_cons]
    by_cases h : isCommand c = true
    · simp [h]
    · rw [if_neg h, Option.some_bind, ih]
      simp [h]

theorem parseFrom_append (a b : List Char) :
    ∀ st, parseFrom st (a ++ b) = (parseFrom st a).bind fun st1 => parseFrom st1 b := by
  induction a with
  | nil => intro st; rfl
  | cons c rest ih =>
    intro st
    rw [List.cons_append, parseFrom_cons, parseFrom_cons]
    cases parseStep st c with
    | none => rfl
    | some st1 => simp [ih]

theorem inits_cons_mem {c : Char} {r p : List Char} (hp : p ∈ r.inits) :
    c :: p ∈ (c :: r).inits := by
  rw [List.mem_inits] at hp ⊢
  exact (List.prefix_cons_inj c).mpr hp

/-- While no `]` is in excess the scanner loop stays inside the tree, and the
number of open lists follows the brackets read. -/
theorem parseFrom_within (s : List Char) :
    ∀ (cur : List Node) (parents : List (List Node)),
      (∀ p ∈ s.inits, p.count ']' ≤ p.count '[' + parents.length) →
      ∃ cur1 parents1, parseFrom (.within cur parents) s = some (.within cur1 parents1) ∧
        parents1.length + s.count ']' = parents.length + s.count '[' := by
  induction s with
  | nil => intro cur parents _; exact ⟨cur, parents, rfl, rfl⟩
  | cons c rest ih =>
    intro cur parents h
    rw [parseFrom_cons]
    by_cases h1 : c = '['
    · subst h1
      have e : parseStep (.within cur parents) '[' = some (.within [] (cur :: parents)) := rfl
      rw [e, Option.some_bind]
      obtain ⟨cur1, parents1, hp, hl⟩ := ih [] (cur :: parents) (by
        intro p hp
        have := h _ (inits_cons_mem (c := '[') hp)
        simp only [List.count_cons, List.length_cons] at this ⊢
        simp at this
        omega)
      refine ⟨cur1, parents1, hp, ?_⟩
      simp only [List.count_cons, List.length_cons] at hl ⊢
      simp at hl ⊢
      omega
    · by_cases h2 : c = ']'
      · subst h2
        cases parents with
        | nil =>
          have := h [']'] (by simp [List.inits_cons])
          simp at this
        | cons before ps =>
          have e : parseStep (.within cur (before :: ps)) ']' =
              some (.within (closeInto cur before) ps) := rfl
          rw [e, Option.some_bind]
          obtain ⟨cur1, parents1, hp, hl⟩ := ih (closeInto cur before) ps (by
            intro p hp
            have := h _ (inits_cons_mem (c := ']') hp)
            simp only [List.count_cons, List.length_cons] at this ⊢
            simp at this
            omega)
          refine ⟨cur1, parents1, hp, ?_⟩
          simp only [List.count_cons, List.length_cons] at hl ⊢
          simp at hl ⊢
          omega
      · obtain ⟨cur2, e⟩ := parseStep_plain cur parents h1 h2
        rw [e, Option.some_bind]
        obtain ⟨cur1, parents1, hp, hl⟩ := ih cur2 parents (by
          intro p hp
          have := h _ (inits_cons_mem (c := c) hp)
          simp only [List.count_cons] at this
          simp [h1, h2] at this
          exact this)
        refine ⟨cur1, parents1, hp, ?_⟩
        simp only [List.count_cons]
        simp [h1, h2]
        exact hl

theorem exists_split_cons (c : Char) (r : List Char) (P : List Char → List Char → Prop) :
    (∃ pre post, c :: r = pre ++ ']' :: post ∧ P pre post) ↔
      (c = ']' ∧ P [] r) ∨ (∃ pre post, r = pre ++ ']' :: post ∧ P (c :: pre) post) := by
  constructor
  · rintro ⟨pre, post, e, hP⟩
    cases pre with
    | nil =>
      simp only [List.nil_append, List.cons.injEq] at e
      obtain ⟨rfl, rfl⟩ := e
      exact Or.inl ⟨rfl, hP⟩
    | cons x pre =>
      simp only [List.cons_append, List.cons.injEq] at e
      obtain ⟨rfl, rfl⟩ := e
      exact Or.inr ⟨pre, post, rfl, hP⟩
  · rintro (⟨rfl, hP⟩ | ⟨pre, post, rfl, hP⟩)
    · exact ⟨[], r, rfl, hP⟩
    · exact ⟨c :: pre, post, rfl, hP⟩

/-- The scanner loop fails exactly when a `]` that finds no open list is
followed by a command byte. -/
theorem parseFrom_eq_none_iff (s : List Char) :
    ∀ (cur : List Node) (parents : List (List Node)),
      parseFrom (.within cur parents) s = none ↔
        ∃ pre post, s = pre ++ ']' :: post ∧
          pre.count '[' + parents.length ≤ pre.count ']' ∧
          ∃ c ∈ post, isCommand c = true := by
  induction s with
  | nil =>
    intro cur parents
    simp [parseFrom_nil]
  | cons c rest ih =>
    intro cur parents
    rw [parseFrom_cons, exists_split_cons]
    by_cases h1 : c = '['
    · subst h1
      have e : parseStep (.within cur parents) '[' = some (.within [] (cur :: parents)) := rfl
      rw [e, Option.some_bind, ih]
      simp only [List.count_cons, List.length_cons]
      simp
      constructor
      · rintro ⟨pre, post, h, hc, x⟩
        exact ⟨pre, post, h, by omega, x⟩
      · rintro ⟨pre, post, h, hc, x⟩
        exact ⟨pre, post, h, by omega, x⟩
    · by_cases h2 : c = ']'
      · subst h2
        cases parents with
        | nil =>
          have e : parseStep (.within cur []) ']' = some (.detached cur) := rfl
          rw [e, Option.some_bind, parseFrom_detached]
          simp only [List.count_nil, List.length_nil, le_refl, true_and, List.any_eq_true]
          constructor
          · intro h
            left
            by_contra hx
            rw [if_neg hx] at h
            cases h
          · rintro (hx | ⟨pre, post, rfl, -, x, hx, hc⟩)
            · rw [if_pos hx]
            · rw [if_pos ⟨x, by simp [hx], hc⟩]
        | cons before ps =>
          have e : parseStep (.within cur (before :: ps)) ']' =
              some (.within (closeInto cur before) ps) := rfl
          rw [e, Option.some_bind, ih]
          simp only [List.count_cons, List.length_cons, List.count_nil]
          simp
          constructor
          · rintro ⟨pre, post, h, hc, x⟩
            exact ⟨pre, post, h, by omega, x⟩
          · rintro ⟨pre, post, h, hc, x⟩
            exact ⟨pre, post, h, by omega, x⟩
      · obtain ⟨cur2, e⟩ := parseStep_plain cur parents h1 h2
        rw [e, Option.some_bind, ih]
        simp only [List.count_cons]
        simp [h1, h2]

/-- Closing every open list by a `]` returns to the root list. -/
theorem parseFrom_close_all (parents : List (List Node)) :
    ∀ cur, parseFrom (.within cur parents) (List.replicate parents.length ']') =
      some (.within (parents.foldl closeInto cur) []) := by
  induction parents with
  | nil => intro cur; rfl
  | cons before ps ih =>
    intro cur
    rw [List.length_cons, List.replicate_succ, parseFrom_cons]
    have e : parseStep (.within cur (before :: ps)) ']' =
        some (.within (closeInto cur before) ps) := rfl
    rw [e, Option.some_bind, ih]
    rfl

theorem noExcessClose_mem_inits {s p : List Char} (h : NoExcessClose s) (hp : p ∈ s.inits) :
    NoExcessClose p := by
  intro q hq
  rw [List.mem_inits] at hp hq
  exact h q ((List.mem_inits _ _).mpr (hq.trans hp))

/-- C17 (parser totality on well-formed input): when no initial segment of the
source has more `]` than `[`, the scanner loop is inside the tree after every
initial segment (`list` is never the nil parent of the root) and the parser
returns a root list.  For every source, the parser fails (a nil `list` is
dereferenced) exactly when the source has a `]` that exceeds the `[` before it
and that is followed, somewhere later, by one of the eight command bytes. -/
theorem parser_totality (source : List Char) :
    (NoExcessClose source →
      (∀ p ∈ source.inits, ∃ cur parents,
        parseFrom (.within [] []) p = some (.within cur parents)) ∧
      ∃ t, parse source = some t) ∧
    (parse source = none ↔
      ∃ pre post, source = pre ++ ']' :: post ∧ pre.count '[' ≤ pre.count ']' ∧
        ∃ c ∈ post, isCommand c = true) := by
  constructor
  · intro h
    have key : ∀ p, NoExcessClose p → ∃ cur parents,
        parseFrom (.within [] []) p = some (.within cur parents) := by
      intro p hp
      obtain ⟨cur, parents, h1, -⟩ := parseFrom_within p [] [] (by
        intro q hq
        have := hp q hq
        simpa using this)
      exact ⟨cur, parents, h1⟩
    refine ⟨fun p hp => key p (noExcessClose_mem_inits h hp), ?_⟩
    obtain ⟨cur, parents, h1⟩ := key source h
    exact ⟨_, by rw [parse, h1]; rfl⟩
  · have := parseFrom_eq_none_iff source [] []
    simp only [List.length_nil, add_zero] at this
    rw [← this, parse]
    cases parseFrom (.within [] []) source <;> simp

theorem parser_totality_witness :
    NoExcessClose "+[[-]>[".toList ∧
      (((∀ p ∈ "+[[-]>[".toList.inits, ∃ cur parents,
          parseFrom (.within [] []) p = some (.within cur parents)) ∧
        ∃ t, parse "+[[-]>[".toList = some t)) ∧
      parse "+]-".toList = none :=
  ⟨by decide, (parser_totality "+[[-]>[".toList).1 (by decide),
    (parser_totality "+]-".toList).2.mpr ⟨['+'], ['-'], rfl, by decide, '-', by simp, rfl⟩⟩

/-- C19 (unclosed loops are tolerated): for every source with no excess `]`
that ends with `k` loops still open (`k` more `[` than `]`), the parser
returns a root list, and it is the root list returned for the source followed
by `k` bytes `]`.  This holds for every `k`, in particular for `k ≥ 1`. -/
theorem unclosed_loops_closed (source : List Char) (k : Nat) (h : NoExcessClose source)
    (hk : source.count '[' = source.count ']' + k) :
    (∃ t, parse source = some t) ∧
      parse (source ++ List.replicate k ']') = parse source := by
  obtain ⟨cur, parents, h1, h2⟩ := parseFrom_within source [] [] (by
    intro q hq
    have := h q hq
    simpa using this)
  have hlen : parents.length = k := by
    simp only [List.length_nil, zero_add] at h2
    omega
  refine ⟨⟨_, by rw [parse, h1]; rfl⟩, ?_⟩
  rw [parse, parse, parseFrom_append, h1, Option.some_bind, ← hlen, parseFrom_close_all]
  rfl

theorem unclosed_loops_closed_witness :
    NoExcessClose "+[[-]>[.".toList ∧
      "+[[-]>[.".toList.count '[' = "+[[-]>[.".toList.count ']' + 2 ∧
      ((∃ t, parse "+[[-]>[.".toList = some t) ∧
        parse ("+[[-]>[.".toList ++ List.replicate 2 ']') = parse "+[[-]>[.".toList) :=
  ⟨by decide, by decide, unclosed_loops_closed "+[[-]>[.".toList 2 (by decide) (by decide)⟩

namespace Go

/-! ## Go values: induction and 64-bit arithmetic -/

/-- Induction over a node list that descends into the children of loops and,
where the property asks for it, into list elements. -/
theorem go_nodes_induction {P : List Node → Prop} (nil : P [])
    (loop : ∀ children rest, P children → P rest → P (Node.loop children :: rest))
    (other : ∀ n rest, (∀ c, n ≠ Node.loop c) → (∀ l, n = Node.list l → P l) → P rest →
      P (n :: rest)) :
    ∀ l, P l := by
  intro l
  refine Node.rec_1 (motive_1 := fun n => ∀ rest, P rest → P (n :: rest)) (motive_2 := P)
    ?_ ?_ ?_ ?_ ?_ ?_ ?_ ?_ ?_ l
  · intro num rest h
    exact other _ _ (by intro c e; cases e) (by intro l e; cases e) h
  · intro num off rest h
    exact other _ _ (by intro c e; cases e) (by intro l e; cases e) h
  · intro rest h
    exact other _ _ (by intro c e; cases e) (by intro l e; cases e) h
  · intro rest h
    exact other _ _ (by intro c e; cases e) (by intro l e; cases e) h
  · intro children ih rest h; exact loop _ _ ih h
  · intro nodes ih rest h
    exact other _ _ (by intro c e; cases e) (by intro l e; cases e; exact ih) h
  · intro off rest h
    exact other _ _ (by intro c e; cases e) (by intro l e; cases e) h
  · exact nil
  · intro head tail ih1 ih2; exact ih1 _ ih2

theorem wrap64_of_inInt64 {x : Int} (h : InInt64 x) : wrap64 x = x := by
  unfold InInt64 at h
  unfold wrap64
  omega

theorem wrap64_inInt64 (x : Int) : InInt64 (wrap64 x) := by
  unfold InInt64 wrap64
  omega

theorem wrap64_add_left (a b : Int) : wrap64 (wrap64 a + b) = wrap64 (a + b) := by
  unfold wrap64
  omega

theorem wrap64_add_right (a b : Int) : wrap64 (a + wrap64 b) = wrap64 (a + b) := by
  unfold wrap64
  omega

theorem wrap64_zero : wrap64 0 = 0 := by decide

/-! ## `Optimize2` on Go values -/

theorem go_optimize2Children_loop (children : List Node) :
    (Node.loop children).optimize2Children = Optimize2 children := rfl

theorem go_optimize2Loop_nil (newList : List Node) (off : Int) :
    optimize2Loop [] newList off = realize newList off := rfl

theorem go_optimize2Loop_print (rest newList : List Node) (off : Int) :
    optimize2Loop (Node.print :: rest) newList off =
      optimize2Loop rest (realize newList off ++ [Node.print]) 0 := rfl

theorem go_optimize2Loop_get (rest newList : List Node) (off : Int) :
    optimize2Loop (Node.get :: rest) newList off =
      optimize2Loop rest (realize newList off ++ [Node.get]) 0 := rfl

theorem go_optimize2Loop_moveCell (num : Int) (rest newList : List Node) (off : Int) :
    optimize2Loop (Node.moveCell num :: rest) newList off =
      optimize2Loop rest newList (wrap64 (off + num)) := rfl

theorem go_optimize2Loop_add (num offset : Int) (rest newList : List Node) (off : Int) :
    optimize2Loop (Node.add num offset :: rest) newList off =
      optimize2Loop rest (newList ++ [Node.add num (wrap64 (offset + off))]) off := rfl

theorem go_optimize2Loop_clear (offset : Int) (rest newList : List Node) (off : Int) :
    optimize2Loop (Node.clear offset :: rest) newList off =
      optimize2Loop rest (newList ++ [Node.clear (wrap64 (offset + off))]) off := rfl

theorem go_optimize2Loop_loop (children rest newList : List Node) (off : Int) :
    optimize2Loop (Node.loop children :: rest) newList off =
      optimize2Loop rest (realize newList off ++ [Node.loop (Optimize2 children)]) 0 := rfl

theorem go_optimize2Loop_list (nodes rest newList : List Node) (off : Int) :
    optimize2Loop (Node.list nodes :: rest) newList off =
      optimize2Loop rest (newList ++ [Node.list nodes]) off := rfl

theorem go_realize_append (a newList : List Node) (off : Int) :
    realize (a ++ newList) off = a ++ realize newList off := by
  unfold realize
  split <;> simp

theorem go_realize_nil_zero : realize [] 0 = [] := rfl

theorem go_realize_nil_of_ne {off : Int} (h : off ≠ 0) :
    realize [] off = [Node.moveCell off] := by
  unfold realize
  rw [if_pos h]
  rfl

/-- The output built so far is only ever extended at its end. -/
theorem go_optimize2Loop_acc :
    ∀ nodes newList off,
      optimize2Loop nodes newList off = newList ++ optimize2Loop nodes [] off := by
  intro nodes
  induction nodes with
  | nil =>
    intro newList off
    rw [go_optimize2Loop_nil, go_optimize2Loop_nil]
    simpa using go_realize_append newList [] off
  | cons n rest ih =>
    intro newList off
    have hr : realize newList off = newList ++ realize [] off := by
      simpa using go_realize_append newList [] off
    cases n with
    | moveCell num => rw [go_optimize2Loop_moveCell, go_optimize2Loop_moveCell, ih]
    | add num offset =>
      rw [go_optimize2Loop_add, go_optimize2Loop_add, ih, ih ([] ++ _)]
      simp
    | clear offset =>
      rw [go_optimize2Loop_clear, go_optimize2Loop_clear, ih, ih ([] ++ _)]
      simp
    | list nodes =>
      rw [go_optimize2Loop_list, go_optimize2Loop_list, ih, ih ([] ++ _)]
      simp
    | print =>
      rw [go_optimize2Loop_print, go_optimize2Loop_print, ih, ih (realize [] off ++ _), hr]
      simp
    | get =>
      rw [go_optimize2Loop_get, go_optimize2Loop_get, ih, ih (realize [] off ++ _), hr]
      simp
    | loop children =>
      rw [go_optimize2Loop_loop, go_optimize2Loop_loop, ih, ih (realize [] off ++ _), hr]
      simp

theorem go_optimize2_add (num offset : Int) (rest : List Node) (off : Int) :
    optimize2Loop (Node.add num offset :: rest) [] off =
      Node.add num (wrap64 (offset + off)) :: optimize2Loop rest [] off := by
  rw [go_optimize2Loop_add, go_optimize2Loop_acc]; rfl

theorem go_optimize2_clear (offset : Int) (rest : List Node) (off : Int) :
    optimize2Loop (Node.clear offset :: rest) [] off =
      Node.clear (wrap64 (offset + off)) :: optimize2Loop rest [] off := by
  rw [go_optimize2Loop_clear, go_optimize2Loop_acc]; rfl

theorem go_optimize2_list (nodes rest : List Node) (off : Int) :
    optimize2Loop (Node.list nodes :: rest) [] off =
      Node.list nodes :: optimize2Loop rest [] off := by
  rw [go_optimize2Loop_list, go_optimize2Loop_acc]; rfl

theorem go_optimize2_print (rest : List Node) (off : Int) :
    optimize2Loop (Node.print :: rest) [] off =
      realize [] off ++ Node.print :: optimize2Loop rest [] 0 := by
  rw [go_optimize2Loop_print, go_optimize2Loop_acc, List.append_assoc]; rfl

theorem go_optimize2_get (rest : List Node) (off : Int) :
    optimize2Loop (Node.get :: rest) [] off =
      realize [] off ++ Node.get :: optimize2Loop rest [] 0 := by
  rw [go_optimize2Loop_get, go_optimize2Loop_acc, List.append_assoc]; rfl

theorem go_optimize2_loop (children rest : List Node) (off : Int) :
    optimize2Loop (Node.loop children :: rest) [] off =
      realize [] off ++ Node.loop (Optimize2 children) :: optimize2Loop rest [] 0 := by
  rw [go_optimize2Loop_loop, go_optimize2Loop_acc, List.append_assoc]; rfl


/-! ## Where pass B puts `MoveCell` nodes, on Go values -/

theorem go_movesRequiredList_cons (n : Node) (rest : List Node) :
    movesRequiredList (n :: rest) =
      (n.movesRequired && moveWellPlaced n rest && movesRequiredList rest) := rfl

theorem go_movesRequired_loop (children : List Node) :
    (Node.loop children).movesRequired = movesRequiredList children := rfl

theorem go_movesRequiredList_realize {l : List Node} (off : Int)
    (h : movesRequiredList l = true) (hp : needsPointer l = true) :
    movesRequiredList (realize [] off ++ l) = true := by
  by_cases h0 : off = 0
  · subst h0; simpa [go_realize_nil_zero] using h
  · rw [go_realize_nil_of_ne h0, List.singleton_append, go_movesRequiredList_cons]
    simp [Node.movesRequired, moveWellPlaced, h0, hp, h]

theorem go_optimize2Loop_movesRequired :
    ∀ nodes off, movesRequiredList (optimize2Loop nodes [] off) = true := by
  intro nodes
  induction nodes using go_nodes_induction with
  | nil =>
    intro off
    rw [go_optimize2Loop_nil]
    have := go_movesRequiredList_realize (l := []) off rfl rfl
    simpa using this
  | loop children rest ihc ihr =>
    intro off
    rw [go_optimize2_loop]
    refine go_movesRequiredList_realize _ ?_ rfl
    rw [go_movesRequiredList_cons, go_movesRequired_loop]
    have hc : movesRequiredList (Optimize2 children) = true := ihc 0
    simp [hc, ihr 0, moveWellPlaced]
  | other n rest hn _ ihr =>
    intro off
    cases n with
    | loop c => exact absurd rfl (hn c)
    | moveCell num => rw [go_optimize2Loop_moveCell]; exact ihr _
    | add num offset =>
      rw [go_optimize2_add, go_movesRequiredList_cons]
      simp [Node.movesRequired, moveWellPlaced, ihr off]
    | clear offset =>
      rw [go_optimize2_clear, go_movesRequiredList_cons]
      simp [Node.movesRequired, moveWellPlaced, ihr off]
    | list nodes =>
      rw [go_optimize2_list, go_movesRequiredList_cons]
      simp [Node.movesRequired, moveWellPlaced, ihr off]
    | print =>
      rw [go_optimize2_print]
      refine go_movesRequiredList_realize _ ?_ rfl
      rw [go_movesRequiredList_cons]
      simp [Node.movesRequired, moveWellPlaced, ihr 0]
    | get =>
      rw [go_optimize2_get]
      refine go_movesRequiredList_realize _ ?_ rfl
      rw [go_movesRequiredList_cons]
      simp [Node.movesRequired, moveWellPlaced, ihr 0]

/-- What `movesRequiredList` says about a `MoveCell` or a `Loop` anywhere in
the list. -/
theorem go_movesRequiredList_spec :
    ∀ l, movesRequiredList l = true →
      (∀ pre num post, l = pre ++ Node.moveCell num :: post →
        num ≠ 0 ∧ (post = [] ∨ ∃ x tail, post = x :: tail ∧
          (x = Node.print ∨ x = Node.get ∨ ∃ c, x = Node.loop c))) ∧
      (∀ pre c post, l = pre ++ Node.loop c :: post → movesRequiredList c = true) := by
  intro l
  induction l with
  | nil =>
    intro _
    constructor
    · intro pre num post h; simp at h
    · intro pre c post h; simp at h
  | cons n rest ih =>
    intro h
    rw [go_movesRequiredList_cons, Bool.and_eq_true, Bool.and_eq_true] at h
    obtain ⟨⟨h1, h2⟩, h3⟩ := h
    obtain ⟨ih1, ih2⟩ := ih h3
    constructor
    · intro pre num post e
      cases pre with
      | nil =>
        simp only [List.nil_append, List.cons.injEq] at e
        obtain ⟨rfl, rfl⟩ := e
        simp only [moveWellPlaced, Bool.and_eq_true, bne_iff_ne, ne_eq] at h2
        refine ⟨h2.1, ?_⟩
        have hp := h2.2
        cases rest with
        | nil => exact Or.inl rfl
        | cons x tail =>
          refine Or.inr ⟨x, tail, rfl, ?_⟩
          cases x <;> simp_all [needsPointer]
      | cons p pre =>
        simp only [List.cons_append, List.cons.injEq] at e
        exact ih1 pre num post e.2
    · intro pre c post e
      cases pre with
      | nil =>
        simp only [List.nil_append, List.cons.injEq] at e
        obtain ⟨rfl, rfl⟩ := e
        exact h1
      | cons p pre =>
        simp only [List.cons_append, List.cons.injEq] at e
        exact ih2 pre c post e.2

theorem go_listElements_append (p q : List Node) :
    listElements (p ++ q) = listElements p ++ listElements q := by
  induction p with
  | nil => simp [listElements]
  | cons n rest ih => cases n <;> simp [listElements, ih]

theorem go_listElements_realize (off : Int) : listElements (realize [] off) = [] := by
  by_cases h : off = 0
  · subst h; rfl
  · rw [go_realize_nil_of_ne h]; rfl

/-- The `*ListNode` elements of a list are put out as they are. -/
theorem go_optimize2Loop_listElements :
    ∀ nodes off, listElements (optimize2Loop nodes [] off) = listElements nodes := by
  intro nodes
  induction nodes with
  | nil => intro off; rw [go_optimize2Loop_nil, go_listElements_realize]; rfl
  | cons n rest ih =>
    intro off
    cases n with
    | moveCell num => rw [go_optimize2Loop_moveCell, ih]; simp [listElements]
    | add num offset => rw [go_optimize2_add]; simp [listElements, ih]
    | clear offset => rw [go_optimize2_clear]; simp [listElements, ih]
    | list nodes => rw [go_optimize2_list]; simp [listElements, ih]
    | print =>
      rw [go_optimize2_print, go_listElements_append, go_listElements_realize]
      simp [listElements, ih]
    | get =>
      rw [go_optimize2_get, go_listElements_append, go_listElements_realize]
      simp [listElements, ih]
    | loop children =>
      rw [go_optimize2_loop, go_listElements_append, go_listElements_realize]
      simp [listElements, ih]

/-! ## Net displacement through pass B, on Go values -/

theorem go_netMove_append (p q : List Node) : netMove (p ++ q) = netMove p + netMove q := by
  induction p with
  | nil => simp [netMove]
  | cons n rest ih => cases n <;> simp [netMove, ih, add_assoc]

theorem go_netMove_realize (off : Int) : netMove (realize [] off) = off := by
  by_cases h : off = 0
  · subst h; rfl
  · rw [go_realize_nil_of_ne h]; simp [netMove]

theorem go_loopBodies_append (p q : List Node) :
    loopBodies (p ++ q) = loopBodies p ++ loopBodies q := by
  induction p with
  | nil => simp [loopBodies]
  | cons n rest ih => cases n <;> simp [loopBodies, ih]

theorem go_loopBodies_realize (off : Int) : loopBodies (realize [] off) = [] := by
  by_cases h : off = 0
  · subst h; rfl
  · rw [go_realize_nil_of_ne h]; rfl

/-- The net displacement of the output is, modulo `2^64`, the pending offset
plus the net displacement of the remaining input. -/
theorem go_optimize2Loop_netMove :
    ∀ nodes off,
      wrap64 (netMove (optimize2Loop nodes [] off)) = wrap64 (off + netMove nodes) := by
  intro nodes
  induction nodes with
  | nil => intro off; rw [go_optimize2Loop_nil, go_netMove_realize]; simp [netMove]
  | cons n rest ih =>
    intro off
    cases n with
    | moveCell num =>
      rw [go_optimize2Loop_moveCell, ih, wrap64_add_left]
      simp [netMove, add_assoc]
    | add num offset => rw [go_optimize2_add]; simpa [netMove] using ih off
    | clear offset => rw [go_optimize2_clear]; simpa [netMove] using ih off
    | list nodes => rw [go_optimize2_list]; simpa [netMove] using ih off
    | print =>
      rw [go_optimize2_print, go_netMove_append, go_netMove_realize]
      have := ih 0
      simp only [netMove, zero_add] at this ⊢
      rw [← wrap64_add_right, this, wrap64_add_right]
    | get =>
      rw [go_optimize2_get, go_netMove_append, go_netMove_realize]
      have := ih 0
      simp only [netMove, zero_add] at this ⊢
      rw [← wrap64_add_right, this, wrap64_add_right]
    | loop children =>
      rw [go_optimize2_loop, go_netMove_append, go_netMove_realize]
      have := ih 0
      simp only [netMove, zero_add] at this ⊢
      rw [← wrap64_add_right, this, wrap64_add_right]

theorem go_optimize2Loop_loopBodies :
    ∀ nodes off,
      loopBodies (optimize2Loop nodes [] off) = (loopBodies nodes).map Optimize2 := by
  intro nodes
  induction nodes with
  | nil => intro off; rw [go_optimize2Loop_nil, go_loopBodies_realize]; rfl
  | cons n rest ih =>
    intro off
    cases n with
    | moveCell num => rw [go_optimize2Loop_moveCell, ih]; simp [loopBodies]
    | add num offset => rw [go_optimize2_add]; simp [loopBodies, ih]
    | clear offset => rw [go_optimize2_clear]; simp [loopBodies, ih]
    | list nodes => rw [go_optimize2_list]; simp [loopBodies, ih]
    | print =>
      rw [go_optimize2_print, go_loopBodies_append, go_loopBodies_realize]
      simp [loopBodies, ih]
    | get =>
      rw [go_optimize2_get, go_loopBodies_append, go_loopBodies_realize]
      simp [loopBodies, ih]
    | loop children =>
      rw [go_optimize2_loop, go_loopBodies_append, go_loopBodies_realize]
      simp [loopBodies, ih]


/-! ## The code generator on Go values -/

theorem go_visitList_nil (st : State) : visitList [] st = ([], st) := rfl

theorem go_visitList_cons (n : Node) (rest : List Node) (st : State) :
    visitList (n :: rest) st =
      ((n.Visit st).1 ++ (visitList rest (n.Visit st).2).1,
        (visitList rest (n.Visit st).2).2) := rfl

theorem go_Visit_loop (children : List Node) (st : State) :
    (Node.loop children).Visit st =
      ([.cmpZero, .je (wrap64 (st.Loop + 1)), .loopStart (wrap64 (st.Loop + 1))] ++
          (visitList children { Loop := wrap64 (st.Loop + 1) }).1 ++
          [.cmpZero, .jne (wrap64 (st.Loop + 1)), .loopEnd (wrap64 (st.Loop + 1))],
        (visitList children { Loop := wrap64 (st.Loop + 1) }).2) := rfl

theorem go_Visit_list (nodes : List Node) (st : State) :
    (Node.list nodes).Visit st = visitList nodes st := rfl

theorem go_countLoopsList_nil : countLoopsList [] = 0 := rfl

theorem go_countLoopsList_cons (n : Node) (rest : List Node) :
    countLoopsList (n :: rest) = n.countLoops + countLoopsList rest := rfl

theorem go_countLoops_loop (children : List Node) :
    (Node.loop children).countLoops = 1 + countLoopsList children := rfl

theorem go_countLoops_list (nodes : List Node) :
    (Node.list nodes).countLoops = countLoopsList nodes := rfl

theorem go_countLoops_other {n : Node} (hn : ∀ c, n ≠ Node.loop c) (hl : ∀ l, n ≠ Node.list l) :
    n.countLoops = 0 := by
  cases n with
  | loop c => exact absurd rfl (hn c)
  | list l => exact absurd rfl (hl l)
  | _ => rfl

/-- A node that is neither a loop nor a list leaves the counter alone and
emits only plain lines. -/
theorem go_Visit_other {n : Node} (hn : ∀ c, n ≠ Node.loop c) (hl : ∀ l, n ≠ Node.list l)
    (st : State) :
    (n.Visit st).2 = st ∧ ∀ l ∈ (n.Visit st).1, l.plain = true := by
  cases n with
  | loop c => exact absurd rfl (hn c)
  | list l => exact absurd rfl (hl l)
  | moveCell num =>
    refine ⟨rfl, ?_⟩
    simp only [Node.Visit, visitMoveCell]
    split_ifs <;> simp [Line.plain]
  | add num offset =>
    refine ⟨rfl, ?_⟩
    simp only [Node.Visit, visitAdd]
    split_ifs <;> simp [Line.plain]
  | print => exact ⟨rfl, by simp [Node.Visit, visitPrint, Line.plain]⟩
  | get => exact ⟨rfl, by simp [Node.Visit, visitGet, Line.plain]⟩
  | clear offset =>
    refine ⟨rfl, ?_⟩
    simp only [Node.Visit, visitClear]
    split_ifs <;> simp [Line.plain]

theorem go_visitList_append (a b : List Node) (st : State) :
    visitList (a ++ b) st =
      ((visitList a st).1 ++ (visitList b (visitList a st).2).1,
        (visitList b (visitList a st).2).2) := by
  induction a generalizing st with
  | nil => simp [go_visitList_nil]
  | cons n rest ih => simp [go_visitList_cons, ih]

theorem go_visitList_middle (pre : List Node) (n : Node) (post : List Node) (st : State) :
    (visitList (pre ++ n :: post) st).1 =
      (visitList pre st).1 ++ (n.Visit (visitList pre st).2).1 ++
        (visitList post (n.Visit (visitList pre st).2).2).1 := by
  rw [go_visitList_append, go_visitList_cons]
  simp

/-- The counter and the labels emitted for a tree, when the counter does not
overflow. -/
theorem go_visitList_labels :
    ∀ t (c : Int), InInt64 c → c + countLoopsList t ≤ 9223372036854775807 →
      (visitList t { Loop := c }).2 = { Loop := c + countLoopsList t } ∧
      startLabels (visitList t { Loop := c }).1 = labelRange c (countLoopsList t) ∧
      (endLabels (visitList t { Loop := c }).1).Perm (labelRange c (countLoopsList t)) ∧
      jeTargets (visitList t { Loop := c }).1 = startLabels (visitList t { Loop := c }).1 ∧
      jneTargets (visitList t { Loop := c }).1 = endLabels (visitList t { Loop := c }).1 := by
  intro t
  induction t using go_nodes_induction with
  | nil =>
    intro c _ _
    simp [go_visitList_nil, go_countLoopsList_nil, labelRange_zero, startLabels, endLabels,
      jeTargets, jneTargets]
  | loop children rest ihc ihr =>
    intro c hc hk
    rw [go_countLoopsList_cons, go_countLoops_loop] at hk
    push_cast at hk
    have hw : wrap64 (c + 1) = c + 1 := by
      apply wrap64_of_inInt64
      unfold InInt64 at hc ⊢
      omega
    have hc1 : InInt64 (c + 1) := by
      unfold InInt64 at hc ⊢
      omega
    obtain ⟨c0, c1, c2, c3, c4⟩ := ihc (c + 1) hc1 (by omega)
    have hc2 : InInt64 (c + 1 + countLoopsList children) := by
      unfold InInt64 at hc ⊢
      omega
    obtain ⟨r0, r1, r2, r3, r4⟩ := ihr (c + 1 + countLoopsList children) hc2 (by omega)
    have hk2 : labelRange c (countLoopsList (Node.loop children :: rest)) =
        (c + 1) :: (labelRange (c + 1) (countLoopsList children) ++
          labelRange (c + 1 + countLoopsList children) (countLoopsList rest)) := by
      rw [go_countLoopsList_cons, go_countLoops_loop, labelRange_add, labelRange_add,
        labelRange_one]
      simp [add_assoc]
    rw [go_visitList_cons, go_Visit_loop]
    simp only [hw, c0]
    rw [hk2]
    simp only [startLabels_append, endLabels_append, jeTargets_append, jneTargets_append,
      c1, c3, c4, r0, r1, r3, r4]
    refine ⟨?_, ?_, ?_, ?_, ?_⟩
    · congr 1
      rw [go_countLoopsList_cons, go_countLoops_loop]
      push_cast
      ring
    · simp [startLabels]
    · have e : endLabels [Line.cmpZero, Line.je (c + 1), Line.loopStart (c + 1)] = [] := by
        simp [endLabels]
      have e2 : endLabels [Line.cmpZero, Line.jne (c + 1), Line.loopEnd (c + 1)] = [c + 1] := by
        simp [endLabels]
      rw [e, e2, List.nil_append]
      have p1 : (endLabels (visitList children { Loop := c + 1 }).1 ++ [c + 1]).Perm
          ((c + 1) :: labelRange (c + 1) (countLoopsList children)) :=
        (List.perm_append_singleton _ _).trans (List.Perm.cons _ c2)
      exact (List.Perm.append p1 r2)
    · simp [startLabels, jeTargets]
    · simp [endLabels, jneTargets]
  | other n rest hn hl ihr =>
    intro c hc hk
    by_cases hlist : ∀ l, n ≠ Node.list l
    · obtain ⟨h1, h2⟩ := go_Visit_other hn hlist { Loop := c }
      obtain ⟨p1, p2, p3, p4⟩ := labels_of_plain h2
      rw [go_countLoopsList_cons, go_countLoops_other hn hlist, Nat.zero_add] at hk ⊢
      obtain ⟨r0, r1, r2, r3, r4⟩ := ihr c hc hk
      rw [go_visitList_cons, h1]
      simp only [startLabels_append, endLabels_append, jeTargets_append, jneTargets_append,
        p1, p2, p3, p4, List.nil_append]
      exact ⟨r0, r1, r2, r3, r4⟩
    · push_neg at hlist
      obtain ⟨l, rfl⟩ := hlist
      rw [go_countLoopsList_cons, go_countLoops_list] at hk
      push_cast at hk
      have hkl : c + countLoopsList l ≤ 9223372036854775807 := by omega
      obtain ⟨l0, l1, l2, l3, l4⟩ := hl l rfl c hc hkl
      have hc2 : InInt64 (c + countLoopsList l) := by
        unfold InInt64 at hc ⊢
        omega
      obtain ⟨r0, r1, r2, r3, r4⟩ := ihr (c + countLoopsList l) hc2 (by omega)
      rw [go_visitList_cons, go_Visit_list, go_countLoopsList_cons, go_countLoops_list,
        labelRange_add]
      simp only [startLabels_append, endLabels_append, jeTargets_append, jneTargets_append,
        l0, l1, l3, l4, r0, r1, r3, r4]
      refine ⟨?_, trivial, List.Perm.append l2 r2, trivial, trivial⟩
      congr 1
      push_cast
      ring


/-! ## Label indices -/

/-- C8, the claim as stated fails: the counter is a 64-bit `int`, and
`st.Loop++` wraps around.  Visiting the single loop `[]` with the counter at
`9223372036854775807` ends with the counter at `-9223372036854775808`, not at
`c + 1`, and the one start label and the one end label carry that index, which
is not among `c+1..c+k`. -/
theorem label_counter_wraps :
    countLoopsList [Node.loop []] = 1 ∧
    (visitList [Node.loop []] { Loop := 9223372036854775807 }).2.Loop =
      -9223372036854775808 ∧
    (visitList [Node.loop []] { Loop := 9223372036854775807 }).2.Loop ≠
      9223372036854775807 + 1 ∧
    startLabels (visitList [Node.loop []] { Loop := 9223372036854775807 }).1 =
      [-9223372036854775808] ∧
    endLabels (visitList [Node.loop []] { Loop := 9223372036854775807 }).1 =
      [-9223372036854775808] ∧
    labelRange 9223372036854775807 1 = [9223372036854775808] := by
  decide

/-- C8 (amended): visiting a tree with `k` loops (nested ones and those inside
`*ListNode` elements included) from a counter value `c` of type `int` with
`c + k ≤ 9223372036854775807`, so that the counter never wraps, ends with
counter `c + k`; the `loop_start_<n>:` definitions carry, in emission order,
the indices `c+1, ..., c+k`; the `loop_end_<n>:` definitions carry the same
`k` indices, each once, in some order; these `k` indices are distinct; the
`je` branches name the same indices as the start labels and the `jne`
branches the same as the end labels, in the same order; and the two branches
and the two labels that a loop emits around its children all carry the loop's
own index, the counter value after `st.Loop++`. -/
theorem labels_unique_in_range (t : List Node) (c : Int) (hc : InInt64 c)
    (hk : c + countLoopsList t ≤ 9223372036854775807) :
    (visitList t { Loop := c }).2.Loop = c + countLoopsList t ∧
    startLabels (visitList t { Loop := c }).1 = labelRange c (countLoopsList t) ∧
    (endLabels (visitList t { Loop := c }).1).Perm (labelRange c (countLoopsList t)) ∧
    (labelRange c (countLoopsList t)).Nodup ∧
    (labelRange c (countLoopsList t)).length = countLoopsList t ∧
    (∀ x, x ∈ labelRange c (countLoopsList t) ↔ c + 1 ≤ x ∧ x ≤ c + countLoopsList t) ∧
    jeTargets (visitList t { Loop := c }).1 = startLabels (visitList t { Loop := c }).1 ∧
    jneTargets (visitList t { Loop := c }).1 = endLabels (visitList t { Loop := c }).1 ∧
    ∀ (children : List Node) (st : State),
      (Node.loop children).Visit st =
        ([.cmpZero, .je (wrap64 (st.Loop + 1)), .loopStart (wrap64 (st.Loop + 1))] ++
            (visitList children { Loop := wrap64 (st.Loop + 1) }).1 ++
            [.cmpZero, .jne (wrap64 (st.Loop + 1)), .loopEnd (wrap64 (st.Loop + 1))],
          (visitList children { Loop := wrap64 (st.Loop + 1) }).2) := by
  obtain ⟨h0, h1, h2, h3, h4⟩ := go_visitList_labels t c hc hk
  refine ⟨?_, h1, h2, labelRange_nodup _ _, labelRange_length _ _, mem_labelRange _ _, h3, h4,
    go_Visit_loop⟩
  rw [h0]

theorem labels_unique_in_range_witness :
    InInt64 9223372036854775804 ∧
    (9223372036854775804 : Int) +
        countLoopsList [.loop [.loop []], .list [.loop [.print]]] ≤ 9223372036854775807 ∧
    (visitList [.loop [.loop []], .list [.loop [.print]]] { Loop := 9223372036854775804 }).2.Loop
      = 9223372036854775804 + countLoopsList [.loop [.loop []], .list [.loop [.print]]] ∧
    startLabels
        (visitList [.loop [.loop []], .list [.loop [.print]]]
          { Loop := 9223372036854775804 }).1 =
      labelRange 9223372036854775804
        (countLoopsList [.loop [.loop []], .list [.loop [.print]]]) :=
  ⟨by decide, by decide,
    (labels_unique_in_range [.loop [.loop []], .list [.loop [.print]]] 9223372036854775804
      (by decide) (by decide)).1,
    (labels_unique_in_range [.loop [.loop []], .list [.loop [.print]]] 9223372036854775804
      (by decide) (by decide)).2.1⟩

/-! ## The shape of what a loop emits -/

/-- C16, the claim as stated fails: a loop visited with the counter at
`9223372036854775807` does not emit the index `c + 1 = 9223372036854775808`;
`st.Loop++` wraps and the lines name `-9223372036854775808`. -/
theorem loop_label_wraps :
    ((Node.loop []).Visit { Loop := 9223372036854775807 }).1.map Line.render =
      ["\tcmp BYTE [rsp], 0", "\tje loop_end_-9223372036854775808",
        "loop_start_-9223372036854775808:", "\tcmp BYTE [rsp], 0",
        "\tjne loop_start_-9223372036854775808", "loop_end_-9223372036854775808:"] ∧
    (Line.je (9223372036854775807 + 1)).render = "\tje loop_end_9223372036854775808" := by
  decide

/-- C16 (amended): a loop with children `b` visited with a counter value `c`
of type `int` below `9223372036854775807` emits the test `cmp BYTE [rsp], 0`,
`je loop_end_<c+1>`, the label `loop_start_<c+1>:`, then everything `b` emits
with the counter starting at `c+1`, then the test again,
`jne loop_start_<c+1>` and the label `loop_end_<c+1>:`, and leaves the counter
where `b` left it (at `c = 9223372036854775807` the index is the wrapped
`-9223372036854775808`).  A list emits, in order, what its nodes emit, each
with the counter the nodes before it left; the empty list emits nothing; and a
`*ListNode` that is an element of a list emits what its own nodes emit. -/
theorem loop_emission_in_range (b : List Node) (c : Int) (hc : InInt64 c)
    (hlt : c < 9223372036854775807) :
    (Node.loop b).Visit { Loop := c } =
        ([.cmpZero, .je (c + 1), .loopStart (c + 1)] ++ (visitList b { Loop := c + 1 }).1 ++
          [.cmpZero, .jne (c + 1), .loopEnd (c + 1)], (visitList b { Loop := c + 1 }).2) ∧
      [Line.cmpZero, .je (c + 1), .loopStart (c + 1), .jne (c + 1), .loopEnd (c + 1)].map
          Line.render =
        ["\tcmp BYTE [rsp], 0", "\tje loop_end_" ++ toString (c + 1),
          "loop_start_" ++ toString (c + 1) ++ ":", "\tjne loop_start_" ++ toString (c + 1),
          "loop_end_" ++ toString (c + 1) ++ ":"] ∧
      (∀ st : State, visitList [] st = ([], st)) ∧
      (∀ (n : Node) (rest : List Node) (st : State),
        visitList (n :: rest) st =
          ((n.Visit st).1 ++ (visitList rest (n.Visit st).2).1,
            (visitList rest (n.Visit st).2).2)) ∧
      (∀ (pre : List Node) (n : Node) (post : List Node) (st : State),
        (visitList (pre ++ n :: post) st).1 =
          (visitList pre st).1 ++ (n.Visit (visitList pre st).2).1 ++
            (visitList post (n.Visit (visitList pre st).2).2).1) ∧
      ∀ (nodes : List Node) (st : State), (Node.list nodes).Visit st = visitList nodes st := by
  have hw : wrap64 (c + 1) = c + 1 := by
    apply wrap64_of_inInt64
    unfold InInt64 at hc ⊢
    omega
  refine ⟨?_, rfl, fun _ => rfl, fun _ _ _ => rfl, go_visitList_middle, fun _ _ => rfl⟩
  rw [go_Visit_loop]
  simp only [hw]

theorem loop_emission_in_range_witness :
    InInt64 6 ∧ (6 : Int) < 9223372036854775807 ∧
      ((Node.loop [.add 1 0, .loop []]).Visit { Loop := 6 }).1.map Line.render =
        ["\tcmp BYTE [rsp], 0", "\tje loop_end_7", "loop_start_7:",
          "\tadd BYTE [rsp], 1 ; Inc Node",
          "\tcmp BYTE [rsp], 0", "\tje loop_end_8", "loop_start_8:",
          "\tcmp BYTE [rsp], 0", "\tjne loop_start_8", "loop_end_8:",
          "\tcmp BYTE [rsp], 0", "\tjne loop_start_7", "loop_end_7:"] :=
  ⟨by decide, by decide, by
    rw [(loop_emission_in_range [.add 1 0, .loop []] 6 (by decide) (by decide)).1]
    decide⟩

/-! ## Where pass B leaves `MoveCell` nodes -/

/-- C12, the claim as stated fails: a `*ListNode` that is an element of the
list is appended to the output as it is, and `Optimize2` is not applied to its
nodes; so the output has a list whose `MoveCell` has delta zero and is
immediately followed by an `Add`. -/
theorem list_element_keeps_moves :
    Optimize2 [Node.list [.moveCell 0, .add 1 0]] = [Node.list [.moveCell 0, .add 1 0]] := by
  decide

/-- C12 (amended): for every tree, in the output of `Optimize2` and in the
children of every loop reached from it through loops, every `MoveCell` has a
nonzero delta and is the last node of its list or is immediately followed by a
`Print`, a `Get` or a `Loop`; so none is followed by an `Add`, a `Clear`, a
`*ListNode` element or another `MoveCell`.  The second part spells the
property out for a `MoveCell` at any position of a list that has it, and
passes it on to the children of every loop of the list.  The `*ListNode`
elements of the list are put out as they are, in order: `Optimize2` does not
look into them. -/
theorem moves_required_outside_lists (t : List Node) :
    movesRequiredList (Optimize2 t) = true ∧
      (∀ l, movesRequiredList l = true →
        (∀ pre num post, l = pre ++ Node.moveCell num :: post →
          num ≠ 0 ∧ (post = [] ∨ ∃ x tail, post = x :: tail ∧
            (x = Node.print ∨ x = Node.get ∨ ∃ c, x = Node.loop c))) ∧
        (∀ pre c post, l = pre ++ Node.loop c :: post → movesRequiredList c = true)) ∧
      listElements (Optimize2 t) = listElements t :=
  ⟨go_optimize2Loop_movesRequired t 0, go_movesRequiredList_spec,
    go_optimize2Loop_listElements t 0⟩

/-! ## The net displacement of a list under pass B -/

/-- C13, the claim as stated fails: `movCellOffset` is a 64-bit `int` and
`movCellOffset += n.Num` wraps around.  The two `MoveCell` nodes with deltas
`9223372036854775807` and `1` become the single `MoveCell` with delta
`-9223372036854775808`: the sum of the deltas is `9223372036854775808` before
and `-9223372036854775808` after. -/
theorem net_move_wraps :
    Optimize2 [Node.moveCell 9223372036854775807, .moveCell 1] =
      [Node.moveCell (-9223372036854775808)] ∧
    netMove [Node.moveCell 9223372036854775807, .moveCell 1] = 9223372036854775808 ∧
    netMove (Optimize2 [Node.moveCell 9223372036854775807, .moveCell 1]) =
      -9223372036854775808 := by
  decide

/-- C13 (amended): for every node list the sum of the deltas of its direct
`MoveCell` children is the same after `Optimize2` as before modulo `2^64`,
the two sums having the same 64-bit wrap-around; so they are equal whenever
both are values of `int`.  The loops that are direct children of the output
are, in order, the loops of the input with `Optimize2` applied to their
children, so the same holds for every loop body reached through loops; and
the `*ListNode` elements are put out as they are. -/
theorem net_move_modulo (t : List Node) :
    wrap64 (netMove (Optimize2 t)) = wrap64 (netMove t) ∧
      (InInt64 (netMove (Optimize2 t)) → InInt64 (netMove t) →
        netMove (Optimize2 t) = netMove t) ∧
      loopBodies (Optimize2 t) = (loopBodies t).map Optimize2 ∧
      listElements (Optimize2 t) = listElements t := by
  have h : wrap64 (netMove (Optimize2 t)) = wrap64 (netMove t) := by
    have := go_optimize2Loop_netMove t 0
    simpa [Optimize2] using this
  refine ⟨h, ?_, go_optimize2Loop_loopBodies t 0, go_optimize2Loop_listElements t 0⟩
  intro h1 h2
  rw [wrap64_of_inInt64 h1, wrap64_of_inInt64 h2] at h
  exact h


/-! ## Unfolding `Optimize1` on Go values -/

theorem go_optimize1Children_loop (children : List Node) :
    (Node.loop children).optimize1Children = Optimize1 children := rfl

theorem go_optimize1Loop_nil (newList : List Node) (lastNode : Option Node) :
    optimize1Loop [] newList lastNode = flushLast newList lastNode := rfl

theorem go_optimize1Loop_loop (children rest newList : List Node) (lastNode : Option Node) :
    optimize1Loop (Node.loop children :: rest) newList lastNode =
      if isDecrementBody (Optimize1 children) then
        optimize1Loop rest (flushLast newList lastNode) (some (Node.clear 0))
      else
        optimize1Loop rest (flushLast newList lastNode ++ [Node.loop (Optimize1 children)])
          none := rfl

theorem go_optimize1Loop_first {n : Node} (rest newList : List Node)
    (hn : ∀ c, n ≠ Node.loop c) :
    optimize1Loop (n :: rest) newList none = optimize1Loop rest newList (some n) := by
  cases n with
  | loop c => exact absurd rfl (hn c)
  | _ => rfl

theorem go_optimize1Loop_other {n ln : Node} (rest newList : List Node)
    (hn : ∀ c, n ≠ Node.loop c) (ht : n.type ≠ ln.type) :
    optimize1Loop (n :: rest) newList (some ln) =
      optimize1Loop rest (newList ++ [ln]) (some n) := by
  cases n with
  | loop c => exact absurd rfl (hn c)
  | _ => simp only [optimize1Loop]; rw [if_neg ht]

theorem go_optimize1Loop_moveCell (a b : Int) (rest newList : List Node) :
    optimize1Loop (Node.moveCell b :: rest) newList (some (Node.moveCell a)) =
      optimize1Loop rest newList (some (Node.moveCell (wrap64 (a + b)))) := rfl

theorem go_optimize1Loop_add (a b o p : Int) (rest newList : List Node) :
    optimize1Loop (Node.add b p :: rest) newList (some (Node.add a o)) =
      optimize1Loop rest newList (some (Node.add (wrap64 (a + b)) o)) := rfl

theorem go_optimize1Loop_clear (o p : Int) (rest newList : List Node) :
    optimize1Loop (Node.clear p :: rest) newList (some (Node.clear o)) =
      optimize1Loop rest newList (some (Node.clear o)) := rfl

theorem go_optimize1Loop_print (rest newList : List Node) :
    optimize1Loop (Node.print :: rest) newList (some Node.print) =
      optimize1Loop rest (newList ++ [Node.print, Node.print]) none := rfl

theorem go_optimize1Loop_get (rest newList : List Node) :
    optimize1Loop (Node.get :: rest) newList (some Node.get) =
      optimize1Loop rest (newList ++ [Node.get, Node.get]) none := rfl

theorem go_optimize1Loop_list (a b rest newList : List Node) :
    optimize1Loop (Node.list b :: rest) newList (some (Node.list a)) =
      optimize1Loop rest (newList ++ [Node.list a, Node.list b]) none := rfl

/-- The pairs of a pending node and a current node that line 215 treats as
having the same type. -/
theorem go_same_type_cases {n ln : Node} (hn : ∀ c, n ≠ Node.loop c)
    (ht : n.type = ln.type) :
    (∃ a b, ln = Node.moveCell a ∧ n = Node.moveCell b) ∨
    (∃ a o b p, ln = Node.add a o ∧ n = Node.add b p) ∨
    (ln = Node.print ∧ n = Node.print) ∨
    (ln = Node.get ∧ n = Node.get) ∨
    (∃ o p, ln = Node.clear o ∧ n = Node.clear p) ∨
    (∃ a b, ln = Node.list a ∧ n = Node.list b) := by
  cases n <;> cases ln <;>
    simp [Node.type, NodeMoveCell, NodeAdd, NodePrint, NodeGet, NodeLoop, NodeList,
      NodeClear] at ht ⊢
  exact absurd rfl (hn _)

theorem go_flushLast_append (a newList : List Node) (lastNode : Option Node) :
    flushLast (a ++ newList) lastNode = a ++ flushLast newList lastNode := by
  cases lastNode <;> simp [flushLast]

/-- The output built so far is only ever extended at its end. -/
theorem go_optimize1Loop_acc :
    ∀ nodes newList lastNode,
      optimize1Loop nodes newList lastNode = newList ++ optimize1Loop nodes [] lastNode := by
  intro nodes
  induction nodes with
  | nil =>
    intro newList lastNode
    rw [go_optimize1Loop_nil, go_optimize1Loop_nil]
    simpa using go_flushLast_append newList [] lastNode
  | cons n rest ih =>
    intro newList lastNode
    have step : ∀ (a : List Node) (l : Option Node) (b : List Node),
        optimize1Loop (n :: rest) newList lastNode = optimize1Loop rest (newList ++ a) l →
        optimize1Loop (n :: rest) [] lastNode = optimize1Loop rest a l →
        optimize1Loop (n :: rest) newList lastNode =
          newList ++ optimize1Loop (n :: rest) [] lastNode := by
      intro a l _ h1 h2
      rw [h1, h2, ih (newList ++ a), ih a, List.append_assoc]
    by_cases hn : ∀ c, n ≠ Node.loop c
    · cases lastNode with
      | none =>
        refine step [] (some n) [] ?_ ?_
        · rw [go_optimize1Loop_first _ _ hn, List.append_nil]
        · rw [go_optimize1Loop_first _ _ hn]
      | some ln =>
        by_cases ht : n.type = ln.type
        · rcases go_same_type_cases hn ht with ⟨a, b, rfl, rfl⟩ | ⟨a, o, b, p, rfl, rfl⟩ |
            ⟨rfl, rfl⟩ | ⟨rfl, rfl⟩ | ⟨o, p, rfl, rfl⟩ | ⟨a, b, rfl, rfl⟩
          · exact step [] _ [] (by rw [go_optimize1Loop_moveCell, List.append_nil])
              (by rw [go_optimize1Loop_moveCell])
          · exact step [] _ [] (by rw [go_optimize1Loop_add, List.append_nil])
              (by rw [go_optimize1Loop_add])
          · exact step [Node.print, Node.print] _ [] (by rw [go_optimize1Loop_print])
              (by rw [go_optimize1Loop_print, List.nil_append])
          · exact step [Node.get, Node.get] _ [] (by rw [go_optimize1Loop_get])
              (by rw [go_optimize1Loop_get, List.nil_append])
          · exact step [] _ [] (by rw [go_optimize1Loop_clear, List.append_nil])
              (by rw [go_optimize1Loop_clear])
          · exact step [Node.list a, Node.list b] _ [] (by rw [go_optimize1Loop_list])
              (by rw [go_optimize1Loop_list, List.nil_append])
        · exact step [ln] _ [] (by rw [go_optimize1Loop_other _ _ hn ht])
            (by rw [go_optimize1Loop_other _ _ hn ht, List.nil_append])
    · push_neg at hn
      obtain ⟨children, rfl⟩ := hn
      by_cases hd : isDecrementBody (Optimize1 children) = true
      · refine step (flushLast [] lastNode) (some (Node.clear 0)) [] ?_ ?_
        · rw [go_optimize1Loop_loop, if_pos hd, ← go_flushLast_append, List.append_nil]
        · rw [go_optimize1Loop_loop, if_pos hd]
      · refine step (flushLast [] lastNode ++ [Node.loop (Optimize1 children)]) none [] ?_ ?_
        · rw [go_optimize1Loop_loop, if_neg hd, ← List.append_assoc, ← go_flushLast_append,
            List.append_nil]
        · rw [go_optimize1Loop_loop, if_neg hd]

/-- What one iteration of the loop of `Optimize1` does with a node that is not
a loop, in terms of the output that is still to come. -/
theorem go_optimize1Loop_step_cases {n : Node} (rest : List Node) (lastNode : Option Node)
    (hn : ∀ c, n ≠ Node.loop c) :
    (lastNode = none ∧
      optimize1Loop (n :: rest) [] lastNode = optimize1Loop rest [] (some n)) ∨
    (∃ ln, lastNode = some ln ∧ n.type ≠ ln.type ∧
      optimize1Loop (n :: rest) [] lastNode = ln :: optimize1Loop rest [] (some n)) ∨
    (∃ a b, lastNode = some (Node.moveCell a) ∧ n = Node.moveCell b ∧
      optimize1Loop (n :: rest) [] lastNode =
        optimize1Loop rest [] (some (Node.moveCell (wrap64 (a + b))))) ∨
    (∃ a o b p, lastNode = some (Node.add a o) ∧ n = Node.add b p ∧
      optimize1Loop (n :: rest) [] lastNode =
        optimize1Loop rest [] (some (Node.add (wrap64 (a + b)) o))) ∨
    (∃ o p, lastNode = some (Node.clear o) ∧ n = Node.clear p ∧
      optimize1Loop (n :: rest) [] lastNode = optimize1Loop rest [] (some (Node.clear o))) ∨
    (∃ x, (x = Node.print ∨ x = Node.get ∨ ∃ l, x = Node.list l) ∧
      lastNode = some x ∧ n.type = x.type ∧ (∀ c, x ≠ Node.loop c) ∧
      x.type ≠ NodeMoveCell ∧ x.type ≠ NodeAdd ∧
      n.type ≠ NodeMoveCell ∧ n.type ≠ NodeAdd ∧
      optimize1Loop (n :: rest) [] lastNode = x :: n :: optimize1Loop rest [] none) := by
  cases lastNode with
  | none => exact Or.inl ⟨rfl, go_optimize1Loop_first _ _ hn⟩
  | some ln =>
    by_cases ht : n.type = ln.type
    · rcases go_same_type_cases hn ht with ⟨a, b, rfl, rfl⟩ | ⟨a, o, b, p, rfl, rfl⟩ |
        ⟨rfl, rfl⟩ | ⟨rfl, rfl⟩ | ⟨o, p, rfl, rfl⟩ | ⟨a, b, rfl, rfl⟩
      · exact Or.inr (Or.inr (Or.inl ⟨a, b, rfl, rfl, rfl⟩))
      · exact Or.inr (Or.inr (Or.inr (Or.inl ⟨a, o, b, p, rfl, rfl, rfl⟩)))
      · refine Or.inr (Or.inr (Or.inr (Or.inr (Or.inr ⟨Node.print, Or.inl rfl, rfl, rfl,
          (by intro c e; cases e), by decide, by decide, by decide, by decide, ?_⟩))))
        rw [go_optimize1Loop_print, go_optimize1Loop_acc]
        rfl
      · refine Or.inr (Or.inr (Or.inr (Or.inr (Or.inr ⟨Node.get, Or.inr (Or.inl rfl), rfl, rfl,
          (by intro c e; cases e), by decide, by decide, by decide, by decide, ?_⟩))))
        rw [go_optimize1Loop_get, go_optimize1Loop_acc]
        rfl
      · exact Or.inr (Or.inr (Or.inr (Or.inr (Or.inl ⟨o, p, rfl, rfl, rfl⟩))))
      · refine Or.inr (Or.inr (Or.inr (Or.inr (Or.inr ⟨Node.list a, Or.inr (Or.inr ⟨a, rfl⟩),
          rfl, rfl, (by intro c e; cases e), ?_, ?_, ?_, ?_, ?_⟩))))
        · show NodeList ≠ NodeMoveCell; decide
        · show NodeList ≠ NodeAdd; decide
        · show NodeList ≠ NodeMoveCell; decide
        · show NodeList ≠ NodeAdd; decide
        · rw [go_optimize1Loop_list, go_optimize1Loop_acc]
          rfl
    · refine Or.inr (Or.inl ⟨ln, rfl, ht, ?_⟩)
      rw [go_optimize1Loop_other _ _ hn ht, go_optimize1Loop_acc]
      rfl

/-- The step of `Optimize1` on a loop, in terms of the output still to come. -/
theorem go_optimize1Loop_loop_acc (children rest : List Node) (lastNode : Option Node) :
    optimize1Loop (Node.loop children :: rest) [] lastNode =
      if isDecrementBody (Optimize1 children) then
        flushLast [] lastNode ++ optimize1Loop rest [] (some (Node.clear 0))
      else
        flushLast [] lastNode ++ Node.loop (Optimize1 children) :: optimize1Loop rest [] none := by
  rw [go_optimize1Loop_loop]
  split
  · rw [go_optimize1Loop_acc]
  · rw [go_optimize1Loop_acc, List.append_assoc]
    rfl

/-! ## No mergeable neighbours after pass A, outside list elements -/

theorem go_mergeFreeList_cons (n : Node) (rest : List Node) :
    mergeFreeList (n :: rest) = (n.mergeFree && !headClash n rest && mergeFreeList rest) := rfl

theorem go_mergeFree_loop (children : List Node) :
    (Node.loop children).mergeFree = mergeFreeList children := rfl

theorem go_mergeFree_other {n : Node} (hn : ∀ c, n ≠ Node.loop c) : n.mergeFree = true := by
  cases n with
  | loop c => exact absurd rfl (hn c)
  | _ => rfl

theorem go_clash_type {a b : Node} (h : a.clash b = true) : a.type = b.type := by
  cases a <;> cases b <;> simp [Node.clash] at h <;> rfl

theorem go_clash_not_plain {a b : Node} (h : a.clash b = true) :
    a.type = NodeMoveCell ∨ a.type = NodeAdd := by
  cases a <;> cases b <;> simp [Node.clash] at h
  · exact Or.inl rfl
  · exact Or.inr rfl

/-- The pending node, possibly with further nodes merged into it, is the first
node put out. -/
theorem go_optimize1Loop_head :
    ∀ nodes (x : Node), ∃ y tail,
      optimize1Loop nodes [] (some x) = y :: tail ∧ y.type = x.type := by
  intro nodes
  induction nodes with
  | nil => intro x; exact ⟨x, [], rfl, rfl⟩
  | cons n rest ih =>
    intro x
    by_cases hn : ∀ c, n ≠ Node.loop c
    · rcases go_optimize1Loop_step_cases rest (some x) hn with ⟨h0, -⟩ | ⟨ln, h0, -, h⟩ |
        ⟨a, b, h0, -, h⟩ | ⟨a, o, b, p, h0, -, h⟩ | ⟨o, p, h0, -, h⟩ |
        ⟨y, -, h0, -, -, -, -, -, -, h⟩
      · cases h0
      · cases h0; exact ⟨_, _, h, rfl⟩
      · cases h0
        obtain ⟨y, tail, hy, ht⟩ := ih (Node.moveCell (wrap64 (a + b)))
        exact ⟨y, tail, by rw [h, hy], ht⟩
      · cases h0
        obtain ⟨y, tail, hy, ht⟩ := ih (Node.add (wrap64 (a + b)) o)
        exact ⟨y, tail, by rw [h, hy], ht⟩
      · cases h0
        obtain ⟨y, tail, hy, ht⟩ := ih (Node.clear o)
        exact ⟨y, tail, by rw [h, hy], ht⟩
      · cases h0; exact ⟨_, _, h, rfl⟩
    · push_neg at hn
      obtain ⟨children, rfl⟩ := hn
      rw [go_optimize1Loop_loop_acc]
      split
      · exact ⟨x, _, rfl, rfl⟩
      · exact ⟨x, _, rfl, rfl⟩

theorem go_mergeFreeList_cons_of {x : Node} {l : List Node} (hx : ∀ c, x ≠ Node.loop c)
    (hc : headClash x l = false) (hl : mergeFreeList l = true) :
    mergeFreeList (x :: l) = true := by
  rw [go_mergeFreeList_cons, go_mergeFree_other hx, hc, hl]
  rfl

theorem go_headClash_pending {x n : Node} (rest : List Node) (ht : n.type ≠ x.type) :
    headClash x (optimize1Loop rest [] (some n)) = false := by
  obtain ⟨y, tail, hy, hty⟩ := go_optimize1Loop_head rest n
  rw [hy]
  cases hc : headClash x (y :: tail) with
  | false => rfl
  | true =>
    have := go_clash_type (a := x) (b := y) hc
    rw [hty] at this
    exact absurd this.symm ht

theorem go_headClash_of_type {x : Node} {l : List Node}
    (h : x.type ≠ NodeMoveCell ∧ x.type ≠ NodeAdd) : headClash x l = false := by
  cases l with
  | nil => rfl
  | cons b tail =>
    cases hc : headClash x (b :: tail) with
    | false => rfl
    | true =>
      rcases go_clash_not_plain (a := x) (b := b) hc with e | e
      · exact absurd e h.1
      · exact absurd e h.2

theorem go_headClash_of_head_type {x : Node} {l : List Node}
    (h : ∀ y tail, l = y :: tail → y.type ≠ NodeMoveCell ∧ y.type ≠ NodeAdd) :
    headClash x l = false := by
  cases l with
  | nil => rfl
  | cons b tail =>
    cases hc : headClash x (b :: tail) with
    | false => rfl
    | true =>
      have h1 := go_clash_type (a := x) (b := b) hc
      rcases go_clash_not_plain (a := x) (b := b) hc with e | e
      · exact absurd (h1 ▸ e) (h b tail rfl).1
      · exact absurd (h1 ▸ e) (h b tail rfl).2

theorem go_loop_type_plain (c : List Node) :
    (Node.loop c).type ≠ NodeMoveCell ∧ (Node.loop c).type ≠ NodeAdd := by
  show NodeLoop ≠ NodeMoveCell ∧ NodeLoop ≠ NodeAdd
  decide

/-- The loop of `Optimize1`, started with a pending node that is not a loop,
puts out lists without mergeable neighbours. -/
theorem go_optimize1Loop_mergeFree :
    ∀ nodes lastNode, (∀ x, lastNode = some x → ∀ c, x ≠ Node.loop c) →
      mergeFreeList (optimize1Loop nodes [] lastNode) = true := by
  intro nodes
  induction nodes using go_nodes_induction with
  | nil =>
    intro lastNode hl
    cases lastNode with
    | none => rfl
    | some x => exact go_mergeFreeList_cons_of (hl x rfl) rfl rfl
  | loop children rest ihc ihr =>
    intro lastNode hl
    have hc : mergeFreeList (Optimize1 children) = true :=
      ihc none (by intro x e; cases e)
    have hclear : mergeFreeList (optimize1Loop rest [] (some (Node.clear 0))) = true :=
      ihr _ (by intro x e; cases e; intro c e2; cases e2)
    have hloop : mergeFreeList
        (Node.loop (Optimize1 children) :: optimize1Loop rest [] none) = true := by
      rw [go_mergeFreeList_cons, go_mergeFree_loop, hc, ihr none (by intro x e; cases e),
        go_headClash_of_type (go_loop_type_plain _)]
      rfl
    rw [go_optimize1Loop_loop_acc]
    split
    · cases lastNode with
      | none => exact hclear
      | some x =>
        refine go_mergeFreeList_cons_of (hl x rfl) ?_ hclear
        apply go_headClash_of_head_type
        intro y tail e
        obtain ⟨y1, tail1, hy, hty⟩ := go_optimize1Loop_head rest (Node.clear 0)
        rw [hy] at e
        cases e
        rw [hty]
        decide
    · cases lastNode with
      | none => exact hloop
      | some x =>
        refine go_mergeFreeList_cons_of (hl x rfl) ?_ hloop
        apply go_headClash_of_head_type
        intro y tail e
        cases e
        exact go_loop_type_plain _
  | other n rest hn _ ihr =>
    intro lastNode hl
    rcases go_optimize1Loop_step_cases rest lastNode hn with ⟨h0, h⟩ | ⟨ln, h0, ht, h⟩ |
      ⟨a, b, h0, -, h⟩ | ⟨a, o, b, p, h0, -, h⟩ | ⟨o, p, h0, -, h⟩ |
      ⟨y, -, h0, hty, hy, hy1, hy2, hn1, hn2, h⟩
    · rw [h]
      exact ihr _ (by intro x e; cases e; exact hn)
    · rw [h]
      refine go_mergeFreeList_cons_of (hl ln h0) (go_headClash_pending rest ht) ?_
      exact ihr _ (by intro x e; cases e; exact hn)
    · rw [h]
      exact ihr _ (by intro x e; cases e; intro c e2; cases e2)
    · rw [h]
      exact ihr _ (by intro x e; cases e; intro c e2; cases e2)
    · rw [h]
      exact ihr _ (by intro x e; cases e; intro c e2; cases e2)
    · rw [h]
      have h1 : mergeFreeList (n :: optimize1Loop rest [] none) = true :=
        go_mergeFreeList_cons_of hn (go_headClash_of_type ⟨hn1, hn2⟩)
          (ihr none (by intro x e; cases e))
      exact go_mergeFreeList_cons_of hy (go_headClash_of_type ⟨hy1, hy2⟩) h1

/-- What `mergeFreeList` says about two neighbours, or a loop, anywhere in the
list. -/
theorem go_mergeFreeList_spec :
    ∀ l, mergeFreeList l = true →
      (∀ pre a b post, l = pre ++ a :: b :: post →
        (¬ ∃ x y, a = Node.moveCell x ∧ b = Node.moveCell y) ∧
        (¬ ∃ x o y p, a = Node.add x o ∧ b = Node.add y p)) ∧
      (∀ pre c post, l = pre ++ Node.loop c :: post → mergeFreeList c = true) := by
  intro l
  induction l with
  | nil =>
    intro _
    constructor
    · intro pre a b post h; simp at h
    · intro pre c post h; simp at h
  | cons n rest ih =>
    intro h
    rw [go_mergeFreeList_cons, Bool.and_eq_true, Bool.and_eq_true] at h
    obtain ⟨⟨h1, h2⟩, h3⟩ := h
    obtain ⟨ih1, ih2⟩ := ih h3
    constructor
    · intro pre a b post e
      cases pre with
      | nil =>
        simp only [List.nil_append, List.cons.injEq] at e
        obtain ⟨rfl, rfl⟩ := e
        simp only [headClash, Bool.not_eq_true'] at h2
        constructor
        · rintro ⟨x, y, rfl, rfl⟩
          simp [Node.clash] at h2
        · rintro ⟨x, o, y, p, rfl, rfl⟩
          simp [Node.clash] at h2
      | cons q pre =>
        simp only [List.cons_append, List.cons.injEq] at e
        exact ih1 pre a b post e.2
    · intro pre c post e
      cases pre with
      | nil =>
        simp only [List.nil_append, List.cons.injEq] at e
        obtain ⟨rfl, rfl⟩ := e
        exact h1
      | cons q pre =>
        simp only [List.cons_append, List.cons.injEq] at e
        exact ih2 pre c post e.2

/-! ## Runs of `MoveCell` and of `Add` -/

theorem go_optimize1Loop_moveCell_run (ds : List Int) :
    ∀ k : Int, InInt64 k →
      optimize1Loop (ds.map Node.moveCell) [] (some (Node.moveCell k)) =
        [Node.moveCell (wrap64 (k + ds.sum))] := by
  induction ds with
  | nil =>
    intro k hk
    simp [go_optimize1Loop_nil, flushLast, wrap64_of_inInt64 hk]
  | cons d ds ih =>
    intro k _
    rw [List.map_cons, go_optimize1Loop_moveCell, ih _ (wrap64_inInt64 _), List.sum_cons,
      wrap64_add_left, add_assoc]

theorem go_optimize1Loop_add_run (ds : List Int) :
    ∀ k : Int, InInt64 k →
      optimize1Loop (ds.map fun d => Node.add d 0) [] (some (Node.add k 0)) =
        [Node.add (wrap64 (k + ds.sum)) 0] := by
  induction ds with
  | nil =>
    intro k hk
    simp [go_optimize1Loop_nil, flushLast, wrap64_of_inInt64 hk]
  | cons d ds ih =>
    intro k _
    rw [List.map_cons, go_optimize1Loop_add, ih _ (wrap64_inInt64 _), List.sum_cons,
      wrap64_add_left, add_assoc]

/-! ## List elements through pass A -/

theorem go_listElements_cons_other {n : Node} (hn : ∀ l, n ≠ Node.list l) (rest : List Node) :
    listElements (n :: rest) = listElements rest := by
  cases n with
  | list l => exact absurd rfl (hn l)
  | _ => rfl

theorem go_listElements_flushLast (lastNode : Option Node) (l : List Node) :
    listElements (flushLast [] lastNode ++ l) =
      listElements (flushLast [] lastNode) ++ listElements l := by
  rw [go_listElements_append]

/-- The `*ListNode` elements of the output of the loop of `Optimize1` are the
pending one, if the pending node is one, and then those of the input. -/
theorem go_optimize1Loop_listElements :
    ∀ nodes lastNode,
      listElements (optimize1Loop nodes [] lastNode) =
        listElements (flushLast [] lastNode) ++ listElements nodes := by
  intro nodes
  induction nodes with
  | nil => intro lastNode; rw [go_optimize1Loop_nil]; simp [listElements]
  | cons n rest ih =>
    intro lastNode
    by_cases hn : ∀ c, n ≠ Node.loop c
    · rcases go_optimize1Loop_step_cases rest lastNode hn with ⟨h0, h⟩ | ⟨ln, h0, ht, h⟩ |
        ⟨a, b, h0, hb, h⟩ | ⟨a, o, b, p, h0, hb, h⟩ | ⟨o, p, h0, hb, h⟩ |
        ⟨y, -, h0, -, -, -, -, -, -, h⟩
      · subst h0
        rw [h, ih]
        cases n <;> simp [flushLast, listElements]
      · subst h0
        rw [h]
        cases ln <;> cases n <;> simp [flushLast, listElements, ih]
      · subst h0; subst hb
        rw [h, ih]
        simp [flushLast, listElements]
      · subst h0; subst hb
        rw [h, ih]
        simp [flushLast, listElements]
      · subst h0; subst hb
        rw [h, ih]
        simp [flushLast, listElements]
      · subst h0
        rw [h]
        cases y <;> cases n <;> simp [flushLast, listElements, ih]
    · push_neg at hn
      obtain ⟨children, rfl⟩ := hn
      rw [go_optimize1Loop_loop_acc]
      split
      · rw [go_listElements_append, ih]
        simp [flushLast, listElements]
      · rw [go_listElements_append]
        simp [flushLast, listElements, ih]


/-- C18, the claim as stated fails, for two reasons.  The `+=` of lines 218
and 220 wrap around at 64 bits: the two `MoveCell` nodes with deltas
`9223372036854775807` and `1` become the `MoveCell` with delta
`-9223372036854775808`, which is not the sum `9223372036854775808`, and
likewise for two `Add` nodes.  And `Optimize1` does not look into a
`*ListNode` that is an element of the list: the list inside it keeps its two
adjacent `MoveCell` nodes. -/
theorem merge_wraps_or_skips :
    Optimize1 [Node.moveCell 9223372036854775807, .moveCell 1] =
      [Node.moveCell (-9223372036854775808)] ∧
    Optimize1 [Node.add 9223372036854775807 0, .add 1 0] =
      [Node.add (-9223372036854775808) 0] ∧
    ([9223372036854775807, 1] : List Int).sum = 9223372036854775808 ∧
    Optimize1 [Node.list [.moveCell 1, .moveCell 1]] =
      [Node.list [.moveCell 1, .moveCell 1]] := by
  decide

/-- C18 (amended): for every tree, in the output of `Optimize1` and in the
children of every loop reached from it through loops, no two adjacent nodes
are both `MoveCell` and no two adjacent nodes are both `Add` (the second part
spells the property out for neighbours at any position and passes it on to
the children of every loop); the `*ListNode` elements of the list are put out
as they are, in order, and `Optimize1` does not look into them.  A list of
`n ≥ 1` `MoveCell` nodes whose deltas are values of `int` becomes the single
`MoveCell` whose delta is the sum of the deltas wrapped around at 64 bits, and
a list of `n ≥ 1` `Add` nodes with offset `0` becomes the single `Add` with
the wrapped sum; the wrapped sum is the sum when the sum is a value of
`int`. -/
theorem merge_free_outside_lists (t : List Node) (ds : List Int) (hds : ds ≠ [])
    (hr : ∀ d ∈ ds, InInt64 d) :
    mergeFreeList (Optimize1 t) = true ∧
      (∀ l, mergeFreeList l = true →
        (∀ pre a b post, l = pre ++ a :: b :: post →
          (¬ ∃ x y, a = Node.moveCell x ∧ b = Node.moveCell y) ∧
          (¬ ∃ x o y p, a = Node.add x o ∧ b = Node.add y p)) ∧
        (∀ pre c post, l = pre ++ Node.loop c :: post → mergeFreeList c = true)) ∧
      listElements (Optimize1 t) = listElements t ∧
      Optimize1 (ds.map Node.moveCell) = [Node.moveCell (wrap64 ds.sum)] ∧
      Optimize1 (ds.map fun d => Node.add d 0) = [Node.add (wrap64 ds.sum) 0] ∧
      (InInt64 ds.sum → wrap64 ds.sum = ds.sum) := by
  refine ⟨go_optimize1Loop_mergeFree t none (by intro x e; cases e), go_mergeFreeList_spec,
    ?_, ?_, ?_, wrap64_of_inInt64⟩
  · have := go_optimize1Loop_listElements t none
    simpa [Optimize1, flushLast, listElements] using this
  · cases ds with
    | nil => exact absurd rfl hds
    | cons d ds =>
      unfold Optimize1
      rw [List.map_cons, go_optimize1Loop_first _ _ (by intro c e; cases e),
        go_optimize1Loop_moveCell_run _ _ (hr d (List.mem_cons_self _ _)), List.sum_cons]
  · cases ds with
    | nil => exact absurd rfl hds
    | cons d ds =>
      unfold Optimize1
      rw [List.map_cons, go_optimize1Loop_first _ _ (by intro c e; cases e),
        go_optimize1Loop_add_run _ _ (hr d (List.mem_cons_self _ _)), List.sum_cons]

theorem merge_free_outside_lists_witness :
    ([2, -1, 9223372036854775807] : List Int) ≠ [] ∧
      (∀ d ∈ ([2, -1, 9223372036854775807] : List Int), InInt64 d) ∧
      mergeFreeList
        (Optimize1 [.moveCell 1, .moveCell 1, .list [.add 1 0], .loop [.add 1 0, .add 1 0]]) =
          true ∧
      Optimize1 (([2, -1, 9223372036854775807] : List Int).map Node.moveCell) =
        [Node.moveCell (wrap64 ([2, -1, 9223372036854775807] : List Int).sum)] ∧
      wrap64 ([2, -1, 9223372036854775807] : List Int).sum = -9223372036854775808 :=
  ⟨by decide, by decide,
    (merge_free_outside_lists
      [.moveCell 1, .moveCell 1, .list [.add 1 0], .loop [.add 1 0, .add 1 0]]
      [2, -1, 9223372036854775807] (by decide) (by decide)).1,
    (merge_free_outside_lists
      [.moveCell 1, .moveCell 1, .list [.add 1 0], .loop [.add 1 0, .add 1 0]]
      [2, -1, 9223372036854775807] (by decide) (by decide)).2.2.2.1,
    by decide⟩

/-! ## Trees without list elements: the two models agree -/

theorem go_ofNodes_nil : ofNodes [] = [] := rfl

theorem go_ofNodes_cons (n : Bf2asm.Node) (rest : List Bf2asm.Node) :
    ofNodes (n :: rest) = ofNode n :: ofNodes rest := rfl

theorem go_ofNode_loop (children : List Bf2asm.Node) :
    ofNode (Bf2asm.Node.loop children) = Node.loop (ofNodes children) := rfl

theorem go_ofNodes_append (a b : List Bf2asm.Node) :
    ofNodes (a ++ b) = ofNodes a ++ ofNodes b := by
  induction a with
  | nil => rfl
  | cons n rest ih => simp [go_ofNodes_cons, ih]

theorem go_ofNodes_realize (acc : List Bf2asm.Node) (off : Int) :
    realize (ofNodes acc) off = ofNodes (Bf2asm.realize acc off) := by
  unfold realize Bf2asm.realize
  split
  · rw [go_ofNodes_append]; rfl
  · rfl

theorem go_ofNode_not_loop {n : Bf2asm.Node} (hn : ∀ c, n ≠ Bf2asm.Node.loop c) :
    (∀ c, ofNode n ≠ Node.loop c) ∧ (∀ l, ofNode n ≠ Node.list l) := by
  cases n with
  | loop c => exact absurd rfl (hn c)
  | _ => exact ⟨(by intro c e; cases e), (by intro l e; cases e)⟩

theorem go_step_ofNode {n : Bf2asm.Node} (hn : ∀ c, n ≠ Bf2asm.Node.loop c) (m : Machine) :
    (ofNode n).step m = n.step m := by
  cases n with
  | loop c => exact absurd rfl (hn c)
  | _ => rfl

theorem go_exec_cons_loop (fuel : Nat) (children rest : List Node) (m : Machine) :
    exec (fuel + 1) (Node.loop children :: rest) m =
      if m.tape m.ptr = 0 then exec fuel rest m
      else
        match exec fuel children m with
        | some m1 => exec fuel (Node.loop children :: rest) m1
        | none => none := rfl

theorem go_exec_cons_other (fuel : Nat) {n : Node} (rest : List Node) (m : Machine)
    (hn : ∀ c, n ≠ Node.loop c) (hl : ∀ l, n ≠ Node.list l) :
    exec (fuel + 1) (n :: rest) m = exec fuel rest (n.step m) := by
  cases n with
  | loop c => exact absurd rfl (hn c)
  | list l => exact absurd rfl (hl l)
  | _ => rfl

/-- On a tree without list elements the interpreter of the Go values is the
interpreter of the trees. -/
theorem go_exec_ofNodes :
    ∀ fuel (p : List Bf2asm.Node) m, exec fuel (ofNodes p) m = Bf2asm.exec fuel p m := by
  intro fuel
  induction fuel with
  | zero => intro p m; rfl
  | succ k ih =>
    intro p m
    cases p with
    | nil => rfl
    | cons n rest =>
      by_cases hn : ∀ c, n ≠ Bf2asm.Node.loop c
      · rw [go_ofNodes_cons, go_exec_cons_other _ _ _ (go_ofNode_not_loop hn).1
          (go_ofNode_not_loop hn).2, Bf2asm.exec_cons_other _ _ _ hn, go_step_ofNode hn, ih]
      · push_neg at hn
        obtain ⟨children, rfl⟩ := hn
        rw [go_ofNodes_cons, go_ofNode_loop, go_exec_cons_loop, Bf2asm.exec_cons_loop, ih, ih,
          ← go_ofNode_loop, ← go_ofNodes_cons]
        split
        · rfl
        · cases Bf2asm.exec k children m with
          | none => rfl
          | some m1 => exact ih _ _

theorem go_listFreeList_cons (n : Node) (rest : List Node) :
    listFreeList (n :: rest) = (n.listFree && listFreeList rest) := rfl

/-- A tree without list elements is the image of a tree of the first model. -/
theorem go_listFree_ofNodes : ∀ t, listFreeList t = true → ∃ t0, t = ofNodes t0 := by
  intro t
  induction t using go_nodes_induction with
  | nil => intro _; exact ⟨[], rfl⟩
  | loop children rest ihc ihr =>
    intro h
    rw [go_listFreeList_cons, Bool.and_eq_true] at h
    obtain ⟨c0, hc⟩ := ihc h.1
    obtain ⟨r0, hr⟩ := ihr h.2
    exact ⟨Bf2asm.Node.loop c0 :: r0, by rw [go_ofNodes_cons, go_ofNode_loop, ← hc, ← hr]⟩
  | other n rest hn _ ihr =>
    intro h
    rw [go_listFreeList_cons, Bool.and_eq_true] at h
    obtain ⟨r0, hr⟩ := ihr h.2
    cases n with
    | loop c => exact absurd rfl (hn c)
    | list l => simp [Node.listFree] at h
    | moveCell num => exact ⟨Bf2asm.Node.moveCell num :: r0, by rw [hr]; rfl⟩
    | add num offset => exact ⟨Bf2asm.Node.add num offset :: r0, by rw [hr]; rfl⟩
    | print => exact ⟨Bf2asm.Node.print :: r0, by rw [hr]; rfl⟩
    | get => exact ⟨Bf2asm.Node.get :: r0, by rw [hr]; rfl⟩
    | clear offset => exact ⟨Bf2asm.Node.clear offset :: r0, by rw [hr]; rfl⟩

theorem go_offsetsFit_moveCell (num : Int) (rest : List Node) (off : Int) :
    offsetsFit (Node.moveCell num :: rest) off =
      (decide (InInt64 (off + num)) && offsetsFit rest (off + num)) := rfl

theorem go_offsetsFit_add (num offset : Int) (rest : List Node) (off : Int) :
    offsetsFit (Node.add num offset :: rest) off =
      (decide (InInt64 (offset + off)) && offsetsFit rest off) := rfl

theorem go_offsetsFit_clear (offset : Int) (rest : List Node) (off : Int) :
    offsetsFit (Node.clear offset :: rest) off =
      (decide (InInt64 (offset + off)) && offsetsFit rest off) := rfl

theorem go_offsetsFit_print (rest : List Node) (off : Int) :
    offsetsFit (Node.print :: rest) off = offsetsFit rest 0 := rfl

theorem go_offsetsFit_get (rest : List Node) (off : Int) :
    offsetsFit (Node.get :: rest) off = offsetsFit rest 0 := rfl

theorem go_offsetsFit_loop (children rest : List Node) (off : Int) :
    offsetsFit (Node.loop children :: rest) off =
      (offsetsFit children 0 && offsetsFit rest 0) := rfl

/-- When no addition overflows, `Optimize2` on the Go values computes what
`Optimize2` on the trees computes. -/
theorem go_optimize2Loop_ofNodes :
    ∀ (t0 acc : List Bf2asm.Node) (off : Int), offsetsFit (ofNodes t0) off = true →
      optimize2Loop (ofNodes t0) (ofNodes acc) off =
        ofNodes (Bf2asm.optimize2Loop t0 acc off) := by
  intro t0
  induction t0 using Bf2asm.nodes_induction with
  | nil =>
    intro acc off _
    rw [go_ofNodes_nil, go_optimize2Loop_nil, Bf2asm.optimize2Loop_nil, go_ofNodes_realize]
  | loop children rest ihc ihr =>
    intro acc off h
    rw [go_ofNodes_cons, go_ofNode_loop, go_offsetsFit_loop, Bool.and_eq_true] at h
    have hc := ihc [] 0 h.1
    rw [go_ofNodes_nil] at hc
    rw [go_ofNodes_cons, go_ofNode_loop, go_optimize2Loop_loop, Bf2asm.optimize2Loop_loop,
      ← ihr _ 0 h.2, go_ofNodes_append, go_ofNodes_realize]
    unfold Optimize2 Bf2asm.Optimize2
    rw [hc]
    rfl
  | other n rest hn ihr =>
    intro acc off h
    cases n with
    | loop c => exact absurd rfl (hn c)
    | moveCell num =>
      rw [go_ofNodes_cons] at h ⊢
      change offsetsFit (Node.moveCell num :: ofNodes rest) off = true at h
      rw [go_offsetsFit_moveCell, Bool.and_eq_true, decide_eq_true_iff] at h
      change optimize2Loop (Node.moveCell num :: ofNodes rest) (ofNodes acc) off = _
      rw [go_optimize2Loop_moveCell, Bf2asm.optimize2Loop_moveCell, wrap64_of_inInt64 h.1,
        ihr _ _ h.2]
    | add num offset =>
      rw [go_ofNodes_cons] at h ⊢
      change offsetsFit (Node.add num offset :: ofNodes rest) off = true at h
      rw [go_offsetsFit_add, Bool.and_eq_true, decide_eq_true_iff] at h
      change optimize2Loop (Node.add num offset :: ofNodes rest) (ofNodes acc) off = _
      rw [go_optimize2Loop_add, Bf2asm.optimize2Loop_add, wrap64_of_inInt64 h.1,
        ← ihr _ _ h.2, go_ofNodes_append]
      rfl
    | clear offset =>
      rw [go_ofNodes_cons] at h ⊢
      change offsetsFit (Node.clear offset :: ofNodes rest) off = true at h
      rw [go_offsetsFit_clear, Bool.and_eq_true, decide_eq_true_iff] at h
      change optimize2Loop (Node.clear offset :: ofNodes rest) (ofNodes acc) off = _
      rw [go_optimize2Loop_clear, Bf2asm.optimize2Loop_clear, wrap64_of_inInt64 h.1,
        ← ihr _ _ h.2, go_ofNodes_append]
      rfl
    | print =>
      rw [go_ofNodes_cons] at h ⊢
      change offsetsFit (Node.print :: ofNodes rest) off = true at h
      rw [go_offsetsFit_print] at h
      change optimize2Loop (Node.print :: ofNodes rest) (ofNodes acc) off = _
      rw [go_optimize2Loop_print, Bf2asm.optimize2Loop_print, ← ihr _ _ h, go_ofNodes_append,
        go_ofNodes_realize]
      rfl
    | get =>
      rw [go_ofNodes_cons] at h ⊢
      change offsetsFit (Node.get :: ofNodes rest) off = true at h
      rw [go_offsetsFit_get] at h
      change optimize2Loop (Node.get :: ofNodes rest) (ofNodes acc) off = _
      rw [go_optimize2Loop_get, Bf2asm.optimize2Loop_get, ← ihr _ _ h, go_ofNodes_append,
        go_ofNodes_realize]
      rfl

theorem go_Optimize2_ofNodes (t0 : List Bf2asm.Node) (h : offsetsFit (ofNodes t0) 0 = true) :
    Optimize2 (ofNodes t0) = ofNodes (Bf2asm.Optimize2 t0) :=
  go_optimize2Loop_ofNodes t0 [] 0 h

theorem go_terminates_ofNodes (p : List Bf2asm.Node) (m m1 : Machine) :
    Terminates (ofNodes p) m m1 ↔ Bf2asm.Terminates p m m1 := by
  unfold Terminates Bf2asm.Terminates
  constructor
  · rintro ⟨f, hf⟩; exact ⟨f, by rw [← go_exec_ofNodes]; exact hf⟩
  · rintro ⟨f, hf⟩; exact ⟨f, by rw [go_exec_ofNodes]; exact hf⟩

/-! ## Soundness of pass B where nothing overflows -/

/-- C2, the claim as stated fails, for two reasons.  The `+=` of line 268
wraps around at 64 bits: in `MoveCell(9223372036854775807), Add(1, 1)` the
`Add` becomes `Add(1, -9223372036854775808)`; the input ends with `1` in cell
`9223372036854775808`, the output with `0` there.  And a `*ListNode` that is
an element of the list is appended with the pending offset neither realized
nor pushed into it: in `Add(1, 0), MoveCell(1), List(Print)` the `MoveCell`
ends up after the list, so the input prints the byte `0` of cell `1` and the
output prints the byte `1` of cell `0`. -/
theorem optimize2_unsound_cases :
    Optimize2 [Node.moveCell 9223372036854775807, .add 1 1] =
      [Node.add 1 (-9223372036854775808), .moveCell 9223372036854775807] ∧
    (∃ m1 m2, Terminates [Node.moveCell 9223372036854775807, .add 1 1] (Machine.init []) m1 ∧
      Terminates (Optimize2 [Node.moveCell 9223372036854775807, .add 1 1])
        (Machine.init []) m2 ∧
      m1.tape 9223372036854775808 = 1 ∧ m2.tape 9223372036854775808 = 0 ∧
      m1.tape ≠ m2.tape) ∧
    Optimize2 [Node.add 1 0, .moveCell 1, .list [.print]] =
      [Node.add 1 0, .list [.print], .moveCell 1] ∧
    (∃ m1 m2, Terminates [Node.add 1 0, .moveCell 1, .list [.print]] (Machine.init []) m1 ∧
      Terminates (Optimize2 [Node.add 1 0, .moveCell 1, .list [.print]]) (Machine.init []) m2 ∧
      m1.output = [0] ∧ m2.output = [1] ∧ m1.output ≠ m2.output) := by
  have a1 : (exec 3 [Node.moveCell 9223372036854775807, .add 1 1] (Machine.init [])).map
      (fun m => m.tape 9223372036854775808) = some 1 := by decide
  have a2 : (exec 3 (Optimize2 [Node.moveCell 9223372036854775807, .add 1 1])
      (Machine.init [])).map (fun m => m.tape 9223372036854775808) = some 0 := by decide
  have b1 : (exec 5 [Node.add 1 0, .moveCell 1, .list [.print]] (Machine.init [])).map
      (fun m => m.output) = some [0] := by decide
  have b2 : (exec 5 (Optimize2 [Node.add 1 0, .moveCell 1, .list [.print]])
      (Machine.init [])).map (fun m => m.output) = some [1] := by decide
  obtain ⟨m1, hm1, t1⟩ := Option.map_eq_some'.mp a1
  obtain ⟨m2, hm2, t2⟩ := Option.map_eq_some'.mp a2
  obtain ⟨n1, hn1, o1⟩ := Option.map_eq_some'.mp b1
  obtain ⟨n2, hn2, o2⟩ := Option.map_eq_some'.mp b2
  refine ⟨by decide, ⟨m1, m2, ⟨3, hm1⟩, ⟨3, hm2⟩, t1, t2, ?_⟩, by decide,
    ⟨n1, n2, ⟨5, hn1⟩, ⟨5, hn2⟩, o1, o2, ?_⟩⟩
  · intro e
    rw [e, t2] at t1
    exact absurd t1 (by decide)
  · rw [o1, o2]
    decide

/-- C2 (amended): for every tree with no `*ListNode` element at any level and
in which no addition of `Optimize2` overflows (every sum of lines 264, 268 and
271, taken in the integers, is a value of `int`), whatever the offsets of its
`Add` and `Clear` nodes, and every start machine, running the tree terminates
iff running the output of `Optimize2` terminates, and when both terminate the
final output, tape and pointer are the same. -/
theorem optimize2_sound_in_range (t : List Node) (hl : listFreeList t = true)
    (hf : offsetsFit t 0 = true) (m : Machine) :
    (Halts t m ↔ Halts (Optimize2 t) m) ∧
      ∀ m1 m2, Terminates t m m1 → Terminates (Optimize2 t) m m2 →
        m1.output = m2.output ∧ m1.tape = m2.tape ∧ m1.ptr = m2.ptr := by
  obtain ⟨t0, rfl⟩ := go_listFree_ofNodes t hl
  rw [go_Optimize2_ofNodes t0 hf]
  have h := (Bf2asm.Optimize2_equivalent t0).symm
  constructor
  · unfold Halts
    simp only [go_terminates_ofNodes]
    exact h.halts m
  · intro m1 m2 h1 h2
    rw [go_terminates_ofNodes] at h1 h2
    have e := h.same_result h1 h2
    subst e
    exact ⟨rfl, rfl, rfl⟩

theorem optimize2_sound_in_range_witness :
    listFreeList [Node.moveCell 2, .add 3 1, .loop [.add (-1) 0, .moveCell (-1)], .print] =
        true ∧
      offsetsFit [Node.moveCell 2, .add 3 1, .loop [.add (-1) 0, .moveCell (-1)], .print] 0 =
        true ∧
      ((Halts [Node.moveCell 2, .add 3 1, .loop [.add (-1) 0, .moveCell (-1)], .print]
          (Machine.init []) ↔
        Halts (Optimize2
          [Node.moveCell 2, .add 3 1, .loop [.add (-1) 0, .moveCell (-1)], .print])
          (Machine.init [])) ∧
      ∀ m1 m2,
        Terminates [Node.moveCell 2, .add 3 1, .loop [.add (-1) 0, .moveCell (-1)], .print]
          (Machine.init []) m1 →
        Terminates (Optimize2
          [Node.moveCell 2, .add 3 1, .loop [.add (-1) 0, .moveCell (-1)], .print])
          (Machine.init []) m2 →
        m1.output = m2.output ∧ m1.tape = m2.tape ∧ m1.ptr = m2.ptr) :=
  ⟨by decide, by decide,
    optimize2_sound_in_range
      [Node.moveCell 2, .add 3 1, .loop [.add (-1) 0, .moveCell (-1)], .print]
      (by decide) (by decide) (Machine.init [])⟩

/-! ## The passes on trees the parser builds: the two descriptions agree -/

theorem go_weight_nil : weight [] = 0 := rfl

theorem go_weight_cons (n : Bf2asm.Node) (rest : List Bf2asm.Node) :
    weight (n :: rest) = nodeWeight n + weight rest := rfl

theorem go_nodeWeight_loop (children : List Bf2asm.Node) :
    nodeWeight (Bf2asm.Node.loop children) = weight children := rfl

theorem go_pendingWeight_none : pendingWeight none = 0 := rfl

theorem go_pendingWeight_some (n : Bf2asm.Node) : pendingWeight (some n) = nodeWeight n := rfl

theorem go_nodeWeight_clear_zero : nodeWeight Bf2asm.newClearNode = 0 := rfl

theorem go_weight_append (a b : List Bf2asm.Node) : weight (a ++ b) = weight a + weight b := by
  induction a with
  | nil => simp [go_weight_nil]
  | cons n rest ih => simp [go_weight_cons, ih, add_assoc]

theorem go_weight_flushLast (acc : List Bf2asm.Node) (ln : Option Bf2asm.Node) :
    weight (Bf2asm.flushLast acc ln) = weight acc + pendingWeight ln := by
  cases ln with
  | none => simp [Bf2asm.flushLast, pendingWeight]
  | some x =>
    simp [Bf2asm.flushLast, pendingWeight, go_weight_append, go_weight_cons, go_weight_nil]

theorem go_type_ofNode (n : Bf2asm.Node) : (ofNode n).type = n.type := by
  cases n <;> rfl

theorem go_ofNode_ne_loop {n : Bf2asm.Node} (hn : ∀ c, n ≠ Bf2asm.Node.loop c) :
    ∀ c, ofNode n ≠ Node.loop c := (go_ofNode_not_loop hn).1

theorem go_flushLast_ofNodes (acc : List Bf2asm.Node) (ln : Option Bf2asm.Node) :
    flushLast (ofNodes acc) (ln.map ofNode) = ofNodes (Bf2asm.flushLast acc ln) := by
  cases ln with
  | none => rfl
  | some x => simp [flushLast, Bf2asm.flushLast, go_ofNodes_append, go_ofNodes_cons, go_ofNodes_nil]

theorem go_isDecrementBody_ofNodes (l : List Bf2asm.Node) :
    isDecrementBody (ofNodes l) = Bf2asm.isDecrementBody l := by
  match l with
  | [] => rfl
  | [n] => cases n <;> rfl
  | n :: m :: rest => cases n <;> rfl

/-- When the numbers of the tree are small enough for no sum to leave the
64-bit range, `Optimize1` on the Go values computes what `Optimize1` on the
trees computes, and the output is no heavier than the input. -/
theorem go_optimize1Loop_ofNodes :
    ∀ (t acc : List Bf2asm.Node) (ln : Option Bf2asm.Node),
      pendingWeight ln + weight t ≤ 9223372036854775807 →
      optimize1Loop (ofNodes t) (ofNodes acc) (ln.map ofNode) =
          ofNodes (Bf2asm.optimize1Loop t acc ln) ∧
        weight (Bf2asm.optimize1Loop t acc ln) ≤ weight acc + pendingWeight ln + weight t := by
  intro t
  induction t using Bf2asm.nodes_induction with
  | nil =>
    intro acc ln _
    rw [go_ofNodes_nil, go_optimize1Loop_nil, Bf2asm.optimize1Loop_nil, go_flushLast_ofNodes,
      go_weight_flushLast, go_weight_nil]
    exact ⟨rfl, le_refl _⟩
  | loop children rest ihc ihr =>
    intro acc ln h
    rw [go_weight_cons, go_nodeWeight_loop] at h
    obtain ⟨c1, c2⟩ := ihc [] none (by simp only [go_pendingWeight_some, go_pendingWeight_none]; omega)
    rw [go_ofNodes_nil] at c1
    change Optimize1 (ofNodes children) = ofNodes (Bf2asm.Optimize1 children) at c1
    change weight (Bf2asm.Optimize1 children) ≤ _ at c2
    simp only [go_weight_nil, go_pendingWeight_none] at c2
    rw [go_ofNodes_cons, go_ofNode_loop, go_optimize1Loop_loop, Bf2asm.optimize1Loop_loop, c1,
      go_isDecrementBody_ofNodes, go_weight_cons, go_nodeWeight_loop]
    by_cases hd : Bf2asm.isDecrementBody (Bf2asm.Optimize1 children) = true
    · rw [if_pos hd, if_pos hd, go_flushLast_ofNodes]
      obtain ⟨r1, r2⟩ := ihr (Bf2asm.flushLast acc ln) (some Bf2asm.newClearNode)
        (by simp only [go_pendingWeight_some, go_nodeWeight_clear_zero]; omega)
      refine ⟨r1, ?_⟩
      rw [go_weight_flushLast] at r2
      simp only [go_pendingWeight_some, go_nodeWeight_clear_zero] at r2
      omega
    · rw [if_neg hd, if_neg hd, go_flushLast_ofNodes]
      obtain ⟨r1, r2⟩ := ihr (Bf2asm.flushLast acc ln ++ [Bf2asm.Node.loop
        (Bf2asm.Optimize1 children)]) none (by simp only [go_pendingWeight_some, go_pendingWeight_none]; omega)
      rw [go_ofNodes_append, go_ofNodes_cons, go_ofNode_loop, go_ofNodes_nil] at r1
      refine ⟨r1, ?_⟩
      rw [go_weight_append, go_weight_flushLast, go_weight_cons, go_nodeWeight_loop,
        go_weight_nil] at r2
      simp only [go_pendingWeight_some, go_pendingWeight_none] at r2
      omega
  | other n rest hn ihr =>
    intro acc ln h
    rw [go_weight_cons] at h
    rw [go_ofNodes_cons, go_weight_cons]
    cases ln with
    | none =>
      rw [Option.map_none', go_optimize1Loop_first _ _ (go_ofNode_ne_loop hn),
        Bf2asm.optimize1Loop_first _ _ hn]
      obtain ⟨r1, r2⟩ := ihr acc (some n) (by simp only [go_pendingWeight_some, go_pendingWeight_none] at h ⊢; omega)
      refine ⟨r1, ?_⟩
      simp only [go_pendingWeight_some, go_pendingWeight_none] at r2 ⊢
      omega
    | some x =>
      simp only [go_pendingWeight_some, go_pendingWeight_none] at h
      rw [Option.map_some']
      by_cases ht : n.type = x.type
      · rcases Bf2asm.same_type_cases hn ht with ⟨a, b, rfl, rfl⟩ | ⟨a, o, b, p, rfl, rfl⟩ |
          ⟨rfl, rfl⟩ | ⟨rfl, rfl⟩ | ⟨o, p, rfl, rfl⟩
        · simp only [nodeWeight] at h
          have hw : wrap64 (a + b) = a + b := by
            apply wrap64_of_inInt64
            unfold InInt64
            omega
          change optimize1Loop (Node.moveCell b :: ofNodes rest) (ofNodes acc)
              (some (Node.moveCell a)) = _ ∧ _
          rw [go_optimize1Loop_moveCell, Bf2asm.optimize1Loop_moveCell, hw]
          obtain ⟨r1, r2⟩ := ihr acc (some (Bf2asm.Node.moveCell (a + b)))
            (by simp only [go_pendingWeight_some, go_pendingWeight_none, nodeWeight]; omega)
          refine ⟨r1, ?_⟩
          simp only [go_pendingWeight_some, go_pendingWeight_none, nodeWeight] at r2 ⊢
          omega
        · simp only [nodeWeight] at h
          have hw : wrap64 (a + b) = a + b := by
            apply wrap64_of_inInt64
            unfold InInt64
            omega
          change optimize1Loop (Node.add b p :: ofNodes rest) (ofNodes acc)
              (some (Node.add a o)) = _ ∧ _
          rw [go_optimize1Loop_add, Bf2asm.optimize1Loop_add, hw]
          obtain ⟨r1, r2⟩ := ihr acc (some (Bf2asm.Node.add (a + b) o))
            (by simp only [go_pendingWeight_some, go_pendingWeight_none, nodeWeight]; omega)
          refine ⟨r1, ?_⟩
          simp only [go_pendingWeight_some, go_pendingWeight_none, nodeWeight] at r2 ⊢
          omega
        · change optimize1Loop (Node.print :: ofNodes rest) (ofNodes acc) (some Node.print) =
            _ ∧ _
          rw [go_optimize1Loop_print, Bf2asm.optimize1Loop_print]
          obtain ⟨r1, r2⟩ := ihr (acc ++ [Bf2asm.Node.print, Bf2asm.Node.print]) none
            (by simp only [go_pendingWeight_some, go_pendingWeight_none]; omega)
          rw [go_ofNodes_append] at r1
          refine ⟨r1, ?_⟩
          rw [go_weight_append] at r2
          simp only [go_pendingWeight_some, go_pendingWeight_none, nodeWeight, go_weight_cons, go_weight_nil] at r2 ⊢
          omega
        · change optimize1Loop (Node.get :: ofNodes rest) (ofNodes acc) (some Node.get) =
            _ ∧ _
          rw [go_optimize1Loop_get, Bf2asm.optimize1Loop_get]
          obtain ⟨r1, r2⟩ := ihr (acc ++ [Bf2asm.Node.get, Bf2asm.Node.get]) none
            (by simp only [go_pendingWeight_some, go_pendingWeight_none]; omega)
          rw [go_ofNodes_append] at r1
          refine ⟨r1, ?_⟩
          rw [go_weight_append] at r2
          simp only [go_pendingWeight_some, go_pendingWeight_none, nodeWeight, go_weight_cons, go_weight_nil] at r2 ⊢
          omega
        · simp only [nodeWeight] at h
          change optimize1Loop (Node.clear p :: ofNodes rest) (ofNodes acc)
              (some (Node.clear o)) = _ ∧ _
          rw [go_optimize1Loop_clear, Bf2asm.optimize1Loop_clear]
          obtain ⟨r1, r2⟩ := ihr acc (some (Bf2asm.Node.clear o))
            (by simp only [go_pendingWeight_some, go_pendingWeight_none, nodeWeight]; omega)
          refine ⟨r1, ?_⟩
          simp only [go_pendingWeight_some, go_pendingWeight_none, nodeWeight] at r2 ⊢
          omega
      · have ht2 : (ofNode n).type ≠ (ofNode x).type := by
          rw [go_type_ofNode, go_type_ofNode]; exact ht
        rw [go_optimize1Loop_other _ _ (go_ofNode_ne_loop hn) ht2,
          Bf2asm.optimize1Loop_other _ _ hn ht]
        obtain ⟨r1, r2⟩ := ihr (acc ++ [x]) (some n) (by simp only [go_pendingWeight_some, go_pendingWeight_none]; omega)
        rw [go_ofNodes_append, go_ofNodes_cons, go_ofNodes_nil] at r1
        refine ⟨r1, ?_⟩
        rw [go_weight_append, go_weight_cons, go_weight_nil] at r2
        simp only [go_pendingWeight_some, go_pendingWeight_none] at r2 ⊢
        omega

/-- No addition of `Optimize2` overflows on a tree whose weight, with the
pending offset, is a value of `int`. -/
theorem go_offsetsFit_of_weight :
    ∀ (t : List Bf2asm.Node) (off : Int), off.natAbs + weight t ≤ 9223372036854775807 →
      offsetsFit (ofNodes t) off = true := by
  intro t
  induction t using Bf2asm.nodes_induction with
  | nil => intro off _; rfl
  | loop children rest ihc ihr =>
    intro off h
    rw [go_weight_cons, go_nodeWeight_loop] at h
    rw [go_ofNodes_cons, go_ofNode_loop, go_offsetsFit_loop, ihc 0 (by simp; omega),
      ihr 0 (by simp; omega)]
    rfl
  | other n rest hn ihr =>
    intro off h
    rw [go_weight_cons] at h
    cases n with
    | loop c => exact absurd rfl (hn c)
    | moveCell num =>
      simp only [nodeWeight] at h
      change offsetsFit (Node.moveCell num :: ofNodes rest) off = true
      rw [go_offsetsFit_moveCell, ihr (off + num) (by omega), Bool.and_true,
        decide_eq_true_iff]
      unfold InInt64
      omega
    | add num offset =>
      simp only [nodeWeight] at h
      change offsetsFit (Node.add num offset :: ofNodes rest) off = true
      rw [go_offsetsFit_add, ihr off (by omega), Bool.and_true, decide_eq_true_iff]
      unfold InInt64
      omega
    | clear offset =>
      simp only [nodeWeight] at h
      change offsetsFit (Node.clear offset :: ofNodes rest) off = true
      rw [go_offsetsFit_clear, ihr off (by omega), Bool.and_true, decide_eq_true_iff]
      unfold InInt64
      omega
    | print =>
      change offsetsFit (Node.print :: ofNodes rest) off = true
      rw [go_offsetsFit_print]
      exact ihr 0 (by simp; omega)
    | get =>
      change offsetsFit (Node.get :: ofNodes rest) off = true
      rw [go_offsetsFit_get]
      exact ihr 0 (by simp; omega)

/-- The weight of a tree with a token text is at most the length of the
text: every `MoveCell` and `Add` of such a tree stands for one byte. -/
theorem go_weight_le_flatten :
    ∀ (t : List Bf2asm.Node) (a : List Char), flattenList t = some a → weight t ≤ a.length := by
  intro t
  induction t using Bf2asm.nodes_induction with
  | nil => intro a _; simp [go_weight_nil]
  | loop children rest ihc ihr =>
    intro a h
    obtain ⟨x, y, hx, hy, rfl⟩ := flattenList_cons_some h
    rw [flatten_loop] at hx
    cases hc : flattenList children with
    | none => simp [hc] at hx
    | some b =>
      rw [hc, Option.map_some', Option.some.injEq] at hx
      subst hx
      have h1 := ihc b hc
      have h2 := ihr y hy
      rw [go_weight_cons, go_nodeWeight_loop]
      simp only [List.length_append, List.length_cons, List.length_nil]
      omega
  | other n rest hn ihr =>
    intro a h
    obtain ⟨x, y, hx, hy, rfl⟩ := flattenList_cons_some h
    have h2 := ihr y hy
    rw [go_weight_cons, List.length_append]
    have h1 : nodeWeight n ≤ x.length := by
      cases n with
      | loop c => exact absurd rfl (hn c)
      | moveCell num =>
        simp only [Node.flatten] at hx
        split_ifs at hx <;> cases hx <;> simp_all [nodeWeight]
      | add num offset =>
        simp only [Node.flatten] at hx
        split_ifs at hx <;> cases hx <;> simp_all [nodeWeight]
      | print => simp [nodeWeight]
      | get => simp [nodeWeight]
      | clear offset => simp [Node.flatten] at hx
    omega

/-- On the tree parsed from a well-bracketed source that a Go byte slice can
hold (at most `9223372036854775807` bytes), the two passes on the Go values
compute what the two passes on the trees compute: no `int` wraps around. -/
theorem go_passes_ofNodes {source : List Char} {t : List Bf2asm.Node}
    (hw : WellBracketed source) (hp : parse source = some t)
    (hlen : source.length ≤ 9223372036854775807) :
    Optimize1 (ofNodes t) = ofNodes (Bf2asm.Optimize1 t) ∧
      Optimize2 (Optimize1 (ofNodes t)) = ofNodes (Bf2asm.Optimize2 (Bf2asm.Optimize1 t)) := by
  obtain ⟨t1, h1, h2⟩ := parse_flatten hw
  rw [hp] at h1
  cases h1
  have hwt : weight t ≤ 9223372036854775807 := by
    have := go_weight_le_flatten t _ h2
    have hf : (source.filter isCommand).length ≤ source.length := List.length_filter_le _ _
    omega
  obtain ⟨a1, a2⟩ := go_optimize1Loop_ofNodes t [] none (by simp only [go_pendingWeight_some, go_pendingWeight_none]; omega)
  rw [go_ofNodes_nil] at a1
  change Optimize1 (ofNodes t) = ofNodes (Bf2asm.Optimize1 t) at a1
  change weight (Bf2asm.Optimize1 t) ≤ _ at a2
  simp only [go_weight_nil, go_pendingWeight_none] at a2
  refine ⟨a1, ?_⟩
  rw [a1]
  exact go_Optimize2_ofNodes _ (go_offsetsFit_of_weight _ 0 (by simp; omega))

end Go

end Bf2asm
